import Mathlib

/-!
# Openstreet-Map: graph container and shortest-path engine

A shallow embedding of `graph.h` (the `graph<VertexT, WeightT>` class template) and of the
algorithmic functions of `application.cpp` (`Dijkstra`, `printPath`, `wayToEdge`,
`searchBuilding`, `findMidBuilding`, `closeID`, `closeBuilding`, the retry loop of
`application`), followed by theorems about them.

Modelling conventions.

* `std::map` / `std::unordered_map` are association lists with at most one entry per key.
  `count`, `at`, `operator[]` and `size` are the only container operations the code uses on
  them (iteration over `EdgeList` only happens in `getVertices`, whose order is unspecified
  for an unordered container), so the position of an entry in the list is never observed.
  A read `m[k]` of an absent key inserts a value-initialised entry, as in C++.
* `std::set` is a strictly ascending list: iteration over a set is in ascending order.
* `long long` vertex identifiers are `Int` when a concrete type is needed; the container
  itself is generic in the vertex and weight types, as in the source.
* `double` is an arbitrary linearly ordered type `W` with an addition and a zero. The
  theorems about `Dijkstra` state which properties of the addition they use (monotonicity,
  `a ≤ a + w` for `0 ≤ w`); correctly rounded floating-point addition on non-NaN values has
  both, and so has the addition of `Nat`. `INF` (`numeric_limits<double>::max()`) is a
  parameter of the model: a designated value of `W`, which need not be the largest one
  (`+infinity` is larger than `INF`). `Dbl` is a ten-element fragment of the doubles that
  contains `INF` and `+infinity`.
* `std::priority_queue` is the list of its entries. Which of several entries of least
  `second` is on top is not fixed by the C++ standard; the model takes the choice made in
  each iteration from a parameter `tie`, and the theorems hold for every `tie`.
* Loops that are not bounded by a container are unrolled `fuel` times; the theorems show
  that `fuelBound` iterations are enough.
* Claims about what happens during a run of `Dijkstra` (which iterations visit a vertex,
  how often `pq.push` is called) are stated about `dijkstraLoopLog`, the main loop with a
  record of each iteration; `dijkstraLoopLog_fst` shows that it computes what
  `dijkstraLoop` computes.
* `std::string` is a list of characters, `std::vector` a list.
* `distBetween2Points` and `centerBetween2Points` (`dist.h`) are the two fields of a
  parameter `Geometry W`; the theorems state which properties of them they use. `natGeo` is
  a stand-in on natural-number coordinates for the examples.
-/

namespace OSM

/-! ## Containers -/

section Containers

variable {K V : Type} [DecidableEq K]

/-- Lookup of a key, `m.find(k)`: the mapped value, if the key is present. -/
def mapFind : List (K × V) → K → Option V
  | [], _ => none
  | (k', v) :: m, k => if k' = k then some v else mapFind m k

/-- Number of entries with key `k`, `m.count(k)` (0 or 1 in a map). -/
def mapCount (m : List (K × V)) (k : K) : Nat :=
  match mapFind m k with
  | some _ => 1
  | none => 0

/-- Assignment `m[k] = v`: overwrites the mapped value of a present key, inserts otherwise. -/
def mapAssign : List (K × V) → K → V → List (K × V)
  | [], k, v => [(k, v)]
  | (k', v') :: m, k, v => if k' = k then (k', v) :: m else (k', v') :: mapAssign m k v

/-- Read access `m[k]`: the mapped value, value-initialised (`dflt`) when the key is absent. -/
def mapGet (dflt : V) (m : List (K × V)) (k : K) : V :=
  match mapFind m k with
  | some v => v
  | none => dflt

/-- Side effect on the map of a read access `m[k]`: an absent key is inserted with a
value-initialised mapped value. -/
def mapTouch (dflt : V) (m : List (K × V)) (k : K) : List (K × V) :=
  match mapFind m k with
  | some _ => m
  | none => mapAssign m k dflt

end Containers

section Sets

variable {K : Type} [LinearOrder K]

/-- Insertion `s.insert(x)` into an ordered set. -/
def setInsert : List K → K → List K
  | [], x => [x]
  | y :: s, x => if x < y then x :: y :: s else if x = y then y :: s else y :: setInsert s x

/-- Membership count `s.count(x)` of a set (0 or 1). -/
def setCount (s : List K) (x : K) : Nat := if x ∈ s then 1 else 0

end Sets

/-- Conversion `static_cast<int>(n)` of a container size to a 32-bit `int`. -/
def toInt32 (n : Nat) : Int := ((n : Int) + 2147483648) % 4294967296 - 2147483648

/-! ## The graph class -/

/-- State of a `graph<VertexT, WeightT>` object: its two private members. -/
structure graph (VertexT WeightT : Type) where
  EdgeList : List (VertexT × List VertexT)
  WeightList : List ((VertexT × VertexT) × WeightT)
deriving DecidableEq

namespace graph

variable {VertexT WeightT : Type} [LinearOrder VertexT]

/-- The default constructor: no vertices, no edges. -/
def empty : graph VertexT WeightT := ⟨[], []⟩

/-- Method `clear()`. -/
def clear (_g : graph VertexT WeightT) : graph VertexT WeightT := ⟨[], []⟩

/-- Method `NumVertices()`. -/
def NumVertices (g : graph VertexT WeightT) : Int := toInt32 g.EdgeList.length

/-- Method `NumEdges()`. -/
def NumEdges (g : graph VertexT WeightT) : Int := toInt32 g.WeightList.length

/-- Method `addVertex(v)`: the returned flag and the state afterwards. -/
def addVertex (g : graph VertexT WeightT) (v : VertexT) : Bool × graph VertexT WeightT :=
  if mapCount g.EdgeList v ≠ 0 then (false, g)
  else (true, { g with EdgeList := mapAssign g.EdgeList v [] })

/-- Method `addEdge(from, to, weight)`: the returned flag and the state afterwards. -/
def addEdge (g : graph VertexT WeightT) (vfrom vto : VertexT) (weight : WeightT) :
    Bool × graph VertexT WeightT :=
  if mapCount g.EdgeList vfrom = 0 then (false, g)
  else if mapCount g.EdgeList vto = 0 then (false, g)
  else
    let EdgeList1 :=
      if setCount (mapGet [] g.EdgeList vfrom) vto = 0 then
        mapAssign g.EdgeList vfrom (setInsert (mapGet [] g.EdgeList vfrom) vto)
      else g.EdgeList
    (true, { EdgeList := EdgeList1, WeightList := mapAssign g.WeightList (vfrom, vto) weight })

/-- Method `getWeight(from, to, weight)`: the returned flag and the value of the reference
parameter `weight` afterwards. -/
def getWeight (g : graph VertexT WeightT) (vfrom vto : VertexT) (weight : WeightT) :
    Bool × WeightT :=
  if mapCount g.EdgeList vfrom = 0 then (false, weight)
  else if mapCount g.EdgeList vto = 0 then (false, weight)
  else if mapCount g.WeightList (vfrom, vto) = 0 then (false, weight)
  else (true, mapGet weight g.WeightList (vfrom, vto))

/-- Method `neighbors(v)`: the returned set, in ascending order. -/
def neighbors (g : graph VertexT WeightT) (v : VertexT) : List VertexT :=
  if mapCount g.EdgeList v = 0 then [] else mapGet [] g.EdgeList v

/-- Method `getVertices()`. -/
def getVertices (g : graph VertexT WeightT) : List VertexT := g.EdgeList.map Prod.fst

end graph

/-- A call of one of the mutating methods of the class. -/
inductive Op (VertexT WeightT : Type) where
  | addVertex (v : VertexT)
  | addEdge (vfrom vto : VertexT) (weight : WeightT)
  | clear
deriving DecidableEq

namespace graph

variable {VertexT WeightT : Type} [LinearOrder VertexT]

/-- State after one method call. -/
def apply (g : graph VertexT WeightT) : Op VertexT WeightT → graph VertexT WeightT
  | Op.addVertex v => (g.addVertex v).2
  | Op.addEdge vfrom vto weight => (g.addEdge vfrom vto weight).2
  | Op.clear => g.clear

/-- State of a default-constructed graph after the method calls `ops`, in order. -/
def run (ops : List (Op VertexT WeightT)) : graph VertexT WeightT :=
  ops.foldl apply empty

/-- Some call `addEdge(vfrom, vto, _)` among the calls `ops` returned true. -/
def EdgeAdded (ops : List (Op VertexT WeightT)) (vfrom vto : VertexT) : Prop :=
  ∃ ops1 weight ops2, ops = ops1 ++ Op.addEdge vfrom vto weight :: ops2 ∧
    ((run ops1).addEdge vfrom vto weight).1 = true

/-- The class invariant: keys are unique, adjacency sets are ascending, every member of an
adjacency set is a vertex and has a weight, every weight belongs to a member of an adjacency
set between two vertices. -/
structure WF (g : graph VertexT WeightT) : Prop where
  keys_nodup : (g.EdgeList.map Prod.fst).Nodup
  adj_sorted : ∀ e ∈ g.EdgeList, e.2.Sorted (· < ·)
  wkeys_nodup : (g.WeightList.map Prod.fst).Nodup
  adj_closed : ∀ e ∈ g.EdgeList, ∀ u ∈ e.2,
    u ∈ g.EdgeList.map Prod.fst ∧ (e.1, u) ∈ g.WeightList.map Prod.fst
  weight_closed : ∀ e ∈ g.WeightList,
    e.1.1 ∈ g.EdgeList.map Prod.fst ∧ e.1.2 ∈ g.EdgeList.map Prod.fst ∧
      e.1.2 ∈ mapGet [] g.EdgeList e.1.1

/-- The `EdgeList` member after a successful `addEdge(vfrom, vto, _)`. -/
def edgeListAfter (g : graph VertexT WeightT) (vfrom vto : VertexT) :
    List (VertexT × List VertexT) :=
  if setCount (mapGet [] g.EdgeList vfrom) vto = 0 then
    mapAssign g.EdgeList vfrom (setInsert (mapGet [] g.EdgeList vfrom) vto)
  else g.EdgeList

end graph

/-! ## The shortest-path engine -/

/-- Result of running a function that may throw `std::out_of_range` (`map::at`) and whose
loops are unrolled at most `fuel` times. -/
inductive Run (α : Type) where
  | done (a : α)
  | out_of_range
  | out_of_fuel
deriving DecidableEq

section Dijkstra

variable {W : Type} [LinearOrder W] [Add W] [Zero W]

/-- The comparison object `prioritize` of the priority queue. -/
def prioritize (p1 p2 : Int × W) : Bool := decide (p1.2 > p2.2)

/-- Left-to-right scan for an entry that `prioritize` ranks below no other entry. -/
def pqTopFrom : Int × W → List (Int × W) → Int × W
  | best, [] => best
  | best, x :: xs => if prioritize best x then pqTopFrom x xs else pqTopFrom best xs

/-- The entry `pq.top()` of a priority queue holding the entries `pq`, `none` when
`pq.empty()`. Which of several entries of equal priority is on top depends on the heap
layout; `choice` selects it: the scan starts at position `choice` of the list. -/
def pqTop (choice : Nat) (pq : List (Int × W)) : Option (Int × W) :=
  match pq.rotate choice with
  | [] => none
  | x :: xs => some (pqTopFrom x xs)

/-- The local variables of `Dijkstra` that live across iterations of its main loop. -/
structure DijkstraState (W : Type) where
  distances : List (Int × W)
  prev : List (Int × Int)
  visitSet : List Int
  pq : List (Int × W)
deriving DecidableEq

/-- Body of the initialisation loop of `Dijkstra` for one vertex `v`. -/
def dijkstraInit (INF : W) (st : DijkstraState W) (v : Int) : DijkstraState W :=
  { distances := mapAssign st.distances v INF
    prev := mapAssign st.prev v 0
    visitSet := st.visitSet
    pq := st.pq ++ [(v, INF)] }

/-- Body of the inner loop of `Dijkstra` for the neighbour `adjV` of `currentV`. -/
def dijkstraRelax (G : graph Int W) (currentV : Int) (st : DijkstraState W) (adjV : Int) :
    DijkstraState W :=
  let edgeData := (G.getWeight currentV adjV 0).2
  let distances1 := mapTouch 0 st.distances currentV
  let altDistance := mapGet 0 distances1 currentV + edgeData
  let distances2 := mapTouch 0 distances1 adjV
  if altDistance < mapGet 0 distances2 adjV then
    { distances := mapAssign distances2 adjV altDistance
      prev := mapAssign st.prev adjV currentV
      visitSet := st.visitSet
      pq := st.pq ++ [(adjV, altDistance)] }
  else { st with distances := distances2 }

/-- The main loop of `Dijkstra`, unrolled at most `fuel` times; `n` counts the iterations
done so far and `tie n` is the choice the priority queue makes among equal priorities in
iteration `n`. `none` when `fuel` iterations did not finish the loop. -/
def dijkstraLoop (INF : W) (G : graph Int W) (tie : Nat → Nat) :
    Nat → Nat → DijkstraState W → Option (DijkstraState W)
  | 0, _, _ => none
  | fuel + 1, n, st =>
    match pqTop (tie n) st.pq with
    | none => some st
    | some currentV =>
      let pq1 := st.pq.erase currentV
      let distances1 := mapTouch 0 st.distances currentV.1
      if mapGet 0 distances1 currentV.1 = INF then
        some { st with distances := distances1, pq := pq1 }
      else if setCount st.visitSet currentV.1 > 0 then
        dijkstraLoop INF G tie fuel (n + 1) { st with distances := distances1, pq := pq1 }
      else
        dijkstraLoop INF G tie fuel (n + 1)
          ((G.neighbors currentV.1).foldl (dijkstraRelax G currentV.1)
            { distances := distances1
              prev := st.prev
              visitSet := setInsert st.visitSet currentV.1
              pq := pq1 })

/-- Function `Dijkstra(G, startV, distances)`: the returned `prev` map and the value of the
reference parameter `distances` afterwards. -/
def Dijkstra (INF : W) (G : graph Int W) (startV : Int) (distances : List (Int × W))
    (tie : Nat → Nat) (fuel : Nat) : Run (List (Int × Int) × List (Int × W)) :=
  let st0 := G.getVertices.foldl (dijkstraInit INF)
    { distances := distances, prev := [], visitSet := [], pq := [] }
  if mapCount st0.distances startV = 0 then Run.out_of_range
  else
    match dijkstraLoop INF G tie fuel 0
        { st0 with distances := mapAssign st0.distances startV 0
                   pq := st0.pq ++ [(startV, 0)] } with
    | none => Run.out_of_fuel
    | some st => Run.done (st.prev, st.distances)

end Dijkstra

/-- Function `printPath(prev, start, cur)` with at most `fuel` nested calls: the value of the
reference parameter `prev` afterwards and the vertices printed, in order. -/
def printPath : Nat → List (Int × Int) → Int → Int → Option (List (Int × Int) × List Int)
  | 0, _, _, _ => none
  | fuel + 1, prev, start, cur =>
    if start = cur then some (prev, [start])
    else
      match printPath fuel (mapTouch 0 prev cur) start (mapGet 0 prev cur) with
      | none => none
      | some (prev1, out) => some (prev1, out ++ [cur])

section DijkstraDefs

variable {W : Type} [LinearOrder W] [Add W] [Zero W]

/-- The value of the local `edgeData` of `Dijkstra` for the pair `(u, v)`: the weight
reported by `getWeight`, and the initial value `0` when `getWeight` reports none. -/
def graph.edgeData (G : graph Int W) (u v : Int) : W := (G.getWeight u v 0).2

/-- The value read by `distances[v]`. -/
def DijkstraState.D (st : DijkstraState W) (v : Int) : W := mapGet 0 st.distances v

/-- The value read by `prev[v]`. -/
def DijkstraState.P (st : DijkstraState W) (v : Int) : Int := mapGet 0 st.prev v

/-- Directed walks: `Walk G s v rest` says that the vertices `v :: rest`, read from right
to left, go from `s` to `v` along edges of `G` (each vertex is among the `neighbors` of the
one listed after it). -/
def Walk (G : graph Int W) (s : Int) : Int → List Int → Prop
  | v, [] => v = s
  | v, u :: rest => v ∈ G.neighbors u ∧ Walk G s u rest

/-- Accumulated weight of the walk `v :: rest` (listed from its end back to its start), summed
from the start of the walk on, one edge at a time, as `Dijkstra` accumulates `altDistance`. -/
def walkCost (G : graph Int W) : Int → List Int → W
  | _, [] => 0
  | v, u :: rest => walkCost G u rest + G.edgeData u v

/-- Walks along the predecessor map: `PrevWalk P s v rest` says that `v :: rest` is
`v, P v, P (P v), ...` up to the first occurrence of `s`. -/
def PrevWalk (P : Int → Int) (s : Int) : Int → List Int → Prop
  | v, [] => v = s
  | v, u :: rest => v ≠ s ∧ P v = u ∧ PrevWalk P s u rest

/-- Reachability by a directed walk. -/
def Reach (G : graph Int W) (s v : Int) : Prop := ∃ rest, Walk G s v rest

/-- All stored edge weights are non-negative. -/
def graph.NonNeg (G : graph Int W) : Prop := ∀ e ∈ G.WeightList, 0 ≤ e.2

/-- Number of loop iterations that `Dijkstra` cannot exceed on `G`: one for each initial
queue entry, one for each member of an adjacency set, and one more to see the queue
empty. -/
def graph.fuelBound (G : graph Int W) : Nat :=
  G.EdgeList.length + (G.EdgeList.map (fun e => e.2.length)).sum + 2

/-- The part of the loop invariant of `Dijkstra` that does not mention the queue: the
source has distance zero, distances are non-negative and at most `INF`, visited vertices
are vertices with a distance below `INF`, a vertex with a predecessor other than `0` has
a distance below `INF`, and every vertex with a distance below `INF` is
the end of a walk from the source along the predecessor map whose other vertices are
visited, which repeats no vertex and whose accumulated weight is that distance. -/
structure TreeInv (INF : W) (G : graph Int W) (s : Int) (D : Int → W) (P : Int → Int)
    (vis : List Int) : Prop where
  src : D s = 0
  nonneg : ∀ v, 0 ≤ D v
  le_inf : ∀ v ∈ G.getVertices, D v ≤ INF
  vis_fin : ∀ x ∈ vis, x ∈ G.getVertices ∧ D x < INF
  unset : ∀ v, P v ≠ 0 → v ∈ G.getVertices ∧ D v < INF
  tree : ∀ v ∈ G.getVertices, D v < INF →
    ∃ rest, Walk G s v rest ∧ PrevWalk P s v rest ∧ (∀ x ∈ rest, x ∈ vis) ∧
      (v :: rest).Nodup ∧ walkCost G v rest = D v

/-- The part of the loop invariant of `Dijkstra` about the queue: entries are vertices, the
priority of an entry is at least the current distance of its vertex and at least the
distance of every visited vertex, and every unvisited vertex with a distance below `INF`
has an entry with that distance as priority. -/
structure QueueInv (INF : W) (G : graph Int W) (D : Int → W) (vis : List Int)
    (pq : List (Int × W)) : Prop where
  pq_vert : ∀ e ∈ pq, e.1 ∈ G.getVertices
  pq_ge : ∀ e ∈ pq, D e.1 ≤ e.2
  vis_le : ∀ x ∈ vis, ∀ e ∈ pq, D x ≤ e.2
  live : ∀ v ∈ G.getVertices, v ∉ vis → D v < INF → (v, D v) ∈ pq

/-- All edges leaving `x` are relaxed. -/
def Relaxed (G : graph Int W) (D : Int → W) (x : Int) : Prop :=
  ∀ a ∈ G.neighbors x, D a ≤ D x + G.edgeData x a

/-- The loop invariant of `Dijkstra` at the head of the main loop. -/
structure LoopInv (INF : W) (G : graph Int W) (s : Int) (D : Int → W) (P : Int → Int)
    (vis : List Int) (pq : List (Int × W)) : Prop where
  tree : TreeInv INF G s D P vis
  queue : QueueInv INF G D vis pq
  relaxed : ∀ x ∈ vis, Relaxed G D x

/-- The invariant of the inner loop of `Dijkstra` while the neighbours of `u` are relaxed,
`done` being the neighbours already handled. -/
structure MidInv (INF : W) (G : graph Int W) (s : Int) (u : Int) (done : List Int)
    (D : Int → W) (P : Int → Int) (vis : List Int) (pq : List (Int × W)) : Prop where
  tree : TreeInv INF G s D P vis
  queue : QueueInv INF G D vis pq
  relaxed : ∀ x ∈ vis, x ≠ u → Relaxed G D x
  cur_mem : u ∈ vis
  cur_max : ∀ x ∈ vis, D x ≤ D u
  done_le : ∀ a ∈ done, D a ≤ D u + G.edgeData u a

/-- What holds when the main loop of `Dijkstra` is left. -/
structure PostInv (INF : W) (G : graph Int W) (s : Int) (D : Int → W) (P : Int → Int)
    (vis : List Int) : Prop where
  tree : TreeInv INF G s D P vis
  relaxed : ∀ x ∈ vis, Relaxed G D x
  closed : ∀ v ∈ G.getVertices, D v < INF → v ∈ vis

/-- Sum of the sizes of the adjacency sets of the vertices outside `vis`. -/
def graph.degreeOutside (G : graph Int W) (vis : List Int) : Nat :=
  ((G.EdgeList.filter (fun e => e.1 ∉ vis)).map (fun e => e.2.length)).sum

end DijkstraDefs

/-! ## The shortest-path engine with a log of its iterations -/

/-- The branch that an iteration of the main loop of `Dijkstra` takes after it has taken an
entry from the queue: `break` (`stop`), `continue` (`skip`), or the last one, in which the
vertex is marked visited and its neighbours are relaxed (`visit`). -/
inductive Branch where
  | stop
  | skip
  | visit
deriving DecidableEq

/-- Record of one iteration of the main loop of `Dijkstra`: the entry `currentV` taken from
the queue, the state before the iteration, the branch taken, the number of `pq.push` calls
made, and the state after the iteration. -/
structure IterRecord (W : Type) where
  currentV : Int × W
  before : DijkstraState W
  branch : Branch
  pushes : Nat
  after : DijkstraState W
deriving DecidableEq

section DijkstraLog

variable {W : Type} [LinearOrder W] [Add W] [Zero W]

/-- The state after an iteration of the main loop of `Dijkstra` that takes the entry
`currentV` from the queue and leaves by `break` or `continue`. -/
def dijkstraDiscard (st : DijkstraState W) (currentV : Int × W) : DijkstraState W :=
  { st with distances := mapTouch 0 st.distances currentV.1, pq := st.pq.erase currentV }

/-- The state after an iteration of the main loop of `Dijkstra` that takes the entry
`currentV` from the queue, marks its vertex visited and relaxes its neighbours. -/
def dijkstraVisit (G : graph Int W) (st : DijkstraState W) (currentV : Int × W) :
    DijkstraState W :=
  (G.neighbors currentV.1).foldl (dijkstraRelax G currentV.1)
    { distances := mapTouch 0 st.distances currentV.1
      prev := st.prev
      visitSet := setInsert st.visitSet currentV.1
      pq := st.pq.erase currentV }

/-- Number of `pq.push` calls of the inner loop of `Dijkstra` over the neighbours `l` of
`currentV`, started in the state `st`: one for every neighbour for which the test
`altDistance < distances[adjV]` succeeds. -/
def relaxPushes (G : graph Int W) (currentV : Int) : DijkstraState W → List Int → Nat
  | _, [] => 0
  | st, adjV :: l =>
    let edgeData := (G.getWeight currentV adjV 0).2
    let distances1 := mapTouch 0 st.distances currentV
    let altDistance := mapGet 0 distances1 currentV + edgeData
    let distances2 := mapTouch 0 distances1 adjV
    (if altDistance < mapGet 0 distances2 adjV then 1 else 0)
      + relaxPushes G currentV (dijkstraRelax G currentV st adjV) l

/-- The main loop of `Dijkstra` as in `dijkstraLoop`, together with the records of its
iterations, in order. -/
def dijkstraLoopLog (INF : W) (G : graph Int W) (tie : Nat → Nat) :
    Nat → Nat → DijkstraState W → Option (DijkstraState W × List (IterRecord W))
  | 0, _, _ => none
  | fuel + 1, n, st =>
    match pqTop (tie n) st.pq with
    | none => some (st, [])
    | some currentV =>
      if mapGet 0 (mapTouch 0 st.distances currentV.1) currentV.1 = INF then
        some (dijkstraDiscard st currentV,
          [⟨currentV, st, Branch.stop, 0, dijkstraDiscard st currentV⟩])
      else if setCount st.visitSet currentV.1 > 0 then
        match dijkstraLoopLog INF G tie fuel (n + 1) (dijkstraDiscard st currentV) with
        | none => none
        | some (r, log) =>
          some (r, ⟨currentV, st, Branch.skip, 0, dijkstraDiscard st currentV⟩ :: log)
      else
        match dijkstraLoopLog INF G tie fuel (n + 1) (dijkstraVisit G st currentV) with
        | none => none
        | some (r, log) =>
          some (r, ⟨currentV, st, Branch.visit,
            relaxPushes G currentV.1
              { distances := mapTouch 0 st.distances currentV.1
                prev := st.prev
                visitSet := setInsert st.visitSet currentV.1
                pq := st.pq.erase currentV } (G.neighbors currentV.1),
            dijkstraVisit G st currentV⟩ :: log)

/-- Function `Dijkstra(G, startV, distances)` as in `Dijkstra`, with the final values of all
local variables and the records of the iterations of its main loop. -/
def DijkstraLog (INF : W) (G : graph Int W) (startV : Int) (distances : List (Int × W))
    (tie : Nat → Nat) (fuel : Nat) : Run (DijkstraState W × List (IterRecord W)) :=
  let st0 := G.getVertices.foldl (dijkstraInit INF)
    { distances := distances, prev := [], visitSet := [], pq := [] }
  if mapCount st0.distances startV = 0 then Run.out_of_range
  else
    match dijkstraLoopLog INF G tie fuel 0
        { st0 with distances := mapAssign st0.distances startV 0
                   pq := st0.pq ++ [(startV, 0)] } with
    | none => Run.out_of_fuel
    | some r => Run.done r

/-- The vertices that the recorded iterations marked visited and whose neighbours they
relaxed, in order. -/
def visited (log : List (IterRecord W)) : List Int :=
  (log.filter (fun rec => decide (rec.branch = Branch.visit))).map (fun rec => rec.currentV.1)

/-- The number of `pq.push` calls of a run of `Dijkstra` on `G` with the recorded
iterations: one for every vertex in the initialisation loop, one for the source, and those
of the iterations of the main loop. -/
def totalPushes (G : graph Int W) (log : List (IterRecord W)) : Nat :=
  G.getVertices.length + 1 + (log.map (fun rec => rec.pushes)).sum

/-- What holds of the queue at the head of the main loop of `Dijkstra` whatever the signs of
the weights: the vertex of every entry is a key of the distance map, the priority of an
entry is at least the current distance of its vertex, and an unvisited vertex with an entry
has an entry whose priority is its current distance. -/
structure QueueOK (st : DijkstraState W) : Prop where
  key : ∀ e ∈ st.pq, e.1 ∈ st.distances.map Prod.fst
  ge : ∀ e ∈ st.pq, st.D e.1 ≤ e.2
  live : ∀ e ∈ st.pq, e.1 ∉ st.visitSet → (e.1, st.D e.1) ∈ st.pq

end DijkstraLog

/-! ## The application: buildings, footways and the meeting-point search -/

/-- Struct `Coordinates` (declared in `osm.h`, which is not among the sources): the two
members that `application.cpp` reads. -/
structure Coordinates (W : Type) where
  Lat : W
  Lon : W
deriving DecidableEq

/-- Struct `BuildingInfo` (declared in `osm.h`): the members that `application.cpp` reads. A
`std::string` is the list of its characters. -/
structure BuildingInfo (W : Type) where
  Fullname : List Char
  Abbrev : List Char
  Coords : Coordinates W
deriving DecidableEq

/-- Struct `FootwayInfo` (declared in `osm.h`): the member that `application.cpp` reads. -/
structure FootwayInfo where
  Nodes : List Int
deriving DecidableEq

/-- The two functions of `dist.h` that `application.cpp` calls (`dist.h` is not among the
sources): they are parameters of the model. -/
structure Geometry (W : Type) where
  distBetween2Points : W → W → W → W → W
  centerBetween2Points : W → W → W → W → Coordinates W

section Application

variable {W : Type} [LinearOrder W] [Add W] [Zero W]

/-- Modelled from the spec: the value-initialised `Coordinates` (its constructor is in
`osm.h`), the coordinate of the zero-value sentinel building. -/
def Coordinates.blank : Coordinates W := ⟨0, 0⟩

/-- Modelled from the spec: the default-constructed `BuildingInfo` (its constructor is in
`osm.h`), the sentinel building with empty full name, empty abbreviation and zero
coordinates. -/
def BuildingInfo.blank : BuildingInfo W := ⟨[], [], Coordinates.blank⟩

/-- Position `s.find(str)` of the first occurrence of `str` in `s`, `none` for
`string::npos`. -/
def stringFind (str : List Char) : List Char → Option Nat
  | [] => if str = [] then some 0 else none
  | c :: cs => if str.isPrefixOf (c :: cs) then some 0 else (stringFind str cs).map (· + 1)

/-- Function `wayToEdge(g, footway, cods)` on the nodes of the footway that are still to be
handled: the graph afterwards. The loop index is an `int`; footways have fewer than `2^31`
nodes. -/
def wayToEdgeNodes (geo : Geometry W) (cods : List (Int × Coordinates W)) :
    graph Int W → List Int → graph Int W
  | g, ID1 :: ID2 :: rest =>
    let distance := geo.distBetween2Points (mapGet Coordinates.blank cods ID1).Lat
      (mapGet Coordinates.blank cods ID1).Lon (mapGet Coordinates.blank cods ID2).Lat
      (mapGet Coordinates.blank cods ID2).Lon
    wayToEdgeNodes geo cods ((g.addEdge ID1 ID2 distance).2.addEdge ID2 ID1 distance).2
      (ID2 :: rest)
  | g, _ => g

/-- Function `wayToEdge(g, footway, cods)`: the graph `g` afterwards. -/
def wayToEdge (geo : Geometry W) (g : graph Int W) (footway : FootwayInfo)
    (cods : List (Int × Coordinates W)) : graph Int W :=
  wayToEdgeNodes geo cods g footway.Nodes

/-- Function `searchBuilding(str, Buildings)`. -/
def searchBuilding (str : List Char) (Buildings : List (BuildingInfo W)) : BuildingInfo W :=
  let building := (Buildings.find? (fun b => decide (str = b.Abbrev))).getD BuildingInfo.blank
  if building.Abbrev = [] ∧ building.Fullname = [] then
    (Buildings.find? (fun b => (stringFind str b.Fullname).isSome)).getD building
  else building

/-- Function `findMidBuilding(b1, b2, Buildings, found)`; the state of its loop is the pair
of `min` and `midBuilding`. -/
def findMidBuilding (INF : W) (geo : Geometry W) (b1 b2 : BuildingInfo W)
    (Buildings : List (BuildingInfo W)) (found : List (List Char)) : BuildingInfo W :=
  let c1 := b1.Coords
  let c2 := b2.Coords
  let M := geo.centerBetween2Points c1.Lat c1.Lon c2.Lat c2.Lon
  (Buildings.foldl (fun (acc : W × BuildingInfo W) b =>
      let distance := geo.distBetween2Points M.Lat M.Lon b.Coords.Lat b.Coords.Lon
      if distance < acc.1 ∧ setCount found b.Fullname = 0 then (distance, b) else acc)
    (INF, BuildingInfo.blank)).2

/-- Function `closeID(b, foots, coords)`; the state of its loops is the pair of `min` and
`ID`. -/
def closeID (INF : W) (geo : Geometry W) (b : BuildingInfo W) (foots : List FootwayInfo)
    (coords : List (Int × Coordinates W)) : Int :=
  (foots.foldl (fun (acc : W × Int) foot =>
      foot.Nodes.foldl (fun (acc : W × Int) f =>
          let distance := geo.distBetween2Points b.Coords.Lat b.Coords.Lon
            (mapGet Coordinates.blank coords f).Lat (mapGet Coordinates.blank coords f).Lon
          if distance < acc.1 then (distance, f) else acc)
        acc)
    (INF, 0)).2

/-- Function `closeBuilding(b, Buildings, v)`: the vector `v` afterwards; the state of its
outer loop is the pair of `min` and `close`. -/
def closeBuilding (INF : W) (geo : Geometry W) (b : BuildingInfo W)
    (Buildings : List (BuildingInfo W)) (v : List (BuildingInfo W)) : List (BuildingInfo W) :=
  let c := b.Coords
  v ++ [(Buildings.foldl (fun (acc : W × BuildingInfo W) B =>
      let distance := geo.distBetween2Points c.Lat c.Lon B.Coords.Lat B.Coords.Lon
      if distance < acc.1 ∧ B.Fullname ≠ b.Fullname then
        if v.foldl (fun exist x => if x.Fullname = B.Fullname then true else exist) false
        then acc
        else (distance, B)
      else acc)
    (INF, BuildingInfo.blank)).2]

/-- The selection loop of `creative` with `k` iterations (`k = 5` in the source), started
with the vector `v`. -/
def closeBuildings (INF : W) (geo : Geometry W) (b : BuildingInfo W)
    (Buildings : List (BuildingInfo W)) : Nat → List (BuildingInfo W) → List (BuildingInfo W)
  | 0, v => v
  | k + 1, v => closeBuildings INF geo b Buildings k (closeBuilding INF geo b Buildings v)

/-- The variables of `application` that the retry loop changes. -/
structure RetryState (W : Type) where
  found : List (List Char)
  mBuilding : BuildingInfo W
  MidId : Int
deriving DecidableEq

/-- One rejection in the retry loop of `application`: the candidate is excluded and the next
candidate and its nearest node are computed. -/
def retryStep (INF : W) (geo : Geometry W) (Nodes : List (Int × Coordinates W))
    (Footways : List FootwayInfo) (Buildings : List (BuildingInfo W))
    (building1 building2 : BuildingInfo W) (st : RetryState W) : RetryState W :=
  let found := setInsert st.found st.mBuilding.Fullname
  let mBuilding := findMidBuilding INF geo building1 building2 Buildings found
  { found := found, mBuilding := mBuilding, MidId := closeID INF geo mBuilding Footways Nodes }

/-- The retry loop `while (flag)` of `application`, unrolled at most `fuel` times, for the
distance maps `distances1` and `distances2` of the two persons: the state in which the loop
is left, `none` when `fuel` iterations did not finish it. A read `distances1[MidId]` of an
absent key yields `0` and inserts that entry, which changes no later read. -/
def retryLoop (INF : W) (geo : Geometry W) (Nodes : List (Int × Coordinates W))
    (Footways : List FootwayInfo) (Buildings : List (BuildingInfo W))
    (building1 building2 : BuildingInfo W) (distances1 distances2 : List (Int × W)) :
    Nat → RetryState W → Option (RetryState W)
  | 0, _ => none
  | fuel + 1, st =>
    if mapGet 0 distances1 st.MidId ≥ INF ∨ mapGet 0 distances2 st.MidId ≥ INF then
      retryLoop INF geo Nodes Footways Buildings building1 building2 distances1 distances2
        fuel (retryStep INF geo Nodes Footways Buildings building1 building2 st)
    else some st

/-- The state in which `application` enters the retry loop: no name is excluded, the
candidate is the building nearest the midpoint. -/
def retryStart (INF : W) (geo : Geometry W) (Nodes : List (Int × Coordinates W))
    (Footways : List FootwayInfo) (Buildings : List (BuildingInfo W))
    (building1 building2 : BuildingInfo W) : RetryState W :=
  { found := []
    mBuilding := findMidBuilding INF geo building1 building2 Buildings []
    MidId := closeID INF geo (findMidBuilding INF geo building1 building2 Buildings [])
      Footways Nodes }

/-- The exit test of the retry loop of `application` for the node `id`: both distance maps
hold a distance below `INF` for it. -/
def bothFinite (INF : W) (distances1 distances2 : List (Int × W)) (id : Int) : Prop :=
  mapGet 0 distances1 id < INF ∧ mapGet 0 distances2 id < INF

instance bothFinite.decidable (INF : W) (distances1 distances2 : List (Int × W)) (id : Int) :
    Decidable (bothFinite INF distances1 distances2 id) := by
  unfold bothFinite
  infer_instance

/-- The set `found` after the full names of the buildings `rejected` were inserted into it,
in this order. -/
def excludeAll (found : List (List Char)) (rejected : List (BuildingInfo W)) :
    List (List Char) :=
  rejected.foldl (fun f c => setInsert f c.Fullname) found

/-- The relation that the retry loop keeps between its variables: the candidate is what
`findMidBuilding` returns for the excluded set, the node is what `closeID` returns for the
candidate. -/
def RetryInv (INF : W) (geo : Geometry W) (Nodes : List (Int × Coordinates W))
    (Footways : List FootwayInfo) (Buildings : List (BuildingInfo W))
    (building1 building2 : BuildingInfo W) (st : RetryState W) : Prop :=
  st.mBuilding = findMidBuilding INF geo building1 building2 Buildings st.found ∧
  st.MidId = closeID INF geo st.mBuilding Footways Nodes

/-- The graph that `main` builds: one vertex per entry of the node table, then `wayToEdge`
for every footway. -/
def buildGraph (geo : Geometry W) (Nodes : List (Int × Coordinates W))
    (Footways : List FootwayInfo) : graph Int W :=
  Footways.foldl (fun g footway => wayToEdge geo g footway Nodes)
    (Nodes.foldl (fun g node => (g.addVertex node.1).2) graph.empty)

/-- The scan that `findMidBuilding`, `closeID` and `closeBuilding` have in common: the pair
of the least key seen and its element is replaced by every later element that satisfies `ok`
and has a strictly smaller key. -/
def scanMin {α : Type} (key : α → W) (ok : α → Prop) [DecidablePred ok] (l : List α)
    (start : W × α) : W × α :=
  l.foldl (fun acc x => if key x < acc.1 ∧ ok x then (key x, x) else acc) start

/-- The value of `distance` in `findMidBuilding` for the building `b`: its distance to the
midpoint of `b1` and `b2`. -/
def midDist (geo : Geometry W) (b1 b2 b : BuildingInfo W) : W :=
  geo.distBetween2Points
    (geo.centerBetween2Points b1.Coords.Lat b1.Coords.Lon b2.Coords.Lat b2.Coords.Lon).Lat
    (geo.centerBetween2Points b1.Coords.Lat b1.Coords.Lon b2.Coords.Lat b2.Coords.Lon).Lon
    b.Coords.Lat b.Coords.Lon

/-- The value of `distance` in `closeID` for the node `f`: its distance to the building
`b`. -/
def nodeDist (geo : Geometry W) (b : BuildingInfo W) (coords : List (Int × Coordinates W))
    (f : Int) : W :=
  geo.distBetween2Points b.Coords.Lat b.Coords.Lon
    (mapGet Coordinates.blank coords f).Lat (mapGet Coordinates.blank coords f).Lon

/-- The value of `distance` in `closeBuilding` for the building `B`: its distance to the
origin `b`. -/
def buildingDist (geo : Geometry W) (b B : BuildingInfo W) : W :=
  geo.distBetween2Points b.Coords.Lat b.Coords.Lon B.Coords.Lat B.Coords.Lon

/-- The value of `distance` in `wayToEdge` for the consecutive nodes `ID1` and `ID2`. -/
def nodeGap (geo : Geometry W) (cods : List (Int × Coordinates W)) (ID1 ID2 : Int) : W :=
  geo.distBetween2Points (mapGet Coordinates.blank cods ID1).Lat
    (mapGet Coordinates.blank cods ID1).Lon (mapGet Coordinates.blank cods ID2).Lat
    (mapGet Coordinates.blank cods ID2).Lon

/-- A building that `closeBuilding(b, Buildings, v)` may select: its full name differs from
the full name of `b` and from the full names in `v`. -/
def Eligible (b : BuildingInfo W) (v : List (BuildingInfo W)) (B : BuildingInfo W) : Prop :=
  B.Fullname ≠ b.Fullname ∧ ∀ x ∈ v, x.Fullname ≠ B.Fullname

instance Eligible.decidable (b : BuildingInfo W) (v : List (BuildingInfo W)) :
    DecidablePred (Eligible b v) := fun B => by
  unfold Eligible
  infer_instance

/-- The full names, other than that of `b`, that occur in the building list, each once. -/
def eligibleNames (b : BuildingInfo W) (Buildings : List (BuildingInfo W)) :
    List (List Char) :=
  ((Buildings.map (fun B => B.Fullname)).filter (fun n => n ≠ b.Fullname)).dedup

end Application

/-! ## Concrete inputs -/

/-- Method calls that build the graph of the scenarios: vertices 1, 2, 3, edges 1 -> 2
(weight 5) and 2 -> 3 (weight 3). -/
def scenarioOps : List (Op Int Nat) :=
  [Op.addVertex 1, Op.addVertex 2, Op.addVertex 3, Op.addEdge 1 2 5, Op.addEdge 2 3 3]

/-- Method calls that build a graph in which vertex 1 has a self-loop and lies on a cycle
through vertex 2. -/
def cycleOps : List (Op Int Nat) :=
  [Op.addVertex 1, Op.addVertex 2, Op.addEdge 1 1 0, Op.addEdge 1 2 1, Op.addEdge 2 1 0]

/-- A fragment of the IEEE 754 doubles that is closed under correctly rounded addition: the
code `k` with `k <= 7` stands for the double `k * 2^1021`, the code 8 for
`numeric_limits<double>::max()` (which is `2^1024 - 2^971`), the code 9 for `+infinity`. -/
structure Dbl where
  code : Fin 10
deriving DecidableEq

/-- Addition of doubles on the fragment: `k1 * 2^1021 + k2 * 2^1021` is exact as long as
`k1 + k2 <= 7`, adding zero changes nothing, and every other sum is at least `2^1024`
before rounding, so it overflows to `+infinity`. -/
def Dbl.add (a b : Dbl) : Dbl :=
  if a.code = 0 then b
  else if b.code = 0 then a
  else if h : a.code.val + b.code.val ≤ 7 then ⟨⟨a.code.val + b.code.val, by omega⟩⟩
  else ⟨9⟩

instance : Zero Dbl := ⟨⟨0⟩⟩

instance : Add Dbl := ⟨Dbl.add⟩

instance : LinearOrder Dbl :=
  LinearOrder.lift' (fun d : Dbl => d.code) (fun a b h => by cases a; cases b; simp_all)

/-- The double `numeric_limits<double>::max()`, the value of the constant `INF`. -/
def Dbl.max : Dbl := ⟨8⟩

/-- The double `+infinity`. -/
def Dbl.inf : Dbl := ⟨9⟩

/-- The double `7 * 2^1021`, about `1.57e308`. -/
def Dbl.big : Dbl := ⟨7⟩

/-- Method calls that build a graph with vertices 1, 2, 3 and the edges 1 -> 2 and 2 -> 3,
each of weight `7 * 2^1021`: two finite weights whose sum, `1.75 * 2^1024`, overflows. -/
def farOps : List (Op Int Dbl) :=
  [Op.addVertex 1, Op.addVertex 2, Op.addVertex 3, Op.addEdge 1 2 Dbl.big,
    Op.addEdge 2 3 Dbl.big]

/-- A stand-in for the two functions of `dist.h` on natural-number coordinates: the
distance of two points is the sum of the differences of their latitudes and of their
longitudes, the centre of two points has the means of their latitudes and longitudes. On
points of equal latitude both agree with the geodesic distance and midpoint about which of
two distances is the smaller. -/
def natGeo : Geometry Nat :=
  { distBetween2Points := fun lat1 lon1 lat2 lon2 =>
      (lat1 - lat2) + (lat2 - lat1) + ((lon1 - lon2) + (lon2 - lon1))
    centerBetween2Points := fun lat1 lon1 lat2 lon2 => ⟨(lat1 + lat2) / 2, (lon1 + lon2) / 2⟩ }

/-- Node table of a small campus: the nodes 1, 2 and 3 at longitudes 10, 30 and 20 on the
equator. -/
def campusNodes : List (Int × Coordinates Nat) := [(1, ⟨0, 10⟩), (2, ⟨0, 30⟩), (3, ⟨0, 20⟩)]

/-- Footways of the small campus: one from node 1 to node 2, and one that consists of
node 3 alone, which no other node reaches. -/
def campusFootways : List FootwayInfo := [⟨[1, 2]⟩, ⟨[3]⟩]

/-- Buildings with pairwise different full names: "A" (abbreviation "P1") at node 1, "B"
(abbreviation "P2") at node 2, and "C" at the isolated node 3, midway between them. -/
def campusBuildings : List (BuildingInfo Nat) :=
  [⟨['A'], ['P', '1'], ⟨0, 10⟩⟩, ⟨['B'], ['P', '2'], ⟨0, 30⟩⟩, ⟨['C'], [], ⟨0, 20⟩⟩]

/-- Buildings of which three have the full name "A": "A" (abbreviation "P1") at node 1, "B"
(abbreviation "P2") at node 2, a second "A" at the isolated node 3, and a third "A" at
longitude 26, nearest to node 2. -/
def twinBuildings : List (BuildingInfo Nat) :=
  [⟨['A'], ['P', '1'], ⟨0, 10⟩⟩, ⟨['B'], ['P', '2'], ⟨0, 30⟩⟩, ⟨['A'], [], ⟨0, 20⟩⟩,
    ⟨['A'], [], ⟨0, 26⟩⟩]

/-- The building of person 1 in the examples: "A", abbreviation "P1", at node 1. -/
def personA : BuildingInfo Nat := ⟨['A'], ['P', '1'], ⟨0, 10⟩⟩

/-- The building of person 2 in the examples: "B", abbreviation "P2", at node 2. -/
def personB : BuildingInfo Nat := ⟨['B'], ['P', '2'], ⟨0, 30⟩⟩

/-- The distance map that `Dijkstra` fills for the small campus from node 1, with
`INF = 1000`. -/
def campusDist1 : List (Int × Nat) := [(1, 0), (2, 20), (3, 1000)]

/-- The distance map that `Dijkstra` fills for the small campus from node 2, with
`INF = 1000`. -/
def campusDist2 : List (Int × Nat) := [(1, 20), (2, 0), (3, 1000)]

/-- The calls that add the three nodes of the small campus as vertices. -/
def campusVertexOps : List (Op Int Nat) := [Op.addVertex 1, Op.addVertex 2, Op.addVertex 3]

/-- Method calls that build a graph with a cycle of negative weight: vertices 1 and 2, edges
1 -> 2 and 2 -> 1 of weight -1 each. -/
def negCycleOps : List (Op Int Int) :=
  [Op.addVertex 1, Op.addVertex 2, Op.addEdge 1 2 (-1), Op.addEdge 2 1 (-1)]

/-! ## Lemmas on the containers -/

section ContainerLemmas

variable {K V : Type} [DecidableEq K]

theorem mapFind_mapAssign (m : List (K × V)) (k k' : K) (v : V) :
    mapFind (mapAssign m k v) k' = if k = k' then some v else mapFind m k' := by
  induction m with
  | nil => simp [mapAssign, mapFind]
  | cons e m ih =>
    obtain ⟨k0, v0⟩ := e
    by_cases h : k0 = k
    · subst h
      by_cases h' : k0 = k' <;> simp [mapAssign, mapFind, h']
    · by_cases h' : k0 = k'
      · subst h'
        simp [mapAssign, mapFind, h, Ne.symm h]
      · simp [mapAssign, mapFind, h, h', ih]

theorem mapFind_isSome_iff (m : List (K × V)) (k : K) :
    (mapFind m k).isSome ↔ k ∈ m.map Prod.fst := by
  induction m with
  | nil => simp [mapFind]
  | cons e m ih =>
    obtain ⟨k0, v0⟩ := e
    by_cases h : k0 = k
    · simp [mapFind, h]
    · simp only [mapFind, h, if_false, ih, List.map_cons, List.mem_cons]
      constructor
      · exact Or.inr
      · rintro (h1 | h1)
        · exact absurd h1.symm h
        · exact h1

theorem mapFind_eq_none_iff (m : List (K × V)) (k : K) :
    mapFind m k = none ↔ k ∉ m.map Prod.fst := by
  rw [← mapFind_isSome_iff]
  cases mapFind m k <;> simp

theorem mapCount_ne_zero_iff (m : List (K × V)) (k : K) :
    mapCount m k ≠ 0 ↔ k ∈ m.map Prod.fst := by
  rw [← mapFind_isSome_iff]
  unfold mapCount
  cases mapFind m k <;> simp

theorem mapCount_eq_zero_iff (m : List (K × V)) (k : K) :
    mapCount m k = 0 ↔ k ∉ m.map Prod.fst := by
  rw [← mapCount_ne_zero_iff]; simp

theorem mapGet_mapAssign (d : V) (m : List (K × V)) (k k' : K) (v : V) :
    mapGet d (mapAssign m k v) k' = if k = k' then v else mapGet d m k' := by
  unfold mapGet
  rw [mapFind_mapAssign]
  by_cases h : k = k' <;> simp [h]

theorem mapGet_mapTouch (d : V) (m : List (K × V)) (k k' : K) :
    mapGet d (mapTouch d m k) k' = mapGet d m k' := by
  unfold mapTouch
  cases h : mapFind m k with
  | some v => rfl
  | none =>
    simp only [mapGet_mapAssign]
    by_cases h' : k = k'
    · subst h'; simp [mapGet, h]
    · simp [h']

theorem map_fst_mapAssign (m : List (K × V)) (k : K) (v : V) :
    (mapAssign m k v).map Prod.fst
      = if k ∈ m.map Prod.fst then m.map Prod.fst else m.map Prod.fst ++ [k] := by
  induction m with
  | nil => simp [mapAssign]
  | cons e m ih =>
    obtain ⟨k0, v0⟩ := e
    by_cases h : k0 = k
    · simp [mapAssign, h]
    · have h' : ¬ k = k0 := fun h1 => h h1.symm
      simp only [mapAssign, h, if_false, List.map_cons, ih, List.mem_cons, h', false_or]
      split <;> simp

theorem length_mapAssign (m : List (K × V)) (k : K) (v : V) :
    (mapAssign m k v).length = if k ∈ m.map Prod.fst then m.length else m.length + 1 := by
  have := congrArg List.length (map_fst_mapAssign m k v)
  rw [List.length_map] at this
  rw [this]
  split <;> simp

theorem mem_map_fst_mapAssign (m : List (K × V)) (k k' : K) (v : V) :
    k' ∈ (mapAssign m k v).map Prod.fst ↔ k' = k ∨ k' ∈ m.map Prod.fst := by
  rw [map_fst_mapAssign]
  split
  · constructor
    · exact Or.inr
    · rintro (h | h)
      · subst h; assumption
      · exact h
  · simp [or_comm]

theorem nodup_map_fst_mapAssign (m : List (K × V)) (k : K) (v : V)
    (h : (m.map Prod.fst).Nodup) : ((mapAssign m k v).map Prod.fst).Nodup := by
  rw [map_fst_mapAssign]
  split
  · exact h
  · rename_i hk
    rw [List.nodup_append]
    refine ⟨h, List.nodup_singleton k, ?_⟩
    intro a ha hb
    simp only [List.mem_singleton] at hb
    subst hb
    exact hk ha

theorem mem_iff_mapFind (m : List (K × V)) (h : (m.map Prod.fst).Nodup) (k : K) (v : V) :
    (k, v) ∈ m ↔ mapFind m k = some v := by
  induction m with
  | nil => simp [mapFind]
  | cons e m ih =>
    obtain ⟨k0, v0⟩ := e
    simp only [List.map_cons, List.nodup_cons] at h
    by_cases hk : k0 = k
    · subst hk
      simp only [mapFind, if_true, List.mem_cons, Prod.mk.injEq, true_and, Option.some.injEq]
      constructor
      · rintro (h1 | h1)
        · exact h1.symm
        · exact absurd (List.mem_map_of_mem Prod.fst h1) h.1
      · intro h1; exact Or.inl h1.symm
    · simp only [mapFind, hk, if_false, List.mem_cons, Prod.mk.injEq, ← ih h.2]
      constructor
      · rintro (h1 | h1)
        · exact absurd h1.1.symm hk
        · exact h1
      · exact Or.inr

theorem mapFind_mem (m : List (K × V)) (k : K) (v : V) (h : mapFind m k = some v) :
    (k, v) ∈ m := by
  induction m with
  | nil => simp [mapFind] at h
  | cons e m ih =>
    obtain ⟨k0, v0⟩ := e
    by_cases hk : k0 = k
    · subst hk
      simp only [mapFind, if_true, Option.some.injEq] at h
      subst h
      exact List.mem_cons_self _ _
    · simp only [mapFind, hk, if_false] at h
      exact List.mem_cons_of_mem _ (ih h)

theorem mem_mapAssign (m : List (K × V)) (k : K) (v : V) (e : K × V)
    (h : e ∈ mapAssign m k v) : e = (k, v) ∨ e ∈ m := by
  induction m with
  | nil => simpa [mapAssign] using h
  | cons e0 m ih =>
    obtain ⟨k0, v0⟩ := e0
    by_cases hk : k0 = k
    · subst hk
      simp only [mapAssign, if_true, List.mem_cons] at h
      rcases h with h | h
      · exact Or.inl h
      · exact Or.inr (List.mem_cons_of_mem _ h)
    · simp only [mapAssign, hk, if_false, List.mem_cons] at h
      rcases h with h | h
      · exact Or.inr (h ▸ List.mem_cons_self _ _)
      · rcases ih h with h1 | h1
        · exact Or.inl h1
        · exact Or.inr (List.mem_cons_of_mem _ h1)

end ContainerLemmas

section SetLemmas

variable {K : Type} [LinearOrder K]

theorem mem_setInsert (s : List K) (x y : K) : y ∈ setInsert s x ↔ y = x ∨ y ∈ s := by
  induction s with
  | nil => simp [setInsert]
  | cons a s ih =>
    unfold setInsert
    split
    · simp
    · split
      · rename_i h1 h2
        subst h2
        simp
      · simp only [List.mem_cons, ih]
        tauto

theorem sorted_setInsert (s : List K) (x : K) (h : s.Sorted (· < ·)) :
    (setInsert s x).Sorted (· < ·) := by
  induction s with
  | nil => simp [setInsert]
  | cons a s ih =>
    have hs := List.sorted_cons.mp h
    unfold setInsert
    split
    · rename_i hxa
      refine List.sorted_cons.mpr ⟨?_, h⟩
      intro b hb
      rcases List.mem_cons.mp hb with hb | hb
      · exact hb ▸ hxa
      · exact lt_trans hxa (hs.1 b hb)
    · split
      · exact h
      · rename_i h1 h2
        refine List.sorted_cons.mpr ⟨?_, ih hs.2⟩
        intro b hb
        rcases (mem_setInsert s x b).mp hb with hb | hb
        · subst hb
          exact lt_of_le_of_ne (not_lt.mp h1) (Ne.symm h2)
        · exact hs.1 b hb

end SetLemmas

/-! ## Lemmas on the graph class -/

section ContainerLemmas2

variable {K V : Type} [DecidableEq K]

theorem mapGet_mem (d : V) (m : List (K × V)) (k : K) (h : k ∈ m.map Prod.fst) :
    (k, mapGet d m k) ∈ m := by
  cases hf : mapFind m k with
  | none => exact absurd h ((mapFind_eq_none_iff m k).mp hf)
  | some v =>
    have : mapGet d m k = v := by simp [mapGet, hf]
    rw [this]
    exact mapFind_mem m k v hf

theorem mapGet_of_not_mem (d : V) (m : List (K × V)) (k : K) (h : k ∉ m.map Prod.fst) :
    mapGet d m k = d := by
  have := (mapFind_eq_none_iff m k).mpr h
  simp [mapGet, this]

theorem mapGet_eq_of_mem (d : V) (m : List (K × V)) (hnd : (m.map Prod.fst).Nodup) (k : K)
    (v : V) (h : (k, v) ∈ m) : mapGet d m k = v := by
  have := (mem_iff_mapFind m hnd k v).mp h
  simp [mapGet, this]

end ContainerLemmas2

namespace graph

variable {VertexT WeightT : Type} [LinearOrder VertexT]

theorem neighbors_eq (g : graph VertexT WeightT) (v : VertexT) :
    g.neighbors v = mapGet [] g.EdgeList v := by
  unfold neighbors
  split
  · rename_i h
    rw [mapGet_of_not_mem _ _ _ ((mapCount_eq_zero_iff _ _).mp h)]
  · rfl

theorem neighbors_of_not_mem (g : graph VertexT WeightT) (v : VertexT)
    (h : v ∉ g.getVertices) : g.neighbors v = [] := by
  rw [neighbors_eq]
  exact mapGet_of_not_mem _ _ _ h

theorem WF_empty : (empty : graph VertexT WeightT).WF :=
  ⟨List.nodup_nil, by simp [empty], List.nodup_nil, by simp [empty], by simp [empty]⟩

theorem addVertex_fst (g : graph VertexT WeightT) (v : VertexT) :
    (g.addVertex v).1 = true ↔ v ∉ g.getVertices := by
  unfold addVertex getVertices
  by_cases h : mapCount g.EdgeList v = 0
  · simp [h, (mapCount_eq_zero_iff _ _).mp h]
  · simp [h, (mapCount_ne_zero_iff _ _).mp h]

theorem addVertex_of_mem (g : graph VertexT WeightT) (v : VertexT) (h : v ∈ g.getVertices) :
    g.addVertex v = (false, g) := by
  unfold addVertex
  simp [(mapCount_ne_zero_iff _ _).mpr h]

theorem addVertex_of_not_mem (g : graph VertexT WeightT) (v : VertexT)
    (h : v ∉ g.getVertices) :
    g.addVertex v = (true, { g with EdgeList := mapAssign g.EdgeList v [] }) := by
  unfold addVertex
  simp [(mapCount_eq_zero_iff _ _).mpr h]

theorem WF_addVertex (g : graph VertexT WeightT) (v : VertexT) (h : g.WF) :
    (g.addVertex v).2.WF := by
  by_cases hv : v ∈ g.getVertices
  · rw [addVertex_of_mem g v hv]; exact h
  · rw [addVertex_of_not_mem g v hv]
    have hkeys : ∀ x, x ∈ g.EdgeList.map Prod.fst →
        x ∈ (mapAssign g.EdgeList v ([] : List VertexT)).map Prod.fst :=
      fun x hx => (mem_map_fst_mapAssign _ _ _ _).mpr (Or.inr hx)
    refine ⟨nodup_map_fst_mapAssign _ _ _ h.keys_nodup, ?_, h.wkeys_nodup, ?_, ?_⟩
    · intro e he
      rcases mem_mapAssign _ _ _ _ he with he | he
      · subst he; simp
      · exact h.adj_sorted e he
    · intro e he u hu
      rcases mem_mapAssign _ _ _ _ he with he | he
      · subst he; simp at hu
      · exact ⟨hkeys _ (h.adj_closed e he u hu).1, (h.adj_closed e he u hu).2⟩
    · intro e he
      obtain ⟨h1, h2, h3⟩ := h.weight_closed e he
      refine ⟨hkeys _ h1, hkeys _ h2, ?_⟩
      show e.1.2 ∈ mapGet [] (mapAssign g.EdgeList v []) e.1.1
      rw [mapGet_mapAssign]
      have : ¬ v = e.1.1 := fun hve => hv (hve ▸ h1)
      simpa [this] using h3

theorem addEdge_of_mem (g : graph VertexT WeightT) (vfrom vto : VertexT) (w : WeightT)
    (hf : vfrom ∈ g.getVertices) (ht : vto ∈ g.getVertices) :
    g.addEdge vfrom vto w =
      (true, { EdgeList := g.edgeListAfter vfrom vto
               WeightList := mapAssign g.WeightList (vfrom, vto) w }) := by
  unfold addEdge edgeListAfter
  simp [(mapCount_ne_zero_iff _ _).mpr hf, (mapCount_ne_zero_iff _ _).mpr ht]

theorem addEdge_of_not_mem (g : graph VertexT WeightT) (vfrom vto : VertexT) (w : WeightT)
    (h : vfrom ∉ g.getVertices ∨ vto ∉ g.getVertices) :
    g.addEdge vfrom vto w = (false, g) := by
  unfold addEdge
  rcases h with h | h
  · simp [(mapCount_eq_zero_iff _ _).mpr h]
  · simp [(mapCount_eq_zero_iff _ _).mpr h]

theorem map_fst_edgeListAfter (g : graph VertexT WeightT) (vfrom vto : VertexT)
    (hf : vfrom ∈ g.getVertices) :
    (g.edgeListAfter vfrom vto).map Prod.fst = g.EdgeList.map Prod.fst := by
  unfold edgeListAfter
  split
  · rw [map_fst_mapAssign]
    simp only [getVertices] at hf
    simp [hf]
  · rfl

theorem mem_adj_edgeListAfter (g : graph VertexT WeightT) (vfrom vto x u : VertexT) :
    u ∈ mapGet [] (g.edgeListAfter vfrom vto) x ↔
      u ∈ mapGet [] g.EdgeList x ∨ (x = vfrom ∧ u = vto) := by
  unfold edgeListAfter
  split
  · rw [mapGet_mapAssign]
    by_cases hx : vfrom = x
    · subst hx
      simp only [if_true, mem_setInsert, true_and]
      tauto
    · have hx' : ¬ x = vfrom := fun h => hx h.symm
      simp [hx, hx']
  · rename_i hc
    have hmem : vto ∈ mapGet [] g.EdgeList vfrom := by
      unfold setCount at hc
      by_contra hcon
      simp [hcon] at hc
    constructor
    · exact Or.inl
    · rintro (h | ⟨h1, h2⟩)
      · exact h
      · subst h1; subst h2; exact hmem

theorem mem_edgeListAfter (g : graph VertexT WeightT) (vfrom vto : VertexT)
    (e : VertexT × List VertexT) (he : e ∈ g.edgeListAfter vfrom vto) :
    e ∈ g.EdgeList ∨ e = (vfrom, setInsert (mapGet [] g.EdgeList vfrom) vto) := by
  unfold edgeListAfter at he
  split at he
  · rcases mem_mapAssign _ _ _ _ he with h | h
    · exact Or.inr h
    · exact Or.inl h
  · exact Or.inl he

theorem WF_addEdge (g : graph VertexT WeightT) (vfrom vto : VertexT) (w : WeightT)
    (h : g.WF) : (g.addEdge vfrom vto w).2.WF := by
  by_cases hft : vfrom ∈ g.getVertices ∧ vto ∈ g.getVertices
  · obtain ⟨hf, ht⟩ := hft
    rw [addEdge_of_mem g vfrom vto w hf ht]
    have hk := map_fst_edgeListAfter g vfrom vto hf
    have hfe : (vfrom, mapGet [] g.EdgeList vfrom) ∈ g.EdgeList := mapGet_mem _ _ _ hf
    refine ⟨?_, ?_, ?_, ?_, ?_⟩
    · show ((g.edgeListAfter vfrom vto).map Prod.fst).Nodup
      rw [hk]; exact h.keys_nodup
    · intro e he
      rcases mem_edgeListAfter g vfrom vto e he with he | he
      · exact h.adj_sorted e he
      · subst he
        exact sorted_setInsert _ _ (h.adj_sorted _ hfe)
    · exact nodup_map_fst_mapAssign _ _ _ h.wkeys_nodup
    · intro e he u hu
      show u ∈ (g.edgeListAfter vfrom vto).map Prod.fst ∧
        (e.1, u) ∈ (mapAssign g.WeightList (vfrom, vto) w).map Prod.fst
      rw [hk, mem_map_fst_mapAssign]
      rcases mem_edgeListAfter g vfrom vto e he with he | he
      · exact ⟨(h.adj_closed e he u hu).1, Or.inr (h.adj_closed e he u hu).2⟩
      · subst he
        rcases (mem_setInsert _ _ _).mp hu with hu | hu
        · subst hu
          exact ⟨ht, Or.inl rfl⟩
        · exact ⟨(h.adj_closed _ hfe u hu).1, Or.inr (h.adj_closed _ hfe u hu).2⟩
    · intro e he
      show e.1.1 ∈ (g.edgeListAfter vfrom vto).map Prod.fst ∧
        e.1.2 ∈ (g.edgeListAfter vfrom vto).map Prod.fst ∧
        e.1.2 ∈ mapGet [] (g.edgeListAfter vfrom vto) e.1.1
      rw [hk, mem_adj_edgeListAfter]
      rcases mem_mapAssign _ _ _ _ he with he | he
      · subst he
        exact ⟨hf, ht, Or.inr ⟨rfl, rfl⟩⟩
      · obtain ⟨h1, h2, h3⟩ := h.weight_closed e he
        exact ⟨h1, h2, Or.inl h3⟩
  · rw [addEdge_of_not_mem g vfrom vto w (by tauto)]
    exact h

theorem WF_apply (g : graph VertexT WeightT) (op : Op VertexT WeightT) (h : g.WF) :
    (g.apply op).WF := by
  cases op with
  | addVertex v => exact WF_addVertex g v h
  | addEdge a b w => exact WF_addEdge g a b w h
  | clear => exact WF_empty

theorem WF_foldl (ops : List (Op VertexT WeightT)) (g : graph VertexT WeightT) (h : g.WF) :
    (ops.foldl apply g).WF := by
  induction ops generalizing g with
  | nil => exact h
  | cons op ops ih => exact ih _ (WF_apply g op h)

theorem WF_run (ops : List (Op VertexT WeightT)) : (run ops).WF :=
  WF_foldl ops empty WF_empty

end graph

namespace graph

variable {VertexT WeightT : Type} [LinearOrder VertexT]

theorem getWeight_fst (g : graph VertexT WeightT) (vfrom vto : VertexT) (w0 : WeightT) :
    (g.getWeight vfrom vto w0).1 = true ↔
      vfrom ∈ g.getVertices ∧ vto ∈ g.getVertices ∧
        (vfrom, vto) ∈ g.WeightList.map Prod.fst := by
  unfold getWeight getVertices
  by_cases h1 : mapCount g.EdgeList vfrom = 0
  · simp [h1, (mapCount_eq_zero_iff _ _).mp h1]
  · by_cases h2 : mapCount g.EdgeList vto = 0
    · simp [h1, h2, (mapCount_eq_zero_iff _ _).mp h2]
    · by_cases h3 : mapCount g.WeightList (vfrom, vto) = 0
      · have := (mapCount_eq_zero_iff _ _).mp h3
        simp only [h1, h2, h3, if_true, if_false]
        simp only [List.mem_map] at this
        simp [this]
      · have h1' := (mapCount_ne_zero_iff _ _).mp h1
        have h2' := (mapCount_ne_zero_iff _ _).mp h2
        have h3' := (mapCount_ne_zero_iff _ _).mp h3
        simp only [h1, h2, h3, if_false, true_iff]
        exact ⟨h1', h2', h3'⟩

theorem getWeight_of_fst_false (g : graph VertexT WeightT) (vfrom vto : VertexT)
    (w0 : WeightT) (h : (g.getWeight vfrom vto w0).1 = false) :
    g.getWeight vfrom vto w0 = (false, w0) := by
  unfold getWeight at h ⊢
  split
  · rfl
  · split
    · rfl
    · split
      · rfl
      · rename_i h1 h2 h3
        simp [h1, h2, h3] at h

theorem getWeight_absent (g : graph VertexT WeightT) (vfrom vto : VertexT) (w0 : WeightT)
    (h : vfrom ∉ g.getVertices ∨ vto ∉ g.getVertices ∨
      (vfrom, vto) ∉ g.WeightList.map Prod.fst) :
    g.getWeight vfrom vto w0 = (false, w0) := by
  apply getWeight_of_fst_false
  cases hb : (g.getWeight vfrom vto w0).1 with
  | false => rfl
  | true =>
    have := (getWeight_fst g vfrom vto w0).mp hb
    tauto

theorem getWeight_addEdge_self (g : graph VertexT WeightT) (vfrom vto : VertexT)
    (w w0 : WeightT) (h : (g.addEdge vfrom vto w).1 = true) :
    (g.addEdge vfrom vto w).2.getWeight vfrom vto w0 = (true, w) := by
  by_cases hft : vfrom ∈ g.getVertices ∧ vto ∈ g.getVertices
  · obtain ⟨hf, ht⟩ := hft
    rw [addEdge_of_mem g vfrom vto w hf ht]
    have hk := map_fst_edgeListAfter g vfrom vto hf
    unfold getWeight
    have h1 : mapCount (g.edgeListAfter vfrom vto) vfrom ≠ 0 := by
      rw [mapCount_ne_zero_iff, hk]; exact hf
    have h2 : mapCount (g.edgeListAfter vfrom vto) vto ≠ 0 := by
      rw [mapCount_ne_zero_iff, hk]; exact ht
    have h3 : mapCount (mapAssign g.WeightList (vfrom, vto) w) (vfrom, vto) ≠ 0 := by
      rw [mapCount_ne_zero_iff, mem_map_fst_mapAssign]; exact Or.inl rfl
    simp only [h1, h2, h3, if_false, mapGet_mapAssign, if_true]
  · rw [addEdge_of_not_mem g vfrom vto w (by tauto)] at h
    simp at h

theorem filter_key_length {K V : Type} [DecidableEq K] (m : List (K × V)) (k : K)
    (hnd : (m.map Prod.fst).Nodup) (hk : k ∈ m.map Prod.fst) :
    (m.filter (fun e => e.1 = k)).length = 1 := by
  induction m with
  | nil => simp at hk
  | cons e m ih =>
    simp only [List.map_cons, List.nodup_cons] at hnd
    by_cases he : e.1 = k
    · have : m.filter (fun e => decide (e.1 = k)) = [] := by
        rw [List.filter_eq_nil_iff]
        intro x hx hxk
        simp only [decide_eq_true_eq] at hxk
        exact hnd.1 (he ▸ hxk ▸ List.mem_map_of_mem Prod.fst hx)
      simp [List.filter_cons, he, this]
    · have hk' : k ∈ m.map Prod.fst := by
        simp only [List.map_cons, List.mem_cons] at hk
        rcases hk with hk | hk
        · exact absurd hk.symm he
        · exact hk
      simp [List.filter_cons, he, ih hnd.2 hk']

theorem mem_neighbors_iff (g : graph VertexT WeightT) (hg : g.WF) (v u : VertexT)
    (w0 : WeightT) : u ∈ g.neighbors v ↔ (g.getWeight v u w0).1 = true := by
  rw [getWeight_fst, neighbors_eq]
  constructor
  · intro hu
    have hv : v ∈ g.getVertices := by
      by_contra hv
      rw [mapGet_of_not_mem _ _ _ hv] at hu
      simp at hu
    have := hg.adj_closed _ (mapGet_mem [] _ _ hv) u hu
    exact ⟨hv, this.1, this.2⟩
  · rintro ⟨_, _, h3⟩
    obtain ⟨e, he, hek⟩ := List.mem_map.mp h3
    have := (hg.weight_closed e he).2.2
    rw [hek] at this
    exact this

theorem sorted_neighbors (g : graph VertexT WeightT) (hg : g.WF) (v : VertexT) :
    (g.neighbors v).Sorted (· < ·) := by
  rw [neighbors_eq]
  by_cases hv : v ∈ g.getVertices
  · exact hg.adj_sorted _ (mapGet_mem [] _ _ hv)
  · rw [mapGet_of_not_mem _ _ _ hv]
    exact List.sorted_nil

theorem wkeys_foldl (ops : List (Op VertexT WeightT)) (g : graph VertexT WeightT)
    (k : VertexT × VertexT) (hk : k ∈ (ops.foldl apply g).WeightList.map Prod.fst) :
    k ∈ g.WeightList.map Prod.fst ∨
      ∃ ops1 w ops2, ops = ops1 ++ Op.addEdge k.1 k.2 w :: ops2 ∧
        ((ops1.foldl apply g).addEdge k.1 k.2 w).1 = true := by
  induction ops generalizing g with
  | nil => exact Or.inl hk
  | cons op ops ih =>
    rcases ih (g.apply op) hk with h | ⟨ops1, w, ops2, h1, h2⟩
    · cases op with
      | addVertex v =>
        left
        simp only [apply, addVertex] at h
        split at h <;> exact h
      | addEdge a b w =>
        simp only [apply] at h
        by_cases hft : a ∈ g.getVertices ∧ b ∈ g.getVertices
        · rw [addEdge_of_mem g a b w hft.1 hft.2] at h
          rcases (mem_map_fst_mapAssign _ _ _ _).mp h with h | h
          · right
            refine ⟨[], w, ops, ?_, ?_⟩
            · rw [h]; rfl
            · rw [h]
              show (g.addEdge a b w).1 = true
              rw [addEdge_of_mem g a b w hft.1 hft.2]
          · exact Or.inl h
        · rw [addEdge_of_not_mem g a b w (by tauto)] at h
          exact Or.inl h
      | clear =>
        simp [apply, clear] at h
    · right
      exact ⟨op :: ops1, w, ops2, by rw [h1]; rfl, h2⟩

end graph

namespace graph

variable {VertexT WeightT : Type} [LinearOrder VertexT]

theorem addEdge_overwrite_WF (g : graph VertexT WeightT) (hg : g.WF) (a b : VertexT)
    (w1 w2 w0 : WeightT) (ha : a ∈ g.getVertices) (hb : b ∈ g.getVertices) :
    (g.addEdge a b w1).1 = true ∧
    ((g.addEdge a b w1).2.addEdge a b w2).1 = true ∧
    (((g.addEdge a b w1).2.addEdge a b w2).2.WeightList.filter
      (fun e => e.1 = (a, b))).length = 1 ∧
    (((g.addEdge a b w1).2.addEdge a b w2).2.neighbors a).count b = 1 ∧
    ((g.addEdge a b w1).2.addEdge a b w2).2.getWeight a b w0 = (true, w2) ∧
    ((g.addEdge a b w1).2.addEdge a b w2).2.NumEdges = (g.addEdge a b w1).2.NumEdges := by
  have hg1 : (g.addEdge a b w1).2.WF := WF_addEdge g a b w1 hg
  have hg2 : ((g.addEdge a b w1).2.addEdge a b w2).2.WF := WF_addEdge _ a b w2 hg1
  have h1 : (g.addEdge a b w1).1 = true := by rw [addEdge_of_mem g a b w1 ha hb]
  have ha1 : a ∈ (g.addEdge a b w1).2.getVertices := by
    rw [addEdge_of_mem g a b w1 ha hb]
    show a ∈ (g.edgeListAfter a b).map Prod.fst
    rw [map_fst_edgeListAfter g a b ha]; exact ha
  have hb1 : b ∈ (g.addEdge a b w1).2.getVertices := by
    rw [addEdge_of_mem g a b w1 ha hb]
    show b ∈ (g.edgeListAfter a b).map Prod.fst
    rw [map_fst_edgeListAfter g a b ha]; exact hb
  have hk1 : (a, b) ∈ (g.addEdge a b w1).2.WeightList.map Prod.fst := by
    rw [addEdge_of_mem g a b w1 ha hb]
    exact (mem_map_fst_mapAssign _ _ _ _).mpr (Or.inl rfl)
  have h2 : ((g.addEdge a b w1).2.addEdge a b w2).1 = true := by
    rw [addEdge_of_mem _ a b w2 ha1 hb1]
  have hgw := getWeight_addEdge_self (g.addEdge a b w1).2 a b w2 w0 h2
  have hfst := (getWeight_fst _ a b w0).mp (by rw [hgw])
  refine ⟨h1, h2, filter_key_length _ _ hg2.wkeys_nodup hfst.2.2, ?_, hgw, ?_⟩
  · apply List.count_eq_one_of_mem
    · exact (sorted_neighbors _ hg2 a).nodup
    · rw [mem_neighbors_iff _ hg2 a b w0, hgw]
  · rw [addEdge_of_mem _ a b w2 ha1 hb1]
    unfold NumEdges
    congr 1
    show (mapAssign (g.addEdge a b w1).2.WeightList (a, b) w2).length = _
    rw [length_mapAssign]
    simp [hk1]

theorem addVertex_getWeight (g : graph VertexT WeightT) (hg : g.WF) (v x y : VertexT)
    (w0 : WeightT) : (g.addVertex v).2.getWeight x y w0 = g.getWeight x y w0 := by
  by_cases hv : v ∈ g.getVertices
  · rw [addVertex_of_mem g v hv]
  · rw [addVertex_of_not_mem g v hv]
    by_cases hk : (x, y) ∈ g.WeightList.map Prod.fst
    · obtain ⟨e, he, hek⟩ := List.mem_map.mp hk
      obtain ⟨h1, h2, _⟩ := hg.weight_closed e he
      rw [hek] at h1 h2
      have hx : mapCount g.EdgeList x ≠ 0 := (mapCount_ne_zero_iff _ _).mpr h1
      have hy : mapCount g.EdgeList y ≠ 0 := (mapCount_ne_zero_iff _ _).mpr h2
      have hx' : mapCount (mapAssign g.EdgeList v ([] : List VertexT)) x ≠ 0 :=
        (mapCount_ne_zero_iff _ _).mpr ((mem_map_fst_mapAssign _ _ _ _).mpr (Or.inr h1))
      have hy' : mapCount (mapAssign g.EdgeList v ([] : List VertexT)) y ≠ 0 :=
        (mapCount_ne_zero_iff _ _).mpr ((mem_map_fst_mapAssign _ _ _ _).mpr (Or.inr h2))
      unfold getWeight
      simp only [hx, hy, hx', hy', if_false]
    · rw [getWeight_absent g x y w0 (Or.inr (Or.inr hk))]
      exact getWeight_absent _ x y w0 (Or.inr (Or.inr hk))

theorem addVertex_neighbors (g : graph VertexT WeightT) (v x : VertexT) :
    (g.addVertex v).2.neighbors x = g.neighbors x := by
  by_cases hv : v ∈ g.getVertices
  · rw [addVertex_of_mem g v hv]
  · rw [addVertex_of_not_mem g v hv, neighbors_eq, neighbors_eq]
    show mapGet [] (mapAssign g.EdgeList v []) x = _
    rw [mapGet_mapAssign]
    split
    · rename_i h
      subst h
      rw [mapGet_of_not_mem _ _ _ hv]
    · rfl

theorem addVertex_mem (g : graph VertexT WeightT) (v : VertexT) :
    v ∈ (g.addVertex v).2.getVertices := by
  by_cases hv : v ∈ g.getVertices
  · rw [addVertex_of_mem g v hv]; exact hv
  · rw [addVertex_of_not_mem g v hv]
    exact (mem_map_fst_mapAssign _ _ _ _).mpr (Or.inl rfl)

/-- C5 (overwrite law). In every state of a graph object that contains the vertices `a` and
`b`, `addEdge(a, b, w1)` followed by `addEdge(a, b, w2)` both return true; afterwards the
weight map has exactly one entry for the pair `(a, b)`, `b` occurs exactly once among the
neighbours of `a`, `getWeight(a, b)` reports `w2`, and `NumEdges()` is what it was after
the first call. -/
theorem addEdge_overwrite (ops : List (Op VertexT WeightT)) (a b : VertexT)
    (w1 w2 w0 : WeightT) (ha : a ∈ (run ops).getVertices) (hb : b ∈ (run ops).getVertices) :
    ((run ops).addEdge a b w1).1 = true ∧
    (((run ops).addEdge a b w1).2.addEdge a b w2).1 = true ∧
    ((((run ops).addEdge a b w1).2.addEdge a b w2).2.WeightList.filter
      (fun e => e.1 = (a, b))).length = 1 ∧
    ((((run ops).addEdge a b w1).2.addEdge a b w2).2.neighbors a).count b = 1 ∧
    (((run ops).addEdge a b w1).2.addEdge a b w2).2.getWeight a b w0 = (true, w2) ∧
    (((run ops).addEdge a b w1).2.addEdge a b w2).2.NumEdges
      = ((run ops).addEdge a b w1).2.NumEdges :=
  addEdge_overwrite_WF (run ops) (WF_run ops) a b w1 w2 w0 ha hb

/-- Witness of C5: vertices 1 and 2, an existing edge 1 -> 2 of weight 4, then weights 5
and 7. -/
theorem addEdge_overwrite_witness :
    (1 : Int) ∈ (run [Op.addVertex 1, Op.addVertex 2, Op.addEdge 1 2 (4 : Nat)]).getVertices ∧
    (2 : Int) ∈ (run [Op.addVertex 1, Op.addVertex 2, Op.addEdge 1 2 (4 : Nat)]).getVertices ∧
    (((run [Op.addVertex (1 : Int), Op.addVertex 2, Op.addEdge 1 2 (4 : Nat)]).addEdge
      1 2 5).2.addEdge 1 2 7).2.getWeight 1 2 0 = (true, 7) :=
  ⟨by decide, by decide,
    (addEdge_overwrite [Op.addVertex (1 : Int), Op.addVertex 2, Op.addEdge 1 2 (4 : Nat)]
      1 2 5 7 0 (by decide) (by decide)).2.2.2.2.1⟩

/-- C6. `addEdge(from, to, weight)` returns false if and only if `from` or `to` is not a
vertex of the graph, and a call that returns false leaves the state of the graph (both
members, hence vertices, edges, weights and counts) as it was. -/
theorem addEdge_false_iff (g : graph VertexT WeightT) (vfrom vto : VertexT) (w : WeightT) :
    ((g.addEdge vfrom vto w).1 = false ↔
      (vfrom ∉ g.getVertices ∨ vto ∉ g.getVertices)) ∧
    ((g.addEdge vfrom vto w).1 = false → (g.addEdge vfrom vto w).2 = g ∧
      (g.addEdge vfrom vto w).2.NumVertices = g.NumVertices ∧
      (g.addEdge vfrom vto w).2.NumEdges = g.NumEdges) := by
  by_cases hft : vfrom ∈ g.getVertices ∧ vto ∈ g.getVertices
  · rw [addEdge_of_mem g vfrom vto w hft.1 hft.2]
    simp [hft.1, hft.2]
  · rw [addEdge_of_not_mem g vfrom vto w (by tauto)]
    simp only [true_iff, true_implies, and_self, and_true]
    tauto

/-- C7. In every state of a graph object, `addVertex(v)` returns true exactly when `v` was
absent; after a call that returned true `v` is a vertex without neighbours and without
outgoing weights; in either case the call changes no weight and no neighbour set and all
`getWeight` answers stay the same; a second `addVertex(v)` returns false and leaves the
state as it was after the first call, with `v` occurring once among the vertices. -/
theorem addVertex_idempotent (ops : List (Op VertexT WeightT)) (v : VertexT) :
    (((run ops).addVertex v).1 = true ↔ v ∉ (run ops).getVertices) ∧
    (((run ops).addVertex v).1 = true →
      ((run ops).addVertex v).2.neighbors v = [] ∧
      ∀ u w0, ((run ops).addVertex v).2.getWeight v u w0 = (false, w0)) ∧
    v ∈ ((run ops).addVertex v).2.getVertices ∧
    ((run ops).addVertex v).2.WeightList = (run ops).WeightList ∧
    (∀ x, ((run ops).addVertex v).2.neighbors x = (run ops).neighbors x) ∧
    (∀ x y w0, ((run ops).addVertex v).2.getWeight x y w0 = (run ops).getWeight x y w0) ∧
    (((run ops).addVertex v).2.addVertex v) = (false, ((run ops).addVertex v).2) ∧
    (((run ops).addVertex v).2.addVertex v).2.getVertices.count v = 1 ∧
    (((run ops).addVertex v).2.addVertex v).2.NumVertices
      = ((run ops).addVertex v).2.NumVertices := by
  have hg := WF_run ops
  have hg1 := WF_addVertex (run ops) v hg
  have hmem := addVertex_mem (run ops) v
  have h2 := addVertex_of_mem _ v hmem
  refine ⟨addVertex_fst _ v, ?_, hmem, ?_, addVertex_neighbors _ v,
    addVertex_getWeight _ hg v, h2, ?_, ?_⟩
  · intro h
    have hv := (addVertex_fst _ v).mp h
    refine ⟨?_, ?_⟩
    · rw [addVertex_neighbors, neighbors_of_not_mem _ _ hv]
    · intro u w0
      rw [addVertex_getWeight _ hg]
      exact getWeight_absent _ _ _ _ (Or.inl hv)
  · unfold addVertex
    split <;> rfl
  · rw [h2]
    exact List.count_eq_one_of_mem hg1.keys_nodup hmem
  · rw [h2]

/-- C8. In every state of a graph object, `getWeight(from, to)` returns false and leaves
its output argument as it was whenever `from` is not a vertex, `to` is not a vertex, or no
call `addEdge(from, to, _)` has returned true; and right after an `addEdge(from, to, w)`
that returned true it returns true with weight `w`. -/
theorem getWeight_spec (ops : List (Op VertexT WeightT)) (vfrom vto : VertexT)
    (w0 : WeightT) :
    ((vfrom ∉ (run ops).getVertices ∨ vto ∉ (run ops).getVertices ∨
        ¬ EdgeAdded ops vfrom vto) →
      (run ops).getWeight vfrom vto w0 = (false, w0)) ∧
    (∀ w, ((run ops).addEdge vfrom vto w).1 = true →
      ((run ops).addEdge vfrom vto w).2.getWeight vfrom vto w0 = (true, w)) := by
  refine ⟨?_, fun w h => getWeight_addEdge_self _ _ _ _ _ h⟩
  intro h
  apply getWeight_absent
  rcases h with h | h | h
  · exact Or.inl h
  · exact Or.inr (Or.inl h)
  · refine Or.inr (Or.inr ?_)
    intro hk
    rcases wkeys_foldl ops empty (vfrom, vto) hk with h1 | h1
    · simp [empty] at h1
    · exact h h1

/-- C9. In every state of a graph object, `neighbors(v)` is empty when `v` is not a vertex,
its members are exactly the vertices `u` for which `getWeight(v, u)` returns true, and it
is strictly ascending (hence without duplicates). -/
theorem neighbors_spec (ops : List (Op VertexT WeightT)) (v : VertexT) (w0 : WeightT) :
    (v ∉ (run ops).getVertices → (run ops).neighbors v = []) ∧
    (∀ u, u ∈ (run ops).neighbors v ↔ ((run ops).getWeight v u w0).1 = true) ∧
    ((run ops).neighbors v).Sorted (· < ·) ∧ ((run ops).neighbors v).Nodup :=
  ⟨neighbors_of_not_mem _ v, fun u => mem_neighbors_iff _ (WF_run ops) v u w0,
    sorted_neighbors _ (WF_run ops) v, (sorted_neighbors _ (WF_run ops) v).nodup⟩

/-- C10 (graph invariant). In every state reached from the empty graph by `addVertex`,
`addEdge` and `clear` calls, both endpoints of every key of the weight map are vertices,
every member of an adjacency set and the vertex owning the set are vertices, and no
ordered pair has two entries in the weight map. -/
theorem graph_invariant (ops : List (Op VertexT WeightT)) :
    (∀ e ∈ (run ops).WeightList,
      e.1.1 ∈ (run ops).getVertices ∧ e.1.2 ∈ (run ops).getVertices) ∧
    (∀ e ∈ (run ops).EdgeList, ∀ u ∈ e.2,
      e.1 ∈ (run ops).getVertices ∧ u ∈ (run ops).getVertices) ∧
    ((run ops).WeightList.map Prod.fst).Nodup ∧
    (∀ e1 ∈ (run ops).WeightList, ∀ e2 ∈ (run ops).WeightList, e1.1 = e2.1 → e1 = e2) := by
  have hg := WF_run ops
  refine ⟨fun e he => ⟨(hg.weight_closed e he).1, (hg.weight_closed e he).2.1⟩,
    fun e he u hu => ⟨List.mem_map_of_mem Prod.fst he, (hg.adj_closed e he u hu).1⟩,
    hg.wkeys_nodup, ?_⟩
  intro e1 h1 e2 h2 h12
  have a1 := (mem_iff_mapFind _ hg.wkeys_nodup e1.1 e1.2).mp h1
  have a2 := (mem_iff_mapFind _ hg.wkeys_nodup e2.1 e2.2).mp h2
  rw [h12, a2] at a1
  exact (Prod.ext h12 (Option.some.inj a1).symm)

end graph

/-! ## Lemmas on the shortest-path engine -/


theorem setCount_pos_iff (s : List Int) (x : Int) : setCount s x > 0 ↔ x ∈ s := by
  unfold setCount
  split <;> simp [*]

theorem D_touch {W : Type} [Zero W] (st : DijkstraState W) (k : Int) (prev : List (Int × Int))
    (vis : List Int) (pq : List (Int × W)) :
    DijkstraState.D { distances := mapTouch 0 st.distances k, prev := prev,
                      visitSet := vis, pq := pq } = st.D := by
  funext x
  simp only [DijkstraState.D, mapGet_mapTouch]

theorem sum_filter_mono (m : List (Int × List Int)) (vis vis' : List Int)
    (h : ∀ x, x ∈ vis → x ∈ vis') :
    ((m.filter (fun e => e.1 ∉ vis')).map (fun e => e.2.length)).sum
      ≤ ((m.filter (fun e => e.1 ∉ vis)).map (fun e => e.2.length)).sum := by
  induction m with
  | nil => simp
  | cons e m ih =>
    by_cases h1 : e.1 ∈ vis
    · simpa [List.filter_cons, h1, h _ h1] using ih
    · by_cases h2 : e.1 ∈ vis'
      · simp only [List.filter_cons, h1, h2, not_true_eq_false, decide_False,
          not_false_eq_true, decide_True, if_true, List.map_cons, List.sum_cons]
        simp only [Bool.false_eq_true, if_false]
        omega
      · simp only [List.filter_cons, h1, h2, not_false_eq_true, decide_True, if_true,
          List.map_cons, List.sum_cons]
        omega

theorem sum_filter_insert (m : List (Int × List Int)) (vis vis' : List Int) (u : Int)
    (hu : u ∉ vis) (h : ∀ x, x ∈ vis' ↔ x = u ∨ x ∈ vis) :
    ((m.filter (fun e => e.1 ∉ vis')).map (fun e => e.2.length)).sum
        + (mapGet [] m u).length
      ≤ ((m.filter (fun e => e.1 ∉ vis)).map (fun e => e.2.length)).sum := by
  induction m with
  | nil => simp [mapGet, mapFind]
  | cons e m ih =>
    obtain ⟨k, adj⟩ := e
    by_cases hk : k = u
    · subst hk
      have h2 : k ∈ vis' := (h k).mpr (Or.inl rfl)
      have hm := sum_filter_mono m vis vis' (fun x hx => (h x).mpr (Or.inr hx))
      simp only [List.filter_cons, hu, h2, not_true_eq_false, decide_False,
        not_false_eq_true, decide_True, if_true, List.map_cons, List.sum_cons,
        mapGet, mapFind]
      simp only [Bool.false_eq_true, if_false]
      omega
    · have hg : mapGet [] ((k, adj) :: m) u = mapGet [] m u := by
        simp [mapGet, mapFind, hk]
      rw [hg]
      by_cases h1 : k ∈ vis
      · have h2 : k ∈ vis' := (h k).mpr (Or.inr h1)
        simpa [List.filter_cons, h1, h2] using ih
      · have h2 : k ∉ vis' := by
          intro hc
          rcases (h k).mp hc with hc | hc
          · exact hk hc
          · exact h1 hc
        simp only [List.filter_cons, h1, h2, not_false_eq_true, decide_True, if_true,
          List.map_cons, List.sum_cons]
        omega

section QueueLemmas

variable {W : Type} [LinearOrder W]

theorem pqTopFrom_spec (best : Int × W) (xs : List (Int × W)) :
    pqTopFrom best xs ∈ best :: xs ∧ ∀ x ∈ best :: xs, (pqTopFrom best xs).2 ≤ x.2 := by
  induction xs generalizing best with
  | nil => simp [pqTopFrom]
  | cons y ys ih =>
    unfold pqTopFrom
    by_cases h : prioritize best y = true
    · simp only [h, if_true]
      have hlt : y.2 < best.2 := by simpa [prioritize] using h
      obtain ⟨h1, h2⟩ := ih y
      refine ⟨List.mem_cons_of_mem _ h1, ?_⟩
      intro x hx
      rcases List.mem_cons.mp hx with hx | hx
      · subst hx
        exact le_trans (h2 y (List.mem_cons_self _ _)) (le_of_lt hlt)
      · exact h2 x hx
    · simp only [h]
      have hle : best.2 ≤ y.2 := by
        simp only [prioritize, decide_eq_true_eq, gt_iff_lt, not_lt] at h
        exact h
      obtain ⟨h1, h2⟩ := ih best
      refine ⟨?_, ?_⟩
      · rcases List.mem_cons.mp h1 with h1 | h1
        · rw [h1]; exact List.mem_cons_self _ _
        · exact List.mem_cons_of_mem _ (List.mem_cons_of_mem _ h1)
      · intro x hx
        rcases List.mem_cons.mp hx with hx | hx
        · subst hx; exact h2 _ (List.mem_cons_self _ _)
        · rcases List.mem_cons.mp hx with hx | hx
          · subst hx
            exact le_trans (h2 best (List.mem_cons_self _ _)) hle
          · exact h2 x (List.mem_cons_of_mem _ hx)

theorem pqTop_eq_none (c : Nat) (pq : List (Int × W)) : pqTop c pq = none ↔ pq = [] := by
  unfold pqTop
  cases h : pq.rotate c with
  | nil => simpa using List.rotate_eq_nil_iff.mp h
  | cons x xs =>
    constructor
    · intro h'
      simp at h'
    · intro hpq
      rw [hpq] at h
      simp at h

theorem pqTop_spec (c : Nat) (pq : List (Int × W)) (e : Int × W) (h : pqTop c pq = some e) :
    e ∈ pq ∧ ∀ x ∈ pq, e.2 ≤ x.2 := by
  unfold pqTop at h
  cases hr : pq.rotate c with
  | nil => rw [hr] at h; simp at h
  | cons x xs =>
    rw [hr] at h
    simp only [Option.some.injEq] at h
    subst h
    obtain ⟨h1, h2⟩ := pqTopFrom_spec x xs
    rw [← hr] at h1 h2
    exact ⟨List.mem_rotate.mp h1, fun y hy => h2 y (List.mem_rotate.mpr hy)⟩

end QueueLemmas

section DijkstraLemmas

variable {W : Type} [LinearOrder W] [Add W] [Zero W]

theorem D_relax (G : graph Int W) (u a : Int) (st : DijkstraState W) :
    (dijkstraRelax G u st a).D =
      if st.D u + G.edgeData u a < st.D a then
        Function.update st.D a (st.D u + G.edgeData u a)
      else st.D := by
  funext x
  unfold dijkstraRelax DijkstraState.D graph.edgeData
  simp only [mapGet_mapTouch]
  split
  · simp only [mapGet_mapAssign, mapGet_mapTouch, Function.update_apply]
    by_cases h : a = x
    · simp [h]
    · have h' : ¬ x = a := fun h1 => h h1.symm
      simp [h, h']
  · simp only [mapGet_mapTouch]

theorem P_relax (G : graph Int W) (u a : Int) (st : DijkstraState W) :
    (dijkstraRelax G u st a).P =
      if st.D u + G.edgeData u a < st.D a then Function.update st.P a u else st.P := by
  funext x
  unfold dijkstraRelax DijkstraState.D DijkstraState.P graph.edgeData
  simp only [mapGet_mapTouch]
  split
  · simp only [mapGet_mapAssign, Function.update_apply]
    by_cases h : a = x
    · simp [h]
    · have h' : ¬ x = a := fun h1 => h h1.symm
      simp [h, h']
  · rfl

theorem pq_relax (G : graph Int W) (u a : Int) (st : DijkstraState W) :
    (dijkstraRelax G u st a).pq =
      if st.D u + G.edgeData u a < st.D a then st.pq ++ [(a, st.D u + G.edgeData u a)]
      else st.pq := by
  unfold dijkstraRelax DijkstraState.D graph.edgeData
  simp only [mapGet_mapTouch]
  split <;> rfl

theorem visitSet_relax (G : graph Int W) (u a : Int) (st : DijkstraState W) :
    (dijkstraRelax G u st a).visitSet = st.visitSet := by
  unfold dijkstraRelax
  simp only
  split <;> rfl

theorem relax_foldl (G : graph Int W)
    (Mid : Int → List Int → (Int → W) → (Int → Int) → List Int → List (Int × W) → Prop)
    (u : Int)
    (h_upd : ∀ done a D P vis pq, Mid u done D P vis pq → a ∈ G.neighbors u →
      D u + G.edgeData u a < D a →
      Mid u (done ++ [a]) (Function.update D a (D u + G.edgeData u a))
        (Function.update P a u) vis (pq ++ [(a, D u + G.edgeData u a)]))
    (h_keep : ∀ done a D P vis pq, Mid u done D P vis pq → a ∈ G.neighbors u →
      ¬ (D u + G.edgeData u a < D a) → Mid u (done ++ [a]) D P vis pq) :
    ∀ (l done : List Int) (st : DijkstraState W), (∀ a ∈ l, a ∈ G.neighbors u) →
      Mid u done st.D st.P st.visitSet st.pq →
      Mid u (done ++ l) (l.foldl (dijkstraRelax G u) st).D (l.foldl (dijkstraRelax G u) st).P
        (l.foldl (dijkstraRelax G u) st).visitSet (l.foldl (dijkstraRelax G u) st).pq := by
  intro l
  induction l with
  | nil => intro done st _ h; simpa using h
  | cons a l ih =>
    intro done st hl h
    have ha : a ∈ G.neighbors u := hl a (List.mem_cons_self _ _)
    have hl' : ∀ b ∈ l, b ∈ G.neighbors u := fun b hb => hl b (List.mem_cons_of_mem _ hb)
    have key : Mid u (done ++ [a]) (dijkstraRelax G u st a).D (dijkstraRelax G u st a).P
        (dijkstraRelax G u st a).visitSet (dijkstraRelax G u st a).pq := by
      rw [D_relax, P_relax, pq_relax, visitSet_relax]
      by_cases hlt : st.D u + G.edgeData u a < st.D a
      · simp only [hlt, if_true]
        exact h_upd done a _ _ _ _ h ha hlt
      · simp only [hlt, if_false]
        exact h_keep done a _ _ _ _ h ha hlt
    have := ih (done ++ [a]) (dijkstraRelax G u st a) hl' key
    simpa [List.append_assoc] using this

theorem dijkstraLoop_post (INF : W) (G : graph Int W) (tie : Nat → Nat)
    (Inv : (Int → W) → (Int → Int) → List Int → List (Int × W) → Prop)
    (Mid : Int → List Int → (Int → W) → (Int → Int) → List Int → List (Int × W) → Prop)
    (Post : (Int → W) → (Int → Int) → List Int → Prop)
    (h_empty : ∀ D P vis, Inv D P vis [] → Post D P vis)
    (h_break : ∀ D P vis pq c cur, Inv D P vis pq → pqTop c pq = some cur →
      D cur.1 = INF → Post D P vis)
    (h_skip : ∀ D P vis pq c cur, Inv D P vis pq → pqTop c pq = some cur →
      D cur.1 ≠ INF → cur.1 ∈ vis → Inv D P vis (pq.erase cur))
    (h_visit : ∀ D P vis pq c cur, Inv D P vis pq → pqTop c pq = some cur →
      D cur.1 ≠ INF → cur.1 ∉ vis → Mid cur.1 [] D P (setInsert vis cur.1) (pq.erase cur))
    (h_upd : ∀ u done a D P vis pq, Mid u done D P vis pq → a ∈ G.neighbors u →
      D u + G.edgeData u a < D a →
      Mid u (done ++ [a]) (Function.update D a (D u + G.edgeData u a))
        (Function.update P a u) vis (pq ++ [(a, D u + G.edgeData u a)]))
    (h_keep : ∀ u done a D P vis pq, Mid u done D P vis pq → a ∈ G.neighbors u →
      ¬ (D u + G.edgeData u a < D a) → Mid u (done ++ [a]) D P vis pq)
    (h_end : ∀ u D P vis pq, Mid u (G.neighbors u) D P vis pq → Inv D P vis pq) :
    ∀ (fuel n : Nat) (st r : DijkstraState W), dijkstraLoop INF G tie fuel n st = some r →
      Inv st.D st.P st.visitSet st.pq → Post r.D r.P r.visitSet := by
  intro fuel
  induction fuel with
  | zero => intro n st r h; simp [dijkstraLoop] at h
  | succ fuel ih =>
    intro n st r h hinv
    unfold dijkstraLoop at h
    cases htop : pqTop (tie n) st.pq with
    | none =>
      rw [htop] at h
      simp only [Option.some.injEq] at h
      subst h
      have := (pqTop_eq_none _ _).mp htop
      rw [this] at hinv
      exact h_empty _ _ _ hinv
    | some cur =>
      rw [htop] at h
      simp only at h
      have hD : mapGet 0 (mapTouch 0 st.distances cur.1) cur.1 = st.D cur.1 := by
        simp only [DijkstraState.D, mapGet_mapTouch]
      rw [hD] at h
      by_cases h1 : st.D cur.1 = INF
      · simp only [h1, if_true, Option.some.injEq] at h
        subst h
        rw [D_touch]
        exact h_break _ _ _ _ _ _ hinv htop h1
      · simp only [h1, if_false] at h
        by_cases h2 : setCount st.visitSet cur.1 > 0
        · simp only [h2, if_true] at h
          refine ih _ _ _ h ?_
          rw [D_touch]
          exact h_skip _ _ _ _ _ _ hinv htop h1 ((setCount_pos_iff _ _).mp h2)
        · simp only [h2, if_false] at h
          refine ih _ _ _ h ?_
          apply h_end cur.1
          have hmid := h_visit _ _ _ _ _ _ hinv htop h1
            (fun hm => h2 ((setCount_pos_iff _ _).mpr hm))
          have := relax_foldl G Mid cur.1 (h_upd cur.1) (h_keep cur.1) (G.neighbors cur.1) []
            { distances := mapTouch 0 st.distances cur.1, prev := st.prev,
              visitSet := setInsert st.visitSet cur.1, pq := st.pq.erase cur }
            (fun a ha => ha) (by rw [D_touch]; exact hmid)
          simpa using this

theorem visitSet_foldl (G : graph Int W) (u : Int) (l : List Int) (st : DijkstraState W) :
    (l.foldl (dijkstraRelax G u) st).visitSet = st.visitSet := by
  induction l generalizing st with
  | nil => rfl
  | cons a l ih => simp only [List.foldl_cons, ih, visitSet_relax]

theorem length_pq_foldl (G : graph Int W) (u : Int) (l : List Int) (st : DijkstraState W) :
    (l.foldl (dijkstraRelax G u) st).pq.length ≤ st.pq.length + l.length := by
  induction l generalizing st with
  | nil => simp
  | cons a l ih =>
    simp only [List.foldl_cons, List.length_cons]
    have h1 := ih (dijkstraRelax G u st a)
    have h2 : (dijkstraRelax G u st a).pq.length ≤ st.pq.length + 1 := by
      rw [pq_relax]
      split <;> simp
    omega

theorem dijkstraLoop_terminates (INF : W) (G : graph Int W) (tie : Nat → Nat) :
    ∀ (fuel n : Nat) (st : DijkstraState W),
      st.pq.length + G.degreeOutside st.visitSet < fuel →
      ∃ r, dijkstraLoop INF G tie fuel n st = some r := by
  intro fuel
  induction fuel with
  | zero => intro n st h; omega
  | succ fuel ih =>
    intro n st h
    unfold dijkstraLoop
    cases htop : pqTop (tie n) st.pq with
    | none => exact ⟨st, rfl⟩
    | some cur =>
      simp only
      have hmem := (pqTop_spec _ _ _ htop).1
      have hlen : (st.pq.erase cur).length = st.pq.length - 1 := List.length_erase_of_mem hmem
      have hpos : 0 < st.pq.length := List.length_pos_of_mem hmem
      split
      · exact ⟨_, rfl⟩
      · split
        · apply ih
          show (st.pq.erase cur).length + G.degreeOutside st.visitSet < fuel
          omega
        · rename_i h2
          apply ih
          rw [visitSet_foldl]
          have h3 := length_pq_foldl G cur.1 (G.neighbors cur.1)
            { distances := mapTouch 0 st.distances cur.1, prev := st.prev,
              visitSet := setInsert st.visitSet cur.1, pq := st.pq.erase cur }
          have h4 := sum_filter_insert G.EdgeList st.visitSet (setInsert st.visitSet cur.1)
            cur.1 (fun hm => h2 ((setCount_pos_iff _ _).mpr hm))
            (fun x => mem_setInsert _ _ _)
          rw [← graph.neighbors_eq] at h4
          simp only [graph.degreeOutside] at h ⊢
          simp only at h3
          omega

omit [LinearOrder W] [Add W] in
theorem init_foldl (INF : W) (l : List Int) (st : DijkstraState W) :
    (∀ v, (l.foldl (dijkstraInit INF) st).D v = if v ∈ l then INF else st.D v) ∧
    (∀ v, (l.foldl (dijkstraInit INF) st).P v = if v ∈ l then 0 else st.P v) ∧
    (l.foldl (dijkstraInit INF) st).visitSet = st.visitSet ∧
    (l.foldl (dijkstraInit INF) st).pq = st.pq ++ l.map (fun v => (v, INF)) ∧
    (∀ v, v ∈ (l.foldl (dijkstraInit INF) st).distances.map Prod.fst ↔
      v ∈ l ∨ v ∈ st.distances.map Prod.fst) := by
  induction l generalizing st with
  | nil => simp
  | cons a l ih =>
    obtain ⟨h1, h2, h3, h4, h5⟩ := ih (dijkstraInit INF st a)
    simp only [List.foldl_cons]
    refine ⟨?_, ?_, ?_, ?_, ?_⟩
    · intro v
      rw [h1]
      by_cases hv : v ∈ l
      · simp [hv]
      · simp only [hv, if_false, List.mem_cons, or_false]
        simp only [DijkstraState.D, dijkstraInit, mapGet_mapAssign]
        by_cases hva : a = v
        · simp [hva]
        · have : ¬ v = a := fun h => hva h.symm
          simp [hva, this]
    · intro v
      rw [h2]
      by_cases hv : v ∈ l
      · simp [hv]
      · simp only [hv, if_false, List.mem_cons, or_false]
        simp only [DijkstraState.P, dijkstraInit, mapGet_mapAssign]
        by_cases hva : a = v
        · simp [hva]
        · have : ¬ v = a := fun h => hva h.symm
          simp [hva, this]
    · rw [h3]; rfl
    · rw [h4]; simp [dijkstraInit]
    · intro v
      rw [h5]
      simp only [dijkstraInit, mem_map_fst_mapAssign, List.mem_cons]
      tauto

theorem Dijkstra_post (INF : W) (G : graph Int W) (startV : Int) (tie : Nat → Nat)
    (fuel : Nat)
    (Inv : (Int → W) → (Int → Int) → List Int → List (Int × W) → Prop)
    (Mid : Int → List Int → (Int → W) → (Int → Int) → List Int → List (Int × W) → Prop)
    (Post : (Int → W) → (Int → Int) → List Int → Prop)
    (h_empty : ∀ D P vis, Inv D P vis [] → Post D P vis)
    (h_break : ∀ D P vis pq c cur, Inv D P vis pq → pqTop c pq = some cur →
      D cur.1 = INF → Post D P vis)
    (h_skip : ∀ D P vis pq c cur, Inv D P vis pq → pqTop c pq = some cur →
      D cur.1 ≠ INF → cur.1 ∈ vis → Inv D P vis (pq.erase cur))
    (h_visit : ∀ D P vis pq c cur, Inv D P vis pq → pqTop c pq = some cur →
      D cur.1 ≠ INF → cur.1 ∉ vis → Mid cur.1 [] D P (setInsert vis cur.1) (pq.erase cur))
    (h_upd : ∀ u done a D P vis pq, Mid u done D P vis pq → a ∈ G.neighbors u →
      D u + G.edgeData u a < D a →
      Mid u (done ++ [a]) (Function.update D a (D u + G.edgeData u a))
        (Function.update P a u) vis (pq ++ [(a, D u + G.edgeData u a)]))
    (h_keep : ∀ u done a D P vis pq, Mid u done D P vis pq → a ∈ G.neighbors u →
      ¬ (D u + G.edgeData u a < D a) → Mid u (done ++ [a]) D P vis pq)
    (h_end : ∀ u D P vis pq, Mid u (G.neighbors u) D P vis pq → Inv D P vis pq)
    (h_init : Inv (Function.update (fun v => if v ∈ G.getVertices then INF else 0) startV 0)
      (fun _ => 0) [] (G.getVertices.map (fun v => (v, INF)) ++ [(startV, 0)]))
    (hs : startV ∈ G.getVertices) (hfuel : G.fuelBound ≤ fuel) :
    ∃ r : DijkstraState W, Dijkstra INF G startV [] tie fuel = Run.done (r.prev, r.distances) ∧
      Post r.D r.P r.visitSet := by
  obtain ⟨i1, i2, i3, i4, i5⟩ := init_foldl INF G.getVertices
    ({ distances := [], prev := [], visitSet := [], pq := [] } : DijkstraState W)
  simp only [List.nil_append] at i4
  have hcount : ¬ mapCount (G.getVertices.foldl (dijkstraInit INF)
      ({ distances := [], prev := [], visitSet := [], pq := [] } : DijkstraState W)).distances
      startV = 0 := by
    rw [mapCount_eq_zero_iff, not_not, i5]
    exact Or.inl hs
  have hterm := dijkstraLoop_terminates INF G tie fuel 0
    { G.getVertices.foldl (dijkstraInit INF)
        ({ distances := [], prev := [], visitSet := [], pq := [] } : DijkstraState W) with
      distances := mapAssign (G.getVertices.foldl (dijkstraInit INF)
        ({ distances := [], prev := [], visitSet := [], pq := [] } :
          DijkstraState W)).distances startV 0
      pq := (G.getVertices.foldl (dijkstraInit INF)
        ({ distances := [], prev := [], visitSet := [], pq := [] } :
          DijkstraState W)).pq ++ [(startV, 0)] } (by
      simp only [i3, i4, graph.degreeOutside, List.length_append, List.length_map,
        List.length_singleton, List.not_mem_nil, not_false_eq_true, decide_True,
        List.filter_true]
      simp only [graph.fuelBound, graph.getVertices, List.length_map] at hfuel ⊢
      omega)
  obtain ⟨r, hr⟩ := hterm
  refine ⟨r, ?_, ?_⟩
  · unfold Dijkstra
    simp only [hcount, if_false, hr]
  · refine dijkstraLoop_post INF G tie Inv Mid Post h_empty h_break h_skip h_visit h_upd
      h_keep h_end fuel 0 _ r hr ?_
    have hD : DijkstraState.D
        { G.getVertices.foldl (dijkstraInit INF)
            ({ distances := [], prev := [], visitSet := [], pq := [] } : DijkstraState W) with
          distances := mapAssign (G.getVertices.foldl (dijkstraInit INF)
            ({ distances := [], prev := [], visitSet := [], pq := [] } :
              DijkstraState W)).distances startV 0
          pq := (G.getVertices.foldl (dijkstraInit INF)
            ({ distances := [], prev := [], visitSet := [], pq := [] } :
              DijkstraState W)).pq ++ [(startV, 0)] }
        = Function.update (fun v => if v ∈ G.getVertices then INF else 0) startV 0 := by
      funext v
      have := i1 v
      simp only [DijkstraState.D, mapGet_mapAssign, Function.update_apply] at this ⊢
      by_cases hv : startV = v
      · simp [hv]
      · have hv' : ¬ v = startV := fun h => hv h.symm
        simp only [hv, hv', if_false, this]
        simp [mapGet, mapFind]
    have hP : DijkstraState.P
        { G.getVertices.foldl (dijkstraInit INF)
            ({ distances := [], prev := [], visitSet := [], pq := [] } : DijkstraState W) with
          distances := mapAssign (G.getVertices.foldl (dijkstraInit INF)
            ({ distances := [], prev := [], visitSet := [], pq := [] } :
              DijkstraState W)).distances startV 0
          pq := (G.getVertices.foldl (dijkstraInit INF)
            ({ distances := [], prev := [], visitSet := [], pq := [] } :
              DijkstraState W)).pq ++ [(startV, 0)] }
        = fun _ => 0 := by
      funext v
      have := i2 v
      simp only [DijkstraState.P] at this ⊢
      rw [this]
      simp [mapGet, mapFind]
    rw [hD, hP]
    simp only [i3, i4]
    exact h_init

omit [Add W] in
theorem edgeData_nonneg (G : graph Int W) (hnn : G.NonNeg) (u v : Int) :
    0 ≤ G.edgeData u v := by
  unfold graph.edgeData graph.getWeight
  split
  · exact le_refl _
  · split
    · exact le_refl _
    · split
      · exact le_refl _
      · rename_i h3
        exact hnn _ (mapGet_mem 0 _ _ ((mapCount_ne_zero_iff _ _).mp h3))

theorem Dijkstra_reach (INF : W) (G : graph Int W) (s : Int) (tie : Nat → Nat) (fuel : Nat)
    (hs : s ∈ G.getVertices) (hfuel : G.fuelBound ≤ fuel) :
    ∃ r : DijkstraState W, Dijkstra INF G s [] tie fuel = Run.done (r.prev, r.distances) ∧
      ∀ v ∈ G.getVertices, (r.D v = INF ∧ r.P v = 0) ∨ Reach G s v := by
  refine Dijkstra_post INF G s tie fuel
    (fun D P _ _ => ∀ v ∈ G.getVertices, (D v = INF ∧ P v = 0) ∨ Reach G s v)
    (fun u _ D P _ _ => (∀ v ∈ G.getVertices, (D v = INF ∧ P v = 0) ∨ Reach G s v) ∧
      (u ∈ G.getVertices → Reach G s u))
    (fun D P _ => ∀ v ∈ G.getVertices, (D v = INF ∧ P v = 0) ∨ Reach G s v)
    ?_ ?_ ?_ ?_ ?_ ?_ ?_ ?_ hs hfuel
  · intro D P vis h; exact h
  · intro D P vis pq c cur h _ _; exact h
  · intro D P vis pq c cur h _ _ _; exact h
  · intro D P vis pq c cur h _ hne _
    refine ⟨h, fun hu => ?_⟩
    rcases h _ hu with h1 | h1
    · exact absurd h1.1 hne
    · exact h1
  · intro u done a D P vis pq h ha _
    have hu : u ∈ G.getVertices := by
      by_contra hu
      rw [graph.neighbors_of_not_mem G u hu] at ha
      simp at ha
    obtain ⟨rest, hrest⟩ := h.2 hu
    refine ⟨?_, h.2⟩
    intro v hv
    by_cases hva : v = a
    · subst hva
      exact Or.inr ⟨u :: rest, ha, hrest⟩
    · simpa [Function.update_apply, hva] using h.1 v hv
  · intro u done a D P vis pq h _ _; exact h
  · intro u D P vis pq h; exact h.1
  · intro v hv
    by_cases hvs : v = s
    · subst hvs
      exact Or.inr ⟨[], rfl⟩
    · left
      simp [Function.update_apply, hvs, hv]

theorem Dijkstra_source_aux (INF : W) (G : graph Int W) (s : Int) (tie : Nat → Nat)
    (fuel : Nat) (hINF : 0 ≤ INF) (hinfl : ∀ a w : W, 0 ≤ w → a ≤ a + w) (hnn : G.NonNeg)
    (hs : s ∈ G.getVertices) (hfuel : G.fuelBound ≤ fuel) :
    ∃ r : DijkstraState W, Dijkstra INF G s [] tie fuel = Run.done (r.prev, r.distances) ∧
      r.D s = 0 ∧ r.P s = 0 ∧ ∀ v, 0 ≤ r.D v := by
  refine Dijkstra_post INF G s tie fuel
    (fun D P _ _ => D s = 0 ∧ P s = 0 ∧ ∀ v, 0 ≤ D v)
    (fun _ _ D P _ _ => D s = 0 ∧ P s = 0 ∧ ∀ v, 0 ≤ D v)
    (fun D P _ => D s = 0 ∧ P s = 0 ∧ ∀ v, 0 ≤ D v)
    ?_ ?_ ?_ ?_ ?_ ?_ ?_ ?_ hs hfuel
  · intro D P vis h; exact h
  · intro D P vis pq c cur h _ _; exact h
  · intro D P vis pq c cur h _ _ _; exact h
  · intro D P vis pq c cur h _ _ _; exact h
  · intro u done a D P vis pq h _ hlt
    obtain ⟨h1, h2, h3⟩ := h
    have halt : 0 ≤ D u + G.edgeData u a :=
      le_trans (h3 u) (hinfl _ _ (edgeData_nonneg G hnn u a))
    have has : s ≠ a := by
      intro has
      subst has
      rw [h1] at hlt
      exact absurd hlt (not_lt.mpr halt)
    refine ⟨?_, ?_, ?_⟩
    · simpa [Function.update_apply, has] using h1
    · simpa [Function.update_apply, has] using h2
    · intro v
      by_cases hva : v = a
      · subst hva; simpa using halt
      · simpa [Function.update_apply, hva] using h3 v
  · intro u done a D P vis pq h _ _; exact h
  · intro u D P vis pq h; exact h
  · refine ⟨by simp, rfl, ?_⟩
    intro v
    show 0 ≤ Function.update (fun v => if v ∈ G.getVertices then INF else 0) s 0 v
    rw [Function.update_apply]
    split
    · exact le_refl _
    · split
      · exact hINF
      · exact le_refl _

omit [LinearOrder W] [Add W] [Zero W] in
theorem neighbors_mem_vertices (G : graph Int W) (hWF : G.WF) (u a : Int)
    (ha : a ∈ G.neighbors u) : u ∈ G.getVertices ∧ a ∈ G.getVertices := by
  have hu : u ∈ G.getVertices := by
    by_contra hu
    rw [graph.neighbors_of_not_mem G u hu] at ha
    simp at ha
  rw [graph.neighbors_eq] at ha
  exact ⟨hu, (hWF.adj_closed _ (mapGet_mem [] _ _ hu) a ha).1⟩

theorem prevWalk_update (P : Int → Int) (s a u : Int) :
    ∀ (rest : List Int) (v : Int), PrevWalk P s v rest → a ∉ v :: rest →
      PrevWalk (Function.update P a u) s v rest := by
  intro rest
  induction rest with
  | nil => intro v h _; exact h
  | cons x rest ih =>
    intro v h hnot
    obtain ⟨h1, h2, h3⟩ := h
    have hva : v ≠ a := fun hva => hnot (hva ▸ List.mem_cons_self _ _)
    refine ⟨h1, ?_, ih x h3 (fun hm => hnot (List.mem_cons_of_mem _ hm))⟩
    rw [Function.update_noteq hva]
    exact h2

theorem loopInv_init (INF : W) (G : graph Int W) (s : Int) (hINF : 0 ≤ INF)
    (hs : s ∈ G.getVertices) :
    LoopInv INF G s (Function.update (fun v => if v ∈ G.getVertices then INF else 0) s 0)
      (fun _ => 0) [] (G.getVertices.map (fun v => (v, INF)) ++ [(s, 0)]) := by
  have hD : ∀ v, Function.update (fun v => if v ∈ G.getVertices then INF else (0 : W)) s 0 v
      = if v = s then 0 else if v ∈ G.getVertices then INF else 0 :=
    fun v => Function.update_apply _ _ _ _
  have hfin : ∀ v ∈ G.getVertices,
      Function.update (fun v => if v ∈ G.getVertices then INF else (0 : W)) s 0 v < INF →
      v = s := by
    intro v hv hlt
    by_contra hvs
    rw [hD, if_neg hvs, if_pos hv] at hlt
    exact lt_irrefl _ hlt
  refine ⟨⟨?_, ?_, ?_, ?_, fun v hv => absurd rfl hv, ?_⟩, ⟨?_, ?_, ?_, ?_⟩, ?_⟩
  · simp
  · intro v
    rw [hD]
    split
    · exact le_refl _
    · split
      · exact hINF
      · exact le_refl _
  · intro v hv
    rw [hD]
    split
    · exact hINF
    · exact le_refl _
  · intro x hx; simp at hx
  · intro v hv hlt
    have := hfin v hv hlt
    subst this
    refine ⟨[], rfl, rfl, by simp, by simp, ?_⟩
    simp [walkCost]
  · intro e he
    rcases List.mem_append.mp he with he | he
    · obtain ⟨v, hv, rfl⟩ := List.mem_map.mp he
      exact hv
    · simp only [List.mem_singleton] at he
      subst he
      exact hs
  · intro e he
    rcases List.mem_append.mp he with he | he
    · obtain ⟨v, hv, rfl⟩ := List.mem_map.mp he
      show Function.update (fun v => if v ∈ G.getVertices then INF else (0 : W)) s 0 v ≤ INF
      rw [hD]
      split
      · exact hINF
      · exact le_refl _
    · simp only [List.mem_singleton] at he
      subst he
      simp
  · intro x hx; simp at hx
  · intro v hv _ hlt
    have := hfin v hv hlt
    subst this
    simp
  · intro x hx; simp at hx

theorem loopInv_empty (INF : W) (G : graph Int W) (s : Int) (D : Int → W) (P : Int → Int)
    (vis : List Int) (h : LoopInv INF G s D P vis []) : PostInv INF G s D P vis := by
  refine ⟨h.tree, h.relaxed, ?_⟩
  intro v hv hlt
  by_contra hvis
  have := h.queue.live v hv hvis hlt
  simp at this

theorem loopInv_break (INF : W) (G : graph Int W) (s : Int) (D : Int → W) (P : Int → Int)
    (vis : List Int) (pq : List (Int × W)) (c : Nat) (cur : Int × W)
    (h : LoopInv INF G s D P vis pq) (htop : pqTop c pq = some cur) (hD : D cur.1 = INF) :
    PostInv INF G s D P vis := by
  refine ⟨h.tree, h.relaxed, ?_⟩
  intro v hv hlt
  by_contra hvis
  have hmem := h.queue.live v hv hvis hlt
  obtain ⟨hc, hmin⟩ := pqTop_spec c pq cur htop
  have h1 := hmin _ hmem
  have h2 := h.queue.pq_ge cur hc
  rw [hD] at h2
  exact absurd hlt (not_lt.mpr (le_trans h2 h1))

theorem loopInv_skip (INF : W) (G : graph Int W) (s : Int) (D : Int → W) (P : Int → Int)
    (vis : List Int) (pq : List (Int × W)) (cur : Int × W)
    (h : LoopInv INF G s D P vis pq) (hvis : cur.1 ∈ vis) :
    LoopInv INF G s D P vis (pq.erase cur) := by
  refine ⟨h.tree, ⟨?_, ?_, ?_, ?_⟩, h.relaxed⟩
  · intro e he; exact h.queue.pq_vert e (List.mem_of_mem_erase he)
  · intro e he; exact h.queue.pq_ge e (List.mem_of_mem_erase he)
  · intro x hx e he; exact h.queue.vis_le x hx e (List.mem_of_mem_erase he)
  · intro v hv hnv hlt
    have hne : (v, D v) ≠ cur := by
      intro heq
      apply hnv
      rw [← heq] at hvis
      exact hvis
    exact (List.mem_erase_of_ne hne).mpr (h.queue.live v hv hnv hlt)

theorem loopInv_visit (INF : W) (G : graph Int W) (s : Int) (D : Int → W) (P : Int → Int)
    (vis : List Int) (pq : List (Int × W)) (c : Nat) (cur : Int × W)
    (h : LoopInv INF G s D P vis pq) (htop : pqTop c pq = some cur) (hD : D cur.1 ≠ INF)
    (hvis : cur.1 ∉ vis) :
    MidInv INF G s cur.1 [] D P (setInsert vis cur.1) (pq.erase cur) := by
  obtain ⟨hc, hmin⟩ := pqTop_spec c pq cur htop
  have hV := h.queue.pq_vert cur hc
  have hlt : D cur.1 < INF := lt_of_le_of_ne (h.tree.le_inf _ hV) hD
  have hlive := h.queue.live _ hV hvis hlt
  have hk : cur.2 = D cur.1 := le_antisymm (hmin _ hlive) (h.queue.pq_ge cur hc)
  have hmax : ∀ x ∈ setInsert vis cur.1, D x ≤ D cur.1 := by
    intro x hx
    rcases (mem_setInsert _ _ _).mp hx with hx | hx
    · rw [hx]
    · rw [← hk]; exact h.queue.vis_le x hx cur hc
  refine ⟨⟨h.tree.src, h.tree.nonneg, h.tree.le_inf, ?_, h.tree.unset, ?_⟩,
    ⟨?_, ?_, ?_, ?_⟩, ?_, ?_, hmax, ?_⟩
  · intro x hx
    rcases (mem_setInsert _ _ _).mp hx with hx | hx
    · rw [hx]; exact ⟨hV, hlt⟩
    · exact h.tree.vis_fin x hx
  · intro v hv hvlt
    obtain ⟨rest, h1, h2, h3, h4, h5⟩ := h.tree.tree v hv hvlt
    exact ⟨rest, h1, h2, fun x hx => (mem_setInsert _ _ _).mpr (Or.inr (h3 x hx)), h4, h5⟩
  · intro e he; exact h.queue.pq_vert e (List.mem_of_mem_erase he)
  · intro e he; exact h.queue.pq_ge e (List.mem_of_mem_erase he)
  · intro x hx e he
    have he' := List.mem_of_mem_erase he
    exact le_trans (hmax x hx) (hk ▸ hmin e he')
  · intro v hv hnv hvlt
    have hnv' : v ∉ vis := fun hm => hnv ((mem_setInsert _ _ _).mpr (Or.inr hm))
    have hne : (v, D v) ≠ cur := by
      intro heq
      apply hnv
      rw [← heq]
      exact (mem_setInsert _ _ _).mpr (Or.inl rfl)
    exact (List.mem_erase_of_ne hne).mpr (h.queue.live v hv hnv' hvlt)
  · intro x hx hxu
    rcases (mem_setInsert _ _ _).mp hx with hx | hx
    · exact absurd hx hxu
    · exact h.relaxed x hx
  · exact (mem_setInsert _ _ _).mpr (Or.inl rfl)
  · intro a ha; simp at ha

theorem midInv_keep (INF : W) (G : graph Int W) (s u : Int) (done : List Int) (a : Int)
    (D : Int → W) (P : Int → Int) (vis : List Int) (pq : List (Int × W))
    (h : MidInv INF G s u done D P vis pq) (hlt : ¬ (D u + G.edgeData u a < D a)) :
    MidInv INF G s u (done ++ [a]) D P vis pq := by
  refine ⟨h.tree, h.queue, h.relaxed, h.cur_mem, h.cur_max, ?_⟩
  intro b hb
  rcases List.mem_append.mp hb with hb | hb
  · exact h.done_le b hb
  · simp only [List.mem_singleton] at hb
    subst hb
    exact not_lt.mp hlt

theorem midInv_end (INF : W) (G : graph Int W) (s u : Int) (D : Int → W) (P : Int → Int)
    (vis : List Int) (pq : List (Int × W))
    (h : MidInv INF G s u (G.neighbors u) D P vis pq) : LoopInv INF G s D P vis pq := by
  refine ⟨h.tree, h.queue, ?_⟩
  intro x hx
  by_cases hxu : x = u
  · subst hxu
    exact h.done_le
  · exact h.relaxed x hx hxu

theorem midInv_upd (INF : W) (G : graph Int W) (s u : Int) (done : List Int) (a : Int)
    (D : Int → W) (P : Int → Int) (vis : List Int) (pq : List (Int × W))
    (hWF : G.WF) (hnn : G.NonNeg) (hinfl : ∀ a w : W, 0 ≤ w → a ≤ a + w)
    (h : MidInv INF G s u done D P vis pq) (ha : a ∈ G.neighbors u)
    (hlt : D u + G.edgeData u a < D a) :
    MidInv INF G s u (done ++ [a]) (Function.update D a (D u + G.edgeData u a))
      (Function.update P a u) vis (pq ++ [(a, D u + G.edgeData u a)]) := by
  have haV : a ∈ G.getVertices := (neighbors_mem_vertices G hWF u a ha).2
  obtain ⟨huV, huF⟩ := h.tree.vis_fin u h.cur_mem
  have hge : D u ≤ D u + G.edgeData u a := hinfl _ _ (edgeData_nonneg G hnn u a)
  have havis : a ∉ vis := by
    intro hm
    exact absurd hlt (not_lt.mpr (le_trans (h.cur_max a hm) hge))
  have has : a ≠ s := by
    intro has
    have h0 : D a = 0 := has ▸ h.tree.src
    rw [h0] at hlt
    exact absurd hlt (not_lt.mpr (le_trans (h.tree.nonneg u) hge))
  have hau : u ≠ a := fun hua => havis (hua ▸ h.cur_mem)
  have hDa : Function.update D a (D u + G.edgeData u a) a = D u + G.edgeData u a :=
    Function.update_same _ _ _
  have hDne : ∀ x, x ≠ a → Function.update D a (D u + G.edgeData u a) x = D x :=
    fun x hx => Function.update_noteq hx _ _
  have hDvis : ∀ x ∈ vis, Function.update D a (D u + G.edgeData u a) x = D x :=
    fun x hx => hDne x (fun hxa => havis (hxa ▸ hx))
  have hDle : ∀ x, Function.update D a (D u + G.edgeData u a) x ≤ D x := by
    intro x
    by_cases hxa : x = a
    · rw [hxa, hDa]; exact le_of_lt hlt
    · rw [hDne x hxa]
  refine ⟨⟨?_, ?_, ?_, ?_, ?_, ?_⟩, ⟨?_, ?_, ?_, ?_⟩, ?_, h.cur_mem, ?_, ?_⟩
  · rw [hDne s (Ne.symm has)]; exact h.tree.src
  · intro v
    by_cases hva : v = a
    · rw [hva, hDa]; exact le_trans (h.tree.nonneg u) hge
    · rw [hDne v hva]; exact h.tree.nonneg v
  · intro v hv
    exact le_trans (hDle v) (h.tree.le_inf v hv)
  · intro x hx
    rw [hDvis x hx]
    exact h.tree.vis_fin x hx
  · intro v hv
    by_cases hva : v = a
    · rw [hva, hDa]
      exact ⟨haV, lt_of_lt_of_le hlt (h.tree.le_inf a haV)⟩
    · rw [Function.update_noteq hva] at hv
      exact ⟨(h.tree.unset v hv).1, lt_of_le_of_lt (hDle v) (h.tree.unset v hv).2⟩
  · intro v hv hvlt
    by_cases hva : v = a
    · subst hva
      obtain ⟨rest, h1, h2, h3, h4, h5⟩ := h.tree.tree u huV huF
      have hnot : v ∉ u :: rest := by
        intro hm
        rcases List.mem_cons.mp hm with hm | hm
        · exact hau hm.symm
        · exact havis (h3 v hm)
      refine ⟨u :: rest, ⟨ha, h1⟩, ⟨has, Function.update_same _ _ _,
        prevWalk_update P s v u rest u h2 hnot⟩, ?_, List.nodup_cons.mpr ⟨hnot, h4⟩, ?_⟩
      · intro x hx
        rcases List.mem_cons.mp hx with hx | hx
        · rw [hx]; exact h.cur_mem
        · exact h3 x hx
      · rw [hDa]
        show walkCost G u rest + G.edgeData u v = _
        rw [h5]
    · rw [hDne v hva] at hvlt ⊢
      obtain ⟨rest, h1, h2, h3, h4, h5⟩ := h.tree.tree v hv hvlt
      have hnot : a ∉ v :: rest := by
        intro hm
        rcases List.mem_cons.mp hm with hm | hm
        · exact hva hm.symm
        · exact havis (h3 a hm)
      exact ⟨rest, h1, prevWalk_update P s a u rest v h2 hnot, h3, h4, h5⟩
  · intro e he
    rcases List.mem_append.mp he with he | he
    · exact h.queue.pq_vert e he
    · simp only [List.mem_singleton] at he
      subst he
      exact haV
  · intro e he
    rcases List.mem_append.mp he with he | he
    · exact le_trans (hDle e.1) (h.queue.pq_ge e he)
    · simp only [List.mem_singleton] at he
      subst he
      exact le_of_eq hDa
  · intro x hx e he
    rw [hDvis x hx]
    rcases List.mem_append.mp he with he | he
    · exact h.queue.vis_le x hx e he
    · simp only [List.mem_singleton] at he
      subst he
      exact le_trans (h.cur_max x hx) hge
  · intro v hv hnv hvlt
    by_cases hva : v = a
    · subst hva
      rw [hDa]
      exact List.mem_append.mpr (Or.inr (List.mem_singleton.mpr rfl))
    · rw [hDne v hva] at hvlt ⊢
      exact List.mem_append.mpr (Or.inl (h.queue.live v hv hnv hvlt))
  · intro x hx hxu b hb
    rw [hDvis x hx]
    exact le_trans (hDle b) (h.relaxed x hx hxu b hb)
  · intro x hx
    rw [hDvis x hx, hDvis u h.cur_mem]
    exact h.cur_max x hx
  · intro b hb
    rw [hDvis u h.cur_mem]
    rcases List.mem_append.mp hb with hb | hb
    · exact le_trans (hDle b) (h.done_le b hb)
    · simp only [List.mem_singleton] at hb
      subst hb
      exact le_of_eq hDa

theorem Dijkstra_postInv (INF : W) (G : graph Int W) (s : Int) (tie : Nat → Nat)
    (fuel : Nat) (hWF : G.WF) (hnn : G.NonNeg) (hINF : 0 ≤ INF)
    (hinfl : ∀ a w : W, 0 ≤ w → a ≤ a + w)
    (hs : s ∈ G.getVertices) (hfuel : G.fuelBound ≤ fuel) :
    ∃ r : DijkstraState W, Dijkstra INF G s [] tie fuel = Run.done (r.prev, r.distances) ∧
      PostInv INF G s r.D r.P r.visitSet :=
  Dijkstra_post INF G s tie fuel (LoopInv INF G s) (MidInv INF G s) (PostInv INF G s)
    (loopInv_empty INF G s)
    (fun D P vis pq c cur h htop hD => loopInv_break INF G s D P vis pq c cur h htop hD)
    (fun D P vis pq _ cur h _ _ hvis => loopInv_skip INF G s D P vis pq cur h hvis)
    (fun D P vis pq c cur h htop hD hvis => loopInv_visit INF G s D P vis pq c cur h htop hD hvis)
    (fun u done a D P vis pq h ha hlt =>
      midInv_upd INF G s u done a D P vis pq hWF hnn hinfl h ha hlt)
    (fun u done a D P vis pq h _ hlt => midInv_keep INF G s u done a D P vis pq h hlt)
    (midInv_end INF G s) (loopInv_init INF G s hINF hs) hs hfuel

theorem postInv_lower (INF : W) (G : graph Int W) (s : Int) (D : Int → W) (P : Int → Int)
    (vis : List Int) (hWF : G.WF) (hnn : G.NonNeg)
    (hinfl : ∀ a w : W, 0 ≤ w → a ≤ a + w) (hmono : ∀ a b w : W, a ≤ b → a + w ≤ b + w)
    (hs : s ∈ G.getVertices) (h : PostInv INF G s D P vis) :
    ∀ (rest : List Int) (v : Int), Walk G s v rest →
      v ∈ G.getVertices ∧ D v ≤ walkCost G v rest := by
  intro rest
  induction rest with
  | nil =>
    intro v hw
    have : v = s := hw
    subst this
    exact ⟨hs, le_of_eq h.tree.src⟩
  | cons u r ih =>
    intro v hw
    obtain ⟨hvu, hur⟩ := hw
    obtain ⟨huV, hule⟩ := ih u hur
    have hvV := (neighbors_mem_vertices G hWF u v hvu).2
    refine ⟨hvV, ?_⟩
    show D v ≤ walkCost G u r + G.edgeData u v
    by_cases hlt : D u < INF
    · exact le_trans (h.relaxed u (h.closed u huV hlt) v hvu) (hmono _ _ _ hule)
    · exact le_trans (h.tree.le_inf v hvV) (le_trans (not_lt.mp hlt)
        (le_trans hule (hinfl _ _ (edgeData_nonneg G hnn u v))))

end DijkstraLemmas

theorem printPath_prevWalk (P : Int → Int) (s : Int) :
    ∀ (rest : List Int) (v : Int) (prev : List (Int × Int)) (n : Nat),
      (∀ x, mapGet 0 prev x = P x) → PrevWalk P s v rest → rest.length < n →
      ∃ prev1, printPath n prev s v = some (prev1, (v :: rest).reverse) := by
  intro rest
  induction rest with
  | nil =>
    intro v prev n _ hw hn
    have : v = s := hw
    subst this
    cases n with
    | zero => simp at hn
    | succ n => exact ⟨prev, by simp [printPath]⟩
  | cons u r ih =>
    intro v prev n hP hw hn
    obtain ⟨hvs, hPv, hur⟩ := hw
    cases n with
    | zero => simp at hn
    | succ n =>
      have hn' : r.length < n := by simpa using hn
      have hP' : ∀ x, mapGet 0 (mapTouch 0 prev v) x = P x := by
        intro x; rw [mapGet_mapTouch]; exact hP x
      obtain ⟨prev1, h1⟩ := ih u (mapTouch 0 prev v) n hP' hur hn'
      refine ⟨prev1, ?_⟩
      unfold printPath
      rw [if_neg (fun h => hvs h.symm), hP v, hPv, h1]
      simp

theorem printPath_stuck (s : Int) (hs : s ≠ 0) :
    ∀ (n : Nat) (prev : List (Int × Int)), mapGet 0 prev 0 = 0 →
      printPath n prev s 0 = none := by
  intro n
  induction n with
  | zero => intro prev _; rfl
  | succ n ih =>
    intro prev h0
    unfold printPath
    rw [if_neg hs, h0, ih (mapTouch 0 prev 0) (by rw [mapGet_mapTouch]; exact h0)]

theorem scenario_eq : graph.run scenarioOps
    = ⟨[(1, [2]), (2, [3]), (3, [])], [((1, 2), 5), ((2, 3), 3)]⟩ := by decide

theorem far_eq : graph.run farOps
    = ⟨[(1, [2]), (2, [3]), (3, [])], [((1, 2), Dbl.big), ((2, 3), Dbl.big)]⟩ := by
  decide

theorem neighbors_chain {W : Type} (wl : List ((Int × Int) × W)) (u a : Int)
    (h : a ∈ (⟨[(1, [2]), (2, [3]), (3, [])], wl⟩ : graph Int W).neighbors u) :
    (u = 1 ∧ a = 2) ∨ (u = 2 ∧ a = 3) := by
  rw [graph.neighbors_eq] at h
  by_cases h1 : u = 1
  · subst h1
    simp [mapGet, mapFind] at h
    exact Or.inl ⟨rfl, h⟩
  · by_cases h2 : u = 2
    · subst h2
      simp [mapGet, mapFind] at h
      exact Or.inr ⟨rfl, h⟩
    · by_cases h3 : u = 3
      · subst h3
        simp [mapGet, mapFind] at h
      · have e1 : ¬ (1 : Int) = u := fun h => h1 h.symm
        have e2 : ¬ (2 : Int) = u := fun h => h2 h.symm
        have e3 : ¬ (3 : Int) = u := fun h => h3 h.symm
        simp [mapGet, mapFind, e1, e2, e3] at h

theorem scenario_not_reach : ¬ Reach (graph.run scenarioOps) 3 1 := by
  rintro ⟨rest, hw⟩
  cases rest with
  | nil => exact absurd (show (1 : Int) = 3 from hw) (by decide)
  | cons u r =>
    obtain ⟨h1, _⟩ := hw
    rw [scenario_eq] at h1
    rcases neighbors_chain _ u 1 h1 with ⟨_, h⟩ | ⟨_, h⟩ <;> exact absurd h (by decide)

theorem dbl_zero_le_code : ∀ c : Fin 10, (0 : Dbl) ≤ ⟨c⟩ := by decide

theorem dbl_le_add_code :
    ∀ c d : Fin 10, (0 : Dbl) ≤ ⟨d⟩ → (⟨c⟩ : Dbl) ≤ (⟨c⟩ : Dbl) + ⟨d⟩ := by decide

theorem dbl_overflow_code :
    ∀ c : Fin 10, ((⟨c⟩ : Dbl) + Dbl.big) + Dbl.big = Dbl.inf := by decide

theorem dbl_zero_le (d : Dbl) : 0 ≤ d := dbl_zero_le_code d.code

theorem dbl_le_add (a w : Dbl) (h : 0 ≤ w) : a ≤ a + w := dbl_le_add_code a.code w.code h

theorem far_walk_cost (rest : List Int) (hw : Walk (graph.run farOps) 1 3 rest) :
    walkCost (graph.run farOps) 3 rest = Dbl.inf := by
  cases rest with
  | nil => exact absurd (show (3 : Int) = 1 from hw) (by decide)
  | cons u r =>
    obtain ⟨h1, hw1⟩ := hw
    have hu : u = 2 := by
      rw [far_eq] at h1
      rcases neighbors_chain _ u 3 h1 with ⟨_, h⟩ | ⟨h, _⟩
      · exact absurd h (by decide)
      · exact h
    subst hu
    cases r with
    | nil => exact absurd (show (2 : Int) = 1 from hw1) (by decide)
    | cons u' r' =>
      obtain ⟨h2, _⟩ := hw1
      have hu' : u' = 1 := by
        rw [far_eq] at h2
        rcases neighbors_chain _ u' 2 h2 with ⟨h, _⟩ | ⟨_, h⟩
        · exact h
        · exact absurd h (by decide)
      subst hu'
      show walkCost (graph.run farOps) 1 r' + (graph.run farOps).edgeData 1 2
        + (graph.run farOps).edgeData 2 3 = Dbl.inf
      have e1 : (graph.run farOps).edgeData 1 2 = Dbl.big := by decide
      have e2 : (graph.run farOps).edgeData 2 3 = Dbl.big := by decide
      rw [e1, e2]
      exact dbl_overflow_code _

theorem far_Dijkstra (tie : Nat → Nat) (fuel : Nat)
    (hfuel : (graph.run farOps).fuelBound ≤ fuel) :
    ∃ r : DijkstraState Dbl,
      Dijkstra Dbl.max (graph.run farOps) 1 [] tie fuel = Run.done (r.prev, r.distances) ∧
      r.D 3 = Dbl.max ∧ r.P 3 = 0 ∧ r.P 0 = 0 := by
  obtain ⟨r, hr, hpost⟩ := Dijkstra_postInv Dbl.max (graph.run farOps) 1 tie fuel
    (graph.WF_run farOps) (fun e _ => dbl_zero_le _) (by decide) dbl_le_add (by decide) hfuel
  have h3 : (3 : Int) ∈ (graph.run farOps).getVertices := by decide
  have hD : r.D 3 = Dbl.max := by
    by_contra hne
    have hlt : r.D 3 < Dbl.max := lt_of_le_of_ne (hpost.tree.le_inf 3 h3) hne
    obtain ⟨rest, hw, _, _, _, hc⟩ := hpost.tree.tree 3 h3 hlt
    rw [far_walk_cost rest hw] at hc
    rw [← hc] at hlt
    exact absurd hlt (by decide)
  refine ⟨r, hr, hD, ?_, ?_⟩
  · by_contra hne
    have := (hpost.tree.unset 3 hne).2
    rw [hD] at this
    exact lt_irrefl _ this
  · by_contra hne
    exact absurd (hpost.tree.unset 0 hne).1 (by decide)

section DijkstraClaims

variable {W : Type} [LinearOrder W] [Add W] [Zero W]

/-- C1 (amended). For every state `run ops` of a graph object with non-negative weights,
every source vertex `s` and every choice `tie` the priority queue makes among equal
priorities, `Dijkstra(G, s, distances)` on a fresh `distances` map finishes, and for every
`v`: `distances[v]` is at most the accumulated weight of every walk from `s` to `v`; when
some walk from `s` to `v` has accumulated weight below `INF`, `distances[v]` is the
accumulated weight of a walk from `s` to `v` (so it is the minimum); and when `v` is a vertex
and every walk from `s` to `v` has accumulated weight at least `INF`, `distances[v]` is
`INF`. -/
theorem Dijkstra_shortest (INF : W) (ops : List (Op Int W)) (s : Int) (tie : Nat → Nat)
    (fuel : Nat) (hINF : 0 ≤ INF) (hinfl : ∀ a w : W, 0 ≤ w → a ≤ a + w)
    (hmono : ∀ a b w : W, a ≤ b → a + w ≤ b + w) (hnn : (graph.run ops).NonNeg)
    (hs : s ∈ (graph.run ops).getVertices) (hfuel : (graph.run ops).fuelBound ≤ fuel) :
    ∃ prev distances,
      Dijkstra INF (graph.run ops) s [] tie fuel = Run.done (prev, distances) ∧
      ∀ v,
        (∀ rest, Walk (graph.run ops) s v rest →
          mapGet 0 distances v ≤ walkCost (graph.run ops) v rest) ∧
        ((∃ rest, Walk (graph.run ops) s v rest ∧ walkCost (graph.run ops) v rest < INF) →
          ∃ rest, Walk (graph.run ops) s v rest ∧
            walkCost (graph.run ops) v rest = mapGet 0 distances v) ∧
        (v ∈ (graph.run ops).getVertices →
          (∀ rest, Walk (graph.run ops) s v rest → INF ≤ walkCost (graph.run ops) v rest) →
          mapGet 0 distances v = INF) := by
  have hWF := graph.WF_run ops
  obtain ⟨r, hr, hpost⟩ :=
    Dijkstra_postInv INF (graph.run ops) s tie fuel hWF hnn hINF hinfl hs hfuel
  refine ⟨r.prev, r.distances, hr, fun v => ⟨?_, ?_, ?_⟩⟩
  · intro rest hw
    exact (postInv_lower INF _ s r.D r.P r.visitSet hWF hnn hinfl hmono hs hpost rest v hw).2
  · rintro ⟨rest, hw, hlt⟩
    obtain ⟨hvV, hle⟩ :=
      postInv_lower INF _ s r.D r.P r.visitSet hWF hnn hinfl hmono hs hpost rest v hw
    obtain ⟨rest', h1, _, _, _, h5⟩ := hpost.tree.tree v hvV (lt_of_le_of_lt hle hlt)
    exact ⟨rest', h1, h5⟩
  · intro hvV hall
    by_contra hne
    have hlt : r.D v < INF := lt_of_le_of_ne (hpost.tree.le_inf v hvV) hne
    obtain ⟨rest', h1, _, _, _, h5⟩ := hpost.tree.tree v hvV hlt
    have := hall rest' h1
    rw [h5] at this
    exact absurd hlt (not_lt.mpr this)

/-- C2 (amended). For every state `run ops` of a graph object with non-negative weights,
every source vertex `s` and every vertex `v` that a walk of accumulated weight below `INF`
reaches from `s`, or whose recorded distance is below `INF`: the predecessor map returned
by `Dijkstra` leads from `v` back to `s` (`v, prev[v], prev[prev[v]], ...`) in finitely
many steps without repeating a vertex, each step `prev[x] -> x` is an edge, the weights
accumulated along it give `distances[v]`, and `printPath(prev, s, v)` returns, having
printed that walk from `s` to `v`. -/
theorem Dijkstra_prev_walk (INF : W) (ops : List (Op Int W)) (s : Int) (tie : Nat → Nat)
    (fuel : Nat) (hINF : 0 ≤ INF) (hinfl : ∀ a w : W, 0 ≤ w → a ≤ a + w)
    (hmono : ∀ a b w : W, a ≤ b → a + w ≤ b + w) (hnn : (graph.run ops).NonNeg)
    (hs : s ∈ (graph.run ops).getVertices) (hfuel : (graph.run ops).fuelBound ≤ fuel) :
    ∃ prev distances,
      Dijkstra INF (graph.run ops) s [] tie fuel = Run.done (prev, distances) ∧
      ∀ v,
        ((∃ rest, Walk (graph.run ops) s v rest ∧ walkCost (graph.run ops) v rest < INF) ∨
          (v ∈ (graph.run ops).getVertices ∧ mapGet 0 distances v < INF)) →
        ∃ rest, PrevWalk (mapGet 0 prev) s v rest ∧ (v :: rest).Nodup ∧
          Walk (graph.run ops) s v rest ∧
          walkCost (graph.run ops) v rest = mapGet 0 distances v ∧
          ∀ n, rest.length < n →
            ∃ prev1, printPath n prev s v = some (prev1, (v :: rest).reverse) := by
  have hWF := graph.WF_run ops
  obtain ⟨r, hr, hpost⟩ :=
    Dijkstra_postInv INF (graph.run ops) s tie fuel hWF hnn hINF hinfl hs hfuel
  refine ⟨r.prev, r.distances, hr, fun v hv => ?_⟩
  have hfin : v ∈ (graph.run ops).getVertices ∧ r.D v < INF := by
    rcases hv with ⟨rest, hw, hlt⟩ | hv
    · obtain ⟨hvV, hle⟩ :=
        postInv_lower INF _ s r.D r.P r.visitSet hWF hnn hinfl hmono hs hpost rest v hw
      exact ⟨hvV, lt_of_le_of_lt hle hlt⟩
    · exact hv
  obtain ⟨rest, h1, h2, _, h4, h5⟩ := hpost.tree.tree v hfin.1 hfin.2
  exact ⟨rest, h2, h4, h1, h5,
    fun n hn => printPath_prevWalk r.P s rest v r.prev n (fun _ => rfl) h2 hn⟩

/-- C3. For every graph, every source vertex `s` and every vertex `v` that no directed walk
reaches from `s`, `Dijkstra(G, s, distances)` on a fresh `distances` map finishes with
`distances[v] = INF` and `prev[v] = 0`, whatever the weights are. -/
theorem Dijkstra_unreachable (INF : W) (G : graph Int W) (s v : Int) (tie : Nat → Nat)
    (fuel : Nat) (hs : s ∈ G.getVertices) (hv : v ∈ G.getVertices)
    (hnot : ¬ Reach G s v) (hfuel : G.fuelBound ≤ fuel) :
    ∃ prev distances, Dijkstra INF G s [] tie fuel = Run.done (prev, distances) ∧
      mapGet 0 distances v = INF ∧ mapGet 0 prev v = 0 := by
  obtain ⟨r, hr, h⟩ := Dijkstra_reach INF G s tie fuel hs hfuel
  refine ⟨r.prev, r.distances, hr, ?_⟩
  rcases h v hv with h1 | h1
  · exact h1
  · exact absurd h1 hnot

/-- Witness of C1: the graph of the scenario (edges 1 -> 2 of weight 5 and 2 -> 3 of
weight 3), source 1, with `INF = 1000`: the run yields the distances 0, 5, 8, and
`distances[3]` is a lower bound of the weight of every walk from 1 to 3. -/
theorem Dijkstra_shortest_witness :
    Dijkstra 1000 (graph.run scenarioOps) 1 [] (fun _ => 0) 7
      = Run.done ([(1, 0), (2, 1), (3, 2)], [(1, 0), (2, 5), (3, 8)]) ∧
    ∃ prev distances,
      Dijkstra 1000 (graph.run scenarioOps) 1 [] (fun _ => 0) 7 = Run.done (prev, distances) ∧
      (∀ rest, Walk (graph.run scenarioOps) 1 3 rest →
        mapGet 0 distances 3 ≤ walkCost (graph.run scenarioOps) 3 rest) ∧
      ∃ rest, Walk (graph.run scenarioOps) 1 3 rest ∧
        walkCost (graph.run scenarioOps) 3 rest = mapGet 0 distances 3 := by
  refine ⟨by decide, ?_⟩
  obtain ⟨prev, distances, hr, h⟩ := Dijkstra_shortest 1000 scenarioOps 1 (fun _ => 0) 7
    (by decide) (fun a w _ => Nat.le_add_right a w) (fun a b w h => Nat.add_le_add_right h w)
    (fun e _ => Nat.zero_le _) (by decide) (by decide)
  exact ⟨prev, distances, hr, (h 3).1,
    (h 3).2.1 ⟨[2, 1], ⟨by decide, by decide, rfl⟩, by decide⟩⟩

/-- Counterexample to C1 as stated: with `INF = numeric_limits<double>::max()` and the
edges 1 -> 2 and 2 -> 3 of weight `7 * 2^1021` each, vertex 3 is reachable from 1 and every
walk from 1 to 3 has accumulated weight `+infinity` (the sum of the two weights is
`1.75 * 2^1024` and overflows), but every run of `Dijkstra` from 1 leaves
`distances[3] = INF`, which is smaller. -/
theorem Dijkstra_shortest_counterexample :
    (graph.run farOps).NonNeg ∧ Walk (graph.run farOps) 1 3 [2, 1] ∧
    (∀ rest, Walk (graph.run farOps) 1 3 rest →
      walkCost (graph.run farOps) 3 rest = Dbl.inf) ∧
    Dbl.max < Dbl.inf ∧
    Dijkstra Dbl.max (graph.run farOps) 1 [] (fun _ => 0) 7
      = Run.done ([(1, 0), (2, 1), (3, 0)], [(1, 0), (2, Dbl.big), (3, Dbl.max)]) ∧
    ∀ (tie : Nat → Nat) (fuel : Nat), (graph.run farOps).fuelBound ≤ fuel →
      ∃ prev distances,
        Dijkstra Dbl.max (graph.run farOps) 1 [] tie fuel = Run.done (prev, distances) ∧
        mapGet 0 distances 3 = Dbl.max := by
  refine ⟨fun e _ => dbl_zero_le _, ⟨by decide, by decide, rfl⟩, far_walk_cost, by decide,
    by decide, ?_⟩
  intro tie fuel hfuel
  obtain ⟨r, hr, hD, _, _⟩ := far_Dijkstra tie fuel hfuel
  exact ⟨r.prev, r.distances, hr, hD⟩

/-- Witness of C2: the graph of the scenario, source 1, vertex 3, with `INF = 1000`;
`printPath` prints 1, 2, 3 there. -/
theorem Dijkstra_prev_walk_witness :
    printPath 3 [(1, 0), (2, 1), (3, 2)] 1 3 = some ([(1, 0), (2, 1), (3, 2)], [1, 2, 3]) ∧
    ∃ prev distances,
      Dijkstra 1000 (graph.run scenarioOps) 1 [] (fun _ => 0) 7 = Run.done (prev, distances) ∧
      ∃ rest, PrevWalk (mapGet 0 prev) 1 3 rest ∧ (3 :: rest).Nodup ∧
        Walk (graph.run scenarioOps) 1 3 rest ∧
        walkCost (graph.run scenarioOps) 3 rest = mapGet 0 distances 3 ∧
        ∀ n, rest.length < n →
          ∃ prev1, printPath n prev 1 3 = some (prev1, (3 :: rest).reverse) := by
  refine ⟨by decide, ?_⟩
  obtain ⟨prev, distances, hr, h⟩ := Dijkstra_prev_walk 1000 scenarioOps 1 (fun _ => 0) 7
    (by decide) (fun a w _ => Nat.le_add_right a w) (fun a b w h => Nat.add_le_add_right h w)
    (fun e _ => Nat.zero_le _) (by decide) (by decide)
  exact ⟨prev, distances, hr,
    h 3 (Or.inl ⟨[2, 1], ⟨by decide, by decide, rfl⟩, by decide⟩)⟩

/-- Counterexample to C2 as stated: with `INF = numeric_limits<double>::max()` and the
edges 1 -> 2 and 2 -> 3 of weight `7 * 2^1021` each, vertex 3 is reachable from 1, but after
every run of `Dijkstra` from 1 the predecessor of 3 is `0`, which is not a vertex and whose
predecessor is `0` again: the walk 3, 0, 0, ... never reaches 1 and `printPath(prev, 1, 3)`
does not return. -/
theorem Dijkstra_prev_walk_counterexample :
    (graph.run farOps).NonNeg ∧ Walk (graph.run farOps) 1 3 [2, 1] ∧
    ∀ (tie : Nat → Nat) (fuel : Nat), (graph.run farOps).fuelBound ≤ fuel →
      ∃ prev distances,
        Dijkstra Dbl.max (graph.run farOps) 1 [] tie fuel = Run.done (prev, distances) ∧
        mapGet 0 prev 3 = 0 ∧ mapGet 0 prev 0 = 0 ∧
        ∀ n, printPath n prev 1 3 = none := by
  refine ⟨fun e _ => dbl_zero_le _, ⟨by decide, by decide, rfl⟩, ?_⟩
  intro tie fuel hfuel
  obtain ⟨r, hr, _, hP3, hP0⟩ := far_Dijkstra tie fuel hfuel
  refine ⟨r.prev, r.distances, hr, hP3, hP0, ?_⟩
  intro n
  cases n with
  | zero => rfl
  | succ n =>
    unfold printPath
    have h3 : mapGet 0 r.prev 3 = 0 := hP3
    rw [if_neg (by decide), h3,
      printPath_stuck 1 (by decide) n (mapTouch 0 r.prev 3)
        (by rw [mapGet_mapTouch]; exact hP0)]

/-- Witness of C3: the graph of the scenario, source 3, vertex 1, with `INF = 1000`. -/
theorem Dijkstra_unreachable_witness :
    (3 : Int) ∈ (graph.run scenarioOps).getVertices ∧
    (1 : Int) ∈ (graph.run scenarioOps).getVertices ∧
    ¬ Reach (graph.run scenarioOps) 3 1 ∧
    Dijkstra 1000 (graph.run scenarioOps) 3 [] (fun _ => 0) 7
      = Run.done ([(1, 0), (2, 0), (3, 0)], [(1, 1000), (2, 1000), (3, 0)]) ∧
    ∃ prev distances,
      Dijkstra 1000 (graph.run scenarioOps) 3 [] (fun _ => 0) 7 = Run.done (prev, distances) ∧
      mapGet 0 distances 1 = 1000 ∧ mapGet 0 prev 1 = 0 :=
  ⟨by decide, by decide, scenario_not_reach, by decide,
    Dijkstra_unreachable 1000 (graph.run scenarioOps) 3 1 (fun _ => 0) 7 (by decide)
      (by decide) scenario_not_reach (by decide)⟩

end DijkstraClaims


/-! ## Locality of edge insertion -/

namespace graph

variable {VertexT WeightT : Type} [LinearOrder VertexT]

theorem mapCount_mapAssign {K V : Type} [DecidableEq K] (m : List (K × V)) (k k' : K)
    (v : V) : mapCount (mapAssign m k v) k' = if k = k' then 1 else mapCount m k' := by
  unfold mapCount
  rw [mapFind_mapAssign]
  by_cases h : k = k' <;> simp [h]

theorem addEdge_getWeight_other (g : graph VertexT WeightT) (a b c d : VertexT)
    (w w0 : WeightT) (h : (c, d) ≠ (a, b)) :
    (g.addEdge a b w).2.getWeight c d w0 = g.getWeight c d w0 := by
  by_cases hft : a ∈ g.getVertices ∧ b ∈ g.getVertices
  · rw [addEdge_of_mem g a b w hft.1 hft.2]
    have hk := map_fst_edgeListAfter g a b hft.1
    have hc : ∀ x, mapCount (g.edgeListAfter a b) x = 0 ↔ mapCount g.EdgeList x = 0 := by
      intro x
      rw [mapCount_eq_zero_iff, mapCount_eq_zero_iff, hk]
    have hne : ¬ (a, b) = (c, d) := fun e => h e.symm
    unfold getWeight
    simp only [hc, mapCount_mapAssign, mapGet_mapAssign, hne, if_false]
  · rw [addEdge_of_not_mem g a b w (by tauto)]

theorem addEdge_neighbors_other (g : graph VertexT WeightT) (a b c d : VertexT)
    (w : WeightT) (h : (c, d) ≠ (a, b)) :
    d ∈ (g.addEdge a b w).2.neighbors c ↔ d ∈ g.neighbors c := by
  by_cases hft : a ∈ g.getVertices ∧ b ∈ g.getVertices
  · rw [addEdge_of_mem g a b w hft.1 hft.2, neighbors_eq, neighbors_eq]
    show d ∈ mapGet [] (g.edgeListAfter a b) c ↔ _
    rw [mem_adj_edgeListAfter]
    constructor
    · rintro (h1 | ⟨h1, h2⟩)
      · exact h1
      · exact absurd (by rw [h1, h2]) h
    · exact Or.inl
  · rw [addEdge_of_not_mem g a b w (by tauto)]

theorem addEdge_getVertices (g : graph VertexT WeightT) (a b : VertexT) (w : WeightT) :
    (g.addEdge a b w).2.getVertices = g.getVertices := by
  by_cases hft : a ∈ g.getVertices ∧ b ∈ g.getVertices
  · rw [addEdge_of_mem g a b w hft.1 hft.2]
    exact map_fst_edgeListAfter g a b hft.1
  · rw [addEdge_of_not_mem g a b w (by tauto)]

/-- C11. In every graph that contains the vertices `a` and `b`, `addEdge(a, b, w)` returns
true, leaves the vertices as they were, and leaves `getWeight(c, d)` and the membership of
`d` in `neighbors(c)` as they were for every ordered pair `(c, d)` other than `(a, b)`; in
particular, for `a != b`, a `getWeight(b, a)` that reported no edge before reports none
afterwards. -/
theorem addEdge_local (g : graph VertexT WeightT) (a b : VertexT) (w : WeightT)
    (ha : a ∈ g.getVertices) (hb : b ∈ g.getVertices) :
    (g.addEdge a b w).1 = true ∧
    (g.addEdge a b w).2.getVertices = g.getVertices ∧
    (∀ c d w0, (c, d) ≠ (a, b) →
      (g.addEdge a b w).2.getWeight c d w0 = g.getWeight c d w0) ∧
    (∀ c d, (c, d) ≠ (a, b) →
      (d ∈ (g.addEdge a b w).2.neighbors c ↔ d ∈ g.neighbors c)) ∧
    (a ≠ b → ∀ w0, (g.getWeight b a w0).1 = false →
      (g.addEdge a b w).2.getWeight b a w0 = (false, w0)) := by
  refine ⟨by rw [addEdge_of_mem g a b w ha hb], addEdge_getVertices g a b w,
    fun c d w0 h => addEdge_getWeight_other g a b c d w w0 h,
    fun c d h => addEdge_neighbors_other g a b c d w h, ?_⟩
  intro hab w0 hno
  have hne : (b, a) ≠ (a, b) := fun e => hab (Prod.mk.inj e).2
  rw [addEdge_getWeight_other g a b b a w w0 hne]
  exact getWeight_of_fst_false g b a w0 hno

/-- Witness of C11: vertices 1 and 2 without edges; after `addEdge(1, 2, 5)` the edge
2 -> 1 is still absent. -/
theorem addEdge_local_witness :
    (1 : Int) ∈ (run [Op.addVertex 1, Op.addVertex 2] : graph Int Nat).getVertices ∧
    (2 : Int) ∈ (run [Op.addVertex 1, Op.addVertex 2] : graph Int Nat).getVertices ∧
    ((run [Op.addVertex 1, Op.addVertex 2] : graph Int Nat).addEdge 1 2 5).2.getWeight 2 1 0
      = (false, 0) :=
  ⟨by decide, by decide,
    (addEdge_local (run [Op.addVertex 1, Op.addVertex 2] : graph Int Nat) 1 2 5
      (by decide) (by decide)).2.2.2.2 (by decide) 0 (by decide)⟩

end graph

/-! ## Edges of the shortest-path tree -/

theorem prevWalk_unique (P : Int → Int) (s : Int) :
    ∀ (r1 r2 : List Int) (v : Int), PrevWalk P s v r1 → PrevWalk P s v r2 → r1 = r2 := by
  intro r1
  induction r1 with
  | nil =>
    intro r2 v h1 h2
    cases r2 with
    | nil => rfl
    | cons u r => exact absurd h1 h2.1
  | cons u r ih =>
    intro r2 v h1 h2
    cases r2 with
    | nil => exact absurd h2 h1.1
    | cons u' r' =>
      obtain ⟨_, hu, hr⟩ := h1
      obtain ⟨_, hu', hr'⟩ := h2
      have : u = u' := by rw [← hu, ← hu']
      subst this
      rw [ih r' u hr hr']

section TreeClaims

variable {W : Type} [LinearOrder W] [Add W] [Zero W]

/-- C20 (distance-map invariant). For every state `run ops` of a graph object with
non-negative weights and every source vertex `s`, `Dijkstra(G, s, distances)` on a fresh
`distances` map finishes; afterwards every `distances[v]` is non-negative, and for every
vertex `v` other than `s` with `distances[v] < INF`, `u = prev[v]` is a vertex, `v` is a
neighbour of `u`, `getWeight(u, v)` reports a weight, `distances[v]` is `distances[u]` plus
that weight, and `distances[u] <= distances[v]`. -/
theorem Dijkstra_tree_edges (INF : W) (ops : List (Op Int W)) (s : Int) (tie : Nat → Nat)
    (fuel : Nat) (hINF : 0 ≤ INF) (hinfl : ∀ a w : W, 0 ≤ w → a ≤ a + w)
    (hnn : (graph.run ops).NonNeg) (hs : s ∈ (graph.run ops).getVertices)
    (hfuel : (graph.run ops).fuelBound ≤ fuel) :
    ∃ prev distances,
      Dijkstra INF (graph.run ops) s [] tie fuel = Run.done (prev, distances) ∧
      (∀ v, 0 ≤ mapGet 0 distances v) ∧
      ∀ v ∈ (graph.run ops).getVertices, v ≠ s → mapGet 0 distances v < INF →
        mapGet 0 prev v ∈ (graph.run ops).getVertices ∧
        v ∈ (graph.run ops).neighbors (mapGet 0 prev v) ∧
        ((graph.run ops).getWeight (mapGet 0 prev v) v 0).1 = true ∧
        mapGet 0 distances v = mapGet 0 distances (mapGet 0 prev v)
          + ((graph.run ops).getWeight (mapGet 0 prev v) v 0).2 ∧
        mapGet 0 distances (mapGet 0 prev v) ≤ mapGet 0 distances v := by
  have hWF := graph.WF_run ops
  obtain ⟨r, hr, hpost⟩ :=
    Dijkstra_postInv INF (graph.run ops) s tie fuel hWF hnn hINF hinfl hs hfuel
  refine ⟨r.prev, r.distances, hr, hpost.tree.nonneg, ?_⟩
  intro v hv hvs hlt
  obtain ⟨rest, h1, h2, h3, _, h5⟩ := hpost.tree.tree v hv hlt
  cases rest with
  | nil => exact absurd h2 hvs
  | cons u rest =>
    obtain ⟨hvu, _⟩ := h1
    obtain ⟨_, hPv, hPu⟩ := h2
    have hP : mapGet 0 r.prev v = u := hPv
    obtain ⟨huV, huF⟩ := hpost.tree.vis_fin u (h3 u (List.mem_cons_self _ _))
    obtain ⟨rest', _, g2, _, _, g5⟩ := hpost.tree.tree u huV huF
    have hrr : rest' = rest := prevWalk_unique r.P s rest' rest u g2 hPu
    rw [hrr] at g5
    have hD : r.D v = r.D u + (graph.run ops).edgeData u v := by
      rw [← h5, ← g5]; rfl
    rw [hP]
    refine ⟨huV, hvu, (graph.mem_neighbors_iff _ hWF u v 0).mp hvu, hD, ?_⟩
    show r.D u ≤ r.D v
    rw [hD]
    exact hinfl _ _ (edgeData_nonneg _ hnn u v)

/-- Witness of C20: the graph of the scenario, source 1, with `INF = 1000`; the tree edge
into vertex 3 comes from vertex 2 and `8 = 5 + 3`. -/
theorem Dijkstra_tree_edges_witness :
    Dijkstra 1000 (graph.run scenarioOps) 1 [] (fun _ => 0) 7
      = Run.done ([(1, 0), (2, 1), (3, 2)], [(1, 0), (2, 5), (3, 8)]) ∧
    ∃ prev distances,
      Dijkstra 1000 (graph.run scenarioOps) 1 [] (fun _ => 0) 7 = Run.done (prev, distances) ∧
      (mapGet 0 distances 3 < 1000 →
        mapGet 0 distances 3 = mapGet 0 distances (mapGet 0 prev 3)
          + ((graph.run scenarioOps).getWeight (mapGet 0 prev 3) 3 0).2) := by
  refine ⟨by decide, ?_⟩
  obtain ⟨prev, distances, hr, _, h⟩ := Dijkstra_tree_edges 1000 scenarioOps 1 (fun _ => 0) 7
    (by decide) (fun a w _ => Nat.le_add_right a w) (fun e _ => Nat.zero_le _) (by decide)
    (by decide)
  exact ⟨prev, distances, hr, fun hlt => (h 3 (by decide) (by decide) hlt).2.2.2.1⟩

end TreeClaims

/-! ## Nearest-element scans -/

section ScanLemmas

variable {W : Type} [LinearOrder W]

theorem scanMin_spec {α : Type} (key : α → W) (ok : α → Prop) [DecidablePred ok] :
    ∀ (l : List α) (m0 : W) (b0 : α),
      ((∀ x ∈ l, ok x → ¬ key x < m0) ∧ scanMin key ok l (m0, b0) = (m0, b0)) ∨
      ∃ pre x post, l = pre ++ x :: post ∧ ok x ∧ key x < m0 ∧
        scanMin key ok l (m0, b0) = (key x, x) ∧
        (∀ y ∈ pre, ok y → key x < key y) ∧ (∀ y ∈ post, ok y → key x ≤ key y) := by
  intro l
  induction l with
  | nil => intro m0 b0; left; exact ⟨by simp, rfl⟩
  | cons a l ih =>
    intro m0 b0
    by_cases h : key a < m0 ∧ ok a
    · have hstep : scanMin key ok (a :: l) (m0, b0) = scanMin key ok l (key a, a) := by
        simp only [scanMin, List.foldl_cons, h, and_self, if_true]
      rw [hstep]
      right
      rcases ih (key a) a with ⟨h1, h2⟩ | ⟨pre, x, post, h1, h2, h3, h4, h5, h6⟩
      · exact ⟨[], a, l, rfl, h.2, h.1, h2, by simp,
          fun y hy hok => not_lt.mp (h1 y hy hok)⟩
      · refine ⟨a :: pre, x, post, by rw [h1]; rfl, h2, lt_trans h3 h.1, h4, ?_, h6⟩
        intro y hy hok
        rcases List.mem_cons.mp hy with hy | hy
        · rw [hy]; exact h3
        · exact h5 y hy hok
    · have hstep : scanMin key ok (a :: l) (m0, b0) = scanMin key ok l (m0, b0) := by
        simp only [scanMin, List.foldl_cons, h, if_false]
      rw [hstep]
      rcases ih m0 b0 with ⟨h1, h2⟩ | ⟨pre, x, post, h1, h2, h3, h4, h5, h6⟩
      · left
        refine ⟨?_, h2⟩
        intro y hy hok hlt
        rcases List.mem_cons.mp hy with hy | hy
        · exact h ⟨hy ▸ hlt, hy ▸ hok⟩
        · exact h1 y hy hok hlt
      · right
        refine ⟨a :: pre, x, post, by rw [h1]; rfl, h2, h3, h4, ?_, h6⟩
        intro y hy hok
        rcases List.mem_cons.mp hy with hy | hy
        · rw [hy]
          by_contra hc
          exact h ⟨lt_of_le_of_lt (not_lt.mp hc) h3, hy ▸ hok⟩
        · exact h5 y hy hok

/-- What a scan from `(INF, dflt)` returns when every element has a key below `INF`. -/
theorem scanMin_result {α : Type} (INF : W) (key : α → W) (ok : α → Prop) [DecidablePred ok]
    (dflt : α) (l : List α) (hkey : ∀ x ∈ l, key x < INF) :
    ((∃ x ∈ l, ok x) →
      ∃ pre post, l = pre ++ (scanMin key ok l (INF, dflt)).2 :: post ∧
        ok (scanMin key ok l (INF, dflt)).2 ∧
        (∀ y ∈ l, ok y → key (scanMin key ok l (INF, dflt)).2 ≤ key y) ∧
        (∀ y ∈ pre, ok y → key (scanMin key ok l (INF, dflt)).2 < key y)) ∧
    ((∀ x ∈ l, ¬ ok x) → (scanMin key ok l (INF, dflt)).2 = dflt) := by
  rcases scanMin_spec key ok l INF dflt with ⟨h1, h2⟩ | ⟨pre, x, post, h1, h2, h3, h4, h5, h6⟩
  · refine ⟨?_, fun _ => by rw [h2]⟩
    rintro ⟨x, hx, hok⟩
    exact absurd (hkey x hx) (h1 x hx hok)
  · refine ⟨fun _ => ?_, fun hno => ?_⟩
    · rw [h4]
      refine ⟨pre, post, h1, h2, ?_, h5⟩
      intro y hy hok
      rw [h1] at hy
      rcases List.mem_append.mp hy with hy | hy
      · exact le_of_lt (h5 y hy hok)
      · rcases List.mem_cons.mp hy with hy | hy
        · rw [hy]
        · exact h6 y hy hok
    · exact absurd h2 (hno x (by rw [h1]; simp))

end ScanLemmas

theorem foldl_foldl_flatten {α β : Type} (f : β → α → β) (L : List (List α)) (b : β) :
    L.foldl (fun acc l => l.foldl f acc) b = L.flatten.foldl f b := by
  induction L generalizing b with
  | nil => rfl
  | cons l L ih => simp only [List.foldl_cons, List.flatten_cons, List.foldl_append, ih]

section SpatialClaims

variable {W : Type} [LinearOrder W] [Zero W]

omit [Zero W] [LinearOrder W] in
theorem setCount_eq_zero_iff {K : Type} [LinearOrder K] (s : List K) (x : K) :
    setCount s x = 0 ↔ x ∉ s := by
  unfold setCount
  split <;> simp [*]

theorem findMidBuilding_eq (INF : W) (geo : Geometry W) (b1 b2 : BuildingInfo W)
    (Buildings : List (BuildingInfo W)) (found : List (List Char)) :
    findMidBuilding INF geo b1 b2 Buildings found =
      (scanMin (midDist geo b1 b2) (fun b => setCount found b.Fullname = 0) Buildings
        (INF, BuildingInfo.blank)).2 := rfl

/-- C15. For all buildings `b1`, `b2`, every building list whose distances to the midpoint
of `b1` and `b2` are below `INF`, and every excluded set `found`: if some building has a
full name outside `found`, `findMidBuilding` returns a building of the list whose full name
is outside `found`, whose distance to the midpoint is least among the buildings with a full
name outside `found`, and which is the first such building in list order; if every full
name is in `found` (or the list is empty) it returns the sentinel building. -/
theorem findMidBuilding_spec (INF : W) (geo : Geometry W) (b1 b2 : BuildingInfo W)
    (Buildings : List (BuildingInfo W)) (found : List (List Char))
    (hdist : ∀ b ∈ Buildings, midDist geo b1 b2 b < INF) :
    ((∃ b ∈ Buildings, b.Fullname ∉ found) →
      ∃ pre post,
        Buildings = pre ++ findMidBuilding INF geo b1 b2 Buildings found :: post ∧
        (findMidBuilding INF geo b1 b2 Buildings found).Fullname ∉ found ∧
        (∀ y ∈ Buildings, y.Fullname ∉ found →
          midDist geo b1 b2 (findMidBuilding INF geo b1 b2 Buildings found)
            ≤ midDist geo b1 b2 y) ∧
        (∀ y ∈ pre, y.Fullname ∉ found →
          midDist geo b1 b2 (findMidBuilding INF geo b1 b2 Buildings found)
            < midDist geo b1 b2 y)) ∧
    ((∀ b ∈ Buildings, b.Fullname ∈ found) →
      findMidBuilding INF geo b1 b2 Buildings found = BuildingInfo.blank) := by
  have h := scanMin_result INF (midDist geo b1 b2) (fun b => setCount found b.Fullname = 0)
    BuildingInfo.blank Buildings hdist
  rw [findMidBuilding_eq]
  obtain ⟨h1, h2⟩ := h
  refine ⟨?_, fun hall => h2 (fun x hx hno => (setCount_eq_zero_iff _ _).mp hno (hall x hx))⟩
  rintro ⟨b, hb, hnb⟩
  obtain ⟨pre, post, e1, e2, e3, e4⟩ := h1 ⟨b, hb, (setCount_eq_zero_iff _ _).mpr hnb⟩
  exact ⟨pre, post, e1, (setCount_eq_zero_iff _ _).mp e2,
    fun y hy hn => e3 y hy ((setCount_eq_zero_iff _ _).mpr hn),
    fun y hy hn => e4 y hy ((setCount_eq_zero_iff _ _).mpr hn)⟩

theorem closeID_eq (INF : W) (geo : Geometry W) (b : BuildingInfo W)
    (foots : List FootwayInfo) (coords : List (Int × Coordinates W)) :
    closeID INF geo b foots coords =
      (scanMin (nodeDist geo b coords) (fun _ => True)
        (foots.map FootwayInfo.Nodes).flatten (INF, 0)).2 := by
  unfold closeID scanMin
  have h := foldl_foldl_flatten (fun (acc : W × Int) f =>
      if nodeDist geo b coords f < acc.1 then (nodeDist geo b coords f, f) else acc)
    (foots.map FootwayInfo.Nodes) (INF, 0)
  rw [List.foldl_map] at h
  simp only [and_true]
  exact congrArg Prod.snd h

/-- C16. For every building, path list and node table such that the distance of every path
node to the building is below `INF`: if some path contains a node, `closeID` returns a node
that occurs in a path, whose distance to the building is least among all nodes of all
paths, and which is the first such node when the paths are scanned in list order and their
nodes in path order; if no path contains a node it returns 0. -/
theorem closeID_spec (INF : W) (geo : Geometry W) (b : BuildingInfo W)
    (foots : List FootwayInfo) (coords : List (Int × Coordinates W))
    (hdist : ∀ foot ∈ foots, ∀ f ∈ foot.Nodes, nodeDist geo b coords f < INF) :
    ((∃ foot ∈ foots, foot.Nodes ≠ []) →
      (∃ foot ∈ foots, closeID INF geo b foots coords ∈ foot.Nodes) ∧
      (∀ foot ∈ foots, ∀ f ∈ foot.Nodes,
        nodeDist geo b coords (closeID INF geo b foots coords) ≤ nodeDist geo b coords f) ∧
      ∃ pre post,
        (foots.map FootwayInfo.Nodes).flatten
          = pre ++ closeID INF geo b foots coords :: post ∧
        ∀ f ∈ pre,
          nodeDist geo b coords (closeID INF geo b foots coords) < nodeDist geo b coords f) ∧
    ((∀ foot ∈ foots, foot.Nodes = []) → closeID INF geo b foots coords = 0) := by
  have hmem : ∀ f, f ∈ (foots.map FootwayInfo.Nodes).flatten ↔
      ∃ foot ∈ foots, f ∈ foot.Nodes := by
    intro f
    simp only [List.mem_flatten, List.mem_map]
    constructor
    · rintro ⟨l, ⟨foot, hfoot, rfl⟩, hf⟩
      exact ⟨foot, hfoot, hf⟩
    · rintro ⟨foot, hfoot, hf⟩
      exact ⟨foot.Nodes, ⟨foot, hfoot, rfl⟩, hf⟩
  have hkey : ∀ f ∈ (foots.map FootwayInfo.Nodes).flatten, nodeDist geo b coords f < INF := by
    intro f hf
    obtain ⟨foot, hfoot, hf'⟩ := (hmem f).mp hf
    exact hdist foot hfoot f hf'
  obtain ⟨h1, h2⟩ := scanMin_result INF (nodeDist geo b coords) (fun _ => True) (0 : Int)
    (foots.map FootwayInfo.Nodes).flatten hkey
  rw [closeID_eq]
  refine ⟨?_, ?_⟩
  · rintro ⟨foot, hfoot, hne⟩
    obtain ⟨f, hf⟩ := List.exists_mem_of_ne_nil _ hne
    obtain ⟨pre, post, e1, _, e3, e4⟩ := h1 ⟨f, (hmem f).mpr ⟨foot, hfoot, hf⟩, trivial⟩
    have hin := List.mem_append_right pre (List.mem_cons_self
      (scanMin (nodeDist geo b coords) (fun _ => True)
        (foots.map FootwayInfo.Nodes).flatten (INF, 0)).2 post)
    rw [← e1] at hin
    refine ⟨(hmem _).mp hin, ?_, pre, post, e1, fun y hy => e4 y hy trivial⟩
    intro foot' hfoot' f' hf'
    exact e3 f' ((hmem f').mpr ⟨foot', hfoot', hf'⟩) trivial
  · intro hall
    have hnil : (foots.map FootwayInfo.Nodes).flatten = [] := by
      rw [List.eq_nil_iff_forall_not_mem]
      intro f hf
      obtain ⟨foot, hfoot, hf'⟩ := (hmem f).mp hf
      rw [hall foot hfoot] at hf'
      simp at hf'
    rw [hnil]
    rfl

omit [LinearOrder W] [Zero W] in
theorem exist_flag (v : List (BuildingInfo W)) (name : List Char) (start : Bool) :
    v.foldl (fun exist x => if x.Fullname = name then true else exist) start = true ↔
      start = true ∨ ∃ x ∈ v, x.Fullname = name := by
  induction v generalizing start with
  | nil => simp
  | cons a v ih =>
    simp only [List.foldl_cons, ih, List.mem_cons, exists_eq_or_imp]
    by_cases h : a.Fullname = name
    · simp [h]
    · simp [h]

theorem closeBuilding_eq (INF : W) (geo : Geometry W) (b : BuildingInfo W)
    (Buildings v : List (BuildingInfo W)) :
    closeBuilding INF geo b Buildings v =
      v ++ [(scanMin (buildingDist geo b) (Eligible b v) Buildings
        (INF, BuildingInfo.blank)).2] := by
  have hstep : (fun (acc : W × BuildingInfo W) (B : BuildingInfo W) =>
      if buildingDist geo b B < acc.1 ∧ B.Fullname ≠ b.Fullname then
        if v.foldl (fun exist x => if x.Fullname = B.Fullname then true else exist) false
        then acc
        else (buildingDist geo b B, B)
      else acc) =
      (fun (acc : W × BuildingInfo W) (B : BuildingInfo W) =>
        if buildingDist geo b B < acc.1 ∧ Eligible b v B then (buildingDist geo b B, B)
        else acc) := by
    funext acc B
    have hex := exist_flag v B.Fullname false
    simp only [Bool.false_eq_true, false_or] at hex
    by_cases h1 : buildingDist geo b B < acc.1
    · by_cases h2 : B.Fullname ≠ b.Fullname
      · by_cases h3 : ∃ x ∈ v, x.Fullname = B.Fullname
        · have hne : ¬ Eligible b v B := by
            rintro ⟨_, h⟩
            obtain ⟨x, hx, hx'⟩ := h3
            exact h x hx hx'
          simp only [h1, h2, hex.mpr h3, hne, and_self, and_false, if_true, if_false,
            not_false_eq_true, ne_eq]
        · have hel : Eligible b v B := ⟨h2, fun x hx hx' => h3 ⟨x, hx, hx'⟩⟩
          have hf : ¬ (v.foldl (fun exist x => if x.Fullname = B.Fullname then true
              else exist) false = true) := fun h => h3 (hex.mp h)
          simp only [h1, h2, hf, hel, and_self, if_true, if_false, not_false_eq_true, ne_eq,
            Bool.false_eq_true]
      · have hne : ¬ Eligible b v B := fun h => h2 h.1
        simp only [h1, h2, hne, and_false, if_false]
    · simp only [h1, false_and, if_false]
  unfold closeBuilding scanMin
  exact congrArg (fun f => v ++ [(Buildings.foldl f (INF, BuildingInfo.blank)).2]) hstep

theorem closeBuildings_succ (INF : W) (geo : Geometry W) (b : BuildingInfo W)
    (Buildings : List (BuildingInfo W)) (k : Nat) (v : List (BuildingInfo W)) :
    closeBuildings INF geo b Buildings (k + 1) v =
      closeBuilding INF geo b Buildings (closeBuildings INF geo b Buildings k v) := by
  induction k generalizing v with
  | zero => rfl
  | succ k ih =>
    show closeBuildings INF geo b Buildings (k + 1) (closeBuilding INF geo b Buildings v) = _
    rw [ih]
    rfl

theorem closeBuilding_select (INF : W) (geo : Geometry W) (b : BuildingInfo W)
    (Buildings v : List (BuildingInfo W))
    (hdist : ∀ B ∈ Buildings, buildingDist geo b B < INF)
    (hex : ∃ B ∈ Buildings, Eligible b v B) :
    ∃ c pre post, closeBuilding INF geo b Buildings v = v ++ [c] ∧
      Buildings = pre ++ c :: post ∧ Eligible b v c ∧
      (∀ B ∈ Buildings, Eligible b v B → buildingDist geo b c ≤ buildingDist geo b B) ∧
      (∀ B ∈ pre, Eligible b v B → buildingDist geo b c < buildingDist geo b B) := by
  obtain ⟨pre, post, e1, e2, e3, e4⟩ := (scanMin_result INF (buildingDist geo b)
    (Eligible b v) BuildingInfo.blank Buildings hdist).1 hex
  exact ⟨_, pre, post, closeBuilding_eq INF geo b Buildings v, e1, e2, e3, e4⟩

omit [LinearOrder W] [Zero W] in
theorem exists_eligible (b : BuildingInfo W) (Buildings L : List (BuildingInfo W))
    (h : L.length < (eligibleNames b Buildings).length) :
    ∃ B ∈ Buildings, Eligible b L B := by
  have hex : ∃ n ∈ eligibleNames b Buildings, n ∉ L.map (fun x => x.Fullname) := by
    by_contra hno
    have hsub : eligibleNames b Buildings ⊆ L.map (fun x => x.Fullname) := by
      intro n hn
      by_contra hn'
      exact hno ⟨n, hn, hn'⟩
    have := (List.subperm_of_subset (List.nodup_dedup _) hsub).length_le
    rw [List.length_map] at this
    unfold eligibleNames at h
    omega
  obtain ⟨n, hn, hnL⟩ := hex
  unfold eligibleNames at hn
  rw [List.mem_dedup, List.mem_filter, List.mem_map] at hn
  obtain ⟨⟨B, hB, rfl⟩, hne⟩ := hn
  refine ⟨B, hB, by simpa using hne, ?_⟩
  intro x hx hxB
  exact hnL (List.mem_map.mpr ⟨x, hx, hxB⟩)

theorem closeBuildings_inv (INF : W) (geo : Geometry W) (b : BuildingInfo W)
    (Buildings : List (BuildingInfo W))
    (hdist : ∀ B ∈ Buildings, buildingDist geo b B < INF) :
    ∀ k, k ≤ (eligibleNames b Buildings).length →
      (closeBuildings INF geo b Buildings k []).length = k ∧
      (∀ x ∈ closeBuildings INF geo b Buildings k [],
        x ∈ Buildings ∧ x.Fullname ≠ b.Fullname) ∧
      ((closeBuildings INF geo b Buildings k []).map (fun x => x.Fullname)).Nodup ∧
      (closeBuildings INF geo b Buildings k []).Pairwise
        (fun x y => buildingDist geo b x ≤ buildingDist geo b y) ∧
      (∀ B ∈ Buildings, Eligible b (closeBuildings INF geo b Buildings k []) B →
        ∀ x ∈ closeBuildings INF geo b Buildings k [],
          buildingDist geo b x ≤ buildingDist geo b B) := by
  intro k
  induction k with
  | zero => intro _; simp [closeBuildings]
  | succ k ih =>
    intro hk
    obtain ⟨i1, i2, i3, i4, i5⟩ := ih (by omega)
    obtain ⟨c, pre, post, e1, e2, e3, e4, _⟩ := closeBuilding_select INF geo b Buildings
      (closeBuildings INF geo b Buildings k []) hdist
      (exists_eligible b Buildings _ (by rw [i1]; omega))
    have hc : c ∈ Buildings := by rw [e2]; simp
    rw [closeBuildings_succ, e1]
    refine ⟨by simp [i1], ?_, ?_, ?_, ?_⟩
    · intro x hx
      rcases List.mem_append.mp hx with hx | hx
      · exact i2 x hx
      · simp only [List.mem_singleton] at hx
        rw [hx]
        exact ⟨hc, e3.1⟩
    · rw [List.map_append, List.nodup_append]
      refine ⟨i3, by simp, ?_⟩
      intro n hn hn'
      simp only [List.map_cons, List.map_nil, List.mem_singleton] at hn'
      obtain ⟨x, hx, hxn⟩ := List.mem_map.mp hn
      exact e3.2 x hx (by rw [hxn, hn'])
    · rw [List.pairwise_append]
      refine ⟨i4, by simp, ?_⟩
      intro x hx y hy
      simp only [List.mem_singleton] at hy
      rw [hy]
      exact i5 c hc e3 x hx
    · intro B hB hel x hx
      have hel' : Eligible b (closeBuildings INF geo b Buildings k []) B :=
        ⟨hel.1, fun y hy => hel.2 y (List.mem_append_left _ hy)⟩
      rcases List.mem_append.mp hx with hx | hx
      · exact i5 B hB hel' x hx
      · simp only [List.mem_singleton] at hx
        rw [hx]
        exact e4 B hB hel'

theorem length_closeBuildings (INF : W) (geo : Geometry W) (b : BuildingInfo W)
    (Buildings : List (BuildingInfo W)) (k : Nat) (v : List (BuildingInfo W)) :
    (closeBuildings INF geo b Buildings k v).length = v.length + k := by
  induction k generalizing v with
  | zero => rfl
  | succ k ih =>
    show (closeBuildings INF geo b Buildings k (closeBuilding INF geo b Buildings v)).length = _
    rw [ih]
    simp only [closeBuilding, List.length_append, List.length_singleton]
    omega

/-- C18 (amended). For every origin building `b`, every building list whose distances to
`b` are below `INF` and every `k`: a call of `closeBuilding` made while some building has a
full name other than that of `b` and those in the accumulated list appends a building of the
list with such a name whose distance to `b` is least among the buildings with such a name,
the first one in list order; and when the list has at least `k` different full names other
than that of `b`, `k` calls from the empty list yield `k` buildings of the list with
pairwise different full names, none that of `b`, in non-decreasing order of distance to `b`,
and no building with a full name other than that of `b` and those selected is strictly
nearer than a selected one. -/
theorem closeBuilding_spec (INF : W) (geo : Geometry W) (b : BuildingInfo W)
    (Buildings : List (BuildingInfo W)) (k : Nat)
    (hdist : ∀ B ∈ Buildings, buildingDist geo b B < INF) :
    (∀ v, (∃ B ∈ Buildings, Eligible b v B) →
      ∃ c pre post, closeBuilding INF geo b Buildings v = v ++ [c] ∧
        Buildings = pre ++ c :: post ∧ Eligible b v c ∧
        (∀ B ∈ Buildings, Eligible b v B → buildingDist geo b c ≤ buildingDist geo b B) ∧
        (∀ B ∈ pre, Eligible b v B → buildingDist geo b c < buildingDist geo b B)) ∧
    (k ≤ (eligibleNames b Buildings).length →
      (closeBuildings INF geo b Buildings k []).length = k ∧
      (∀ x ∈ closeBuildings INF geo b Buildings k [],
        x ∈ Buildings ∧ x.Fullname ≠ b.Fullname) ∧
      ((closeBuildings INF geo b Buildings k []).map (fun x => x.Fullname)).Nodup ∧
      (closeBuildings INF geo b Buildings k []).Pairwise
        (fun x y => buildingDist geo b x ≤ buildingDist geo b y) ∧
      (∀ B ∈ Buildings, Eligible b (closeBuildings INF geo b Buildings k []) B →
        ∀ x ∈ closeBuildings INF geo b Buildings k [],
          buildingDist geo b x ≤ buildingDist geo b B)) :=
  ⟨fun v hex => closeBuilding_select INF geo b Buildings v hdist hex,
    closeBuildings_inv INF geo b Buildings hdist k⟩

/-- C19 (amended). For every origin building `b`, building list and `k`, the list
accumulated by `k` successive `closeBuilding` calls from the empty list has `k` entries,
whether or not the building list is exhausted before; a call made when no building has a
full name other than that of `b` and those in the accumulated list appends the sentinel
building. -/
theorem closeBuildings_length (INF : W) (geo : Geometry W) (b : BuildingInfo W)
    (Buildings : List (BuildingInfo W)) (k : Nat) :
    (closeBuildings INF geo b Buildings k []).length = k ∧
    ∀ v, (∀ B ∈ Buildings, ¬ Eligible b v B) →
      closeBuilding INF geo b Buildings v = v ++ [BuildingInfo.blank] := by
  refine ⟨by rw [length_closeBuildings]; simp, ?_⟩
  intro v hno
  rw [closeBuilding_eq]
  rcases scanMin_spec (buildingDist geo b) (Eligible b v) Buildings INF BuildingInfo.blank
    with ⟨_, h2⟩ | ⟨pre, x, post, h1, h2, _⟩
  · rw [h2]
  · exact absurd h2 (hno x (by rw [h1]; simp))

omit [LinearOrder W] [Zero W] in
theorem stringFind_isSome_iff (str s : List Char) :
    (stringFind str s).isSome = true ↔ str <:+: s := by
  induction s with
  | nil =>
    unfold stringFind
    rw [List.infix_nil]
    split <;> simp [*]
  | cons c cs ih =>
    unfold stringFind
    rw [List.infix_cons_iff, ← ih, ←  List.isPrefixOf_iff_prefix]
    by_cases h : str.isPrefixOf (c :: cs) = true
    · simp [h]
    · simp [h]

omit [LinearOrder W] [Zero W] in
theorem find_first {α : Type} (p : α → Bool) (l pre post : List α) (b : α)
    (h : l = pre ++ b :: post) (hb : p b = true) (hpre : ∀ y ∈ pre, p y = false) :
    l.find? p = some b :=
  List.find?_eq_some.mpr ⟨hb, pre, post, h, fun a ha => by rw [hpre a ha]; rfl⟩

omit [LinearOrder W] in
/-- C14 (amended). For every query string and building list: when the first building in list
order whose abbreviation equals the query does not have both an empty full name and an
empty abbreviation, `searchBuilding` returns it (whatever the full names of the buildings
before it); when no abbreviation equals the query it returns the first building in list
order whose full name contains the query, if there is one, and otherwise the sentinel
building with empty full name and empty abbreviation; when the first building whose
abbreviation equals the query has an empty full name and an empty abbreviation, it returns
the first building of the list. -/
theorem searchBuilding_spec (str : List Char) (Buildings : List (BuildingInfo W)) :
    (∀ pre b post, Buildings = pre ++ b :: post → b.Abbrev = str →
      (∀ y ∈ pre, y.Abbrev ≠ str) → ¬ (b.Abbrev = [] ∧ b.Fullname = []) →
      searchBuilding str Buildings = b) ∧
    ((∀ y ∈ Buildings, y.Abbrev ≠ str) →
      ∀ pre b post, Buildings = pre ++ b :: post → str <:+: b.Fullname →
        (∀ y ∈ pre, ¬ str <:+: y.Fullname) → searchBuilding str Buildings = b) ∧
    ((∀ y ∈ Buildings, y.Abbrev ≠ str ∧ ¬ str <:+: y.Fullname) →
      searchBuilding str Buildings = BuildingInfo.blank ∧
      (searchBuilding str Buildings).Fullname = [] ∧
      (searchBuilding str Buildings).Abbrev = []) ∧
    (∀ pre b post, Buildings = pre ++ b :: post → b.Abbrev = str →
      (∀ y ∈ pre, y.Abbrev ≠ str) → b.Abbrev = [] ∧ b.Fullname = [] →
      Buildings.head? = some (searchBuilding str Buildings)) := by
  have hnoabbr : (∀ y ∈ Buildings, y.Abbrev ≠ str) →
      Buildings.find? (fun b => decide (str = b.Abbrev)) = none := by
    intro h
    rw [List.find?_eq_none]
    intro x hx hp
    exact h x hx (of_decide_eq_true hp).symm
  refine ⟨?_, ?_, ?_, ?_⟩
  · intro pre b post h hb hpre hne
    have hf := find_first (fun b => decide (str = b.Abbrev)) Buildings pre post b h
      (decide_eq_true hb.symm) (fun y hy => decide_eq_false (fun e => hpre y hy e.symm))
    unfold searchBuilding
    simp only [hf, Option.getD_some, hne, if_false]
  · intro hall pre b post h hb hpre
    have hf := find_first (fun b => (stringFind str b.Fullname).isSome) Buildings pre post b h
      ((stringFind_isSome_iff str b.Fullname).mpr hb)
      (fun y hy => by
        cases hc : (stringFind str y.Fullname).isSome with
        | false => exact hc
        | true => exact absurd ((stringFind_isSome_iff str y.Fullname).mp hc) (hpre y hy))
    unfold searchBuilding
    simp only [hnoabbr hall, Option.getD_none, hf, Option.getD_some]
    simp [BuildingInfo.blank]
  · intro hall
    have hf : Buildings.find? (fun b => (stringFind str b.Fullname).isSome) = none := by
      rw [List.find?_eq_none]
      intro x hx hp
      exact (hall x hx).2 ((stringFind_isSome_iff str x.Fullname).mp hp)
    have hres : searchBuilding str Buildings = BuildingInfo.blank := by
      unfold searchBuilding
      simp only [hnoabbr (fun y hy => (hall y hy).1), Option.getD_none, hf]
      simp [BuildingInfo.blank]
    rw [hres]
    exact ⟨rfl, rfl, rfl⟩
  · intro pre b post h hb hpre hempty
    have hf := find_first (fun b => decide (str = b.Abbrev)) Buildings pre post b h
      (decide_eq_true hb.symm) (fun y hy => decide_eq_false (fun e => hpre y hy e.symm))
    have hstr : str = [] := by rw [← hb]; exact hempty.1
    cases hB : Buildings with
    | nil => rw [hB] at h; simp at h
    | cons x xs =>
      have hx : (stringFind str x.Fullname).isSome = true := by
        rw [stringFind_isSome_iff, hstr]
        exact List.nil_infix
      have hf2 : (x :: xs).find? (fun b => (stringFind str b.Fullname).isSome) = some x := by
        simp only [List.find?_cons, hx]
      rw [hB] at hf
      unfold searchBuilding
      simp only [hf, Option.getD_some, hempty, and_self, if_true, hf2, List.head?_cons]

/-- Counterexample to C14 as stated: with the empty query and the buildings "X"
(abbreviation "x") and then a building with empty full name and empty abbreviation, the
first building whose abbreviation equals the query is the second one, but `searchBuilding`
returns the first. -/
theorem searchBuilding_counterexample :
    (⟨['X'], ['x'], ⟨0, 0⟩⟩ : BuildingInfo Nat).Abbrev ≠ [] ∧
    (⟨[], [], ⟨1, 1⟩⟩ : BuildingInfo Nat).Abbrev = [] ∧
    searchBuilding [] [(⟨['X'], ['x'], ⟨0, 0⟩⟩ : BuildingInfo Nat), ⟨[], [], ⟨1, 1⟩⟩]
      = ⟨['X'], ['x'], ⟨0, 0⟩⟩ ∧
    (⟨['X'], ['x'], ⟨0, 0⟩⟩ : BuildingInfo Nat) ≠ ⟨[], [], ⟨1, 1⟩⟩ := by
  decide

end SpatialClaims

section WayClaims

variable {W : Type} [Zero W]

theorem wayToEdgeNodes_cons (geo : Geometry W) (cods : List (Int × Coordinates W))
    (g : graph Int W) (a b : Int) (rest : List Int) :
    wayToEdgeNodes geo cods g (a :: b :: rest) =
      wayToEdgeNodes geo cods
        ((g.addEdge a b (nodeGap geo cods a b)).2.addEdge b a (nodeGap geo cods a b)).2
        (b :: rest) := by
  rw [wayToEdgeNodes]
  rfl

theorem wayToEdgeNodes_getVertices (geo : Geometry W) (cods : List (Int × Coordinates W)) :
    ∀ (l : List Int) (g : graph Int W),
      (wayToEdgeNodes geo cods g l).getVertices = g.getVertices := by
  intro l
  induction l with
  | nil => intro g; rfl
  | cons a l ih =>
    intro g
    cases l with
    | nil => rfl
    | cons b rest =>
      rw [wayToEdgeNodes_cons, ih, graph.addEdge_getVertices, graph.addEdge_getVertices]

theorem wayToEdgeNodes_WF (geo : Geometry W) (cods : List (Int × Coordinates W)) :
    ∀ (l : List Int) (g : graph Int W), g.WF → (wayToEdgeNodes geo cods g l).WF := by
  intro l
  induction l with
  | nil => intro g h; exact h
  | cons a l ih =>
    intro g h
    cases l with
    | nil => exact h
    | cons b rest =>
      rw [wayToEdgeNodes_cons]
      exact ih _ (graph.WF_addEdge _ _ _ _ (graph.WF_addEdge _ _ _ _ h))

omit [Zero W] in
theorem addEdge_pair_getWeight (g : graph Int W) (a b x y : Int) (d c w0 : W)
    (ha : a ∈ g.getVertices) (hb : b ∈ g.getVertices)
    (hd : (a, b) = (x, y) ∨ (b, a) = (x, y) → d = c)
    (h : (a, b) = (x, y) ∨ (b, a) = (x, y) ∨ g.getWeight x y w0 = (true, c)) :
    ((g.addEdge a b d).2.addEdge b a d).2.getWeight x y w0 = (true, c) := by
  have hV1 : (g.addEdge a b d).2.getVertices = g.getVertices := graph.addEdge_getVertices _ _ _ _
  have hs1 : (g.addEdge a b d).1 = true := by rw [graph.addEdge_of_mem g a b d ha hb]
  have hs2 : ((g.addEdge a b d).2.addEdge b a d).1 = true := by
    rw [graph.addEdge_of_mem _ b a d (hV1 ▸ hb) (hV1 ▸ ha)]
  by_cases h2 : (b, a) = (x, y)
  · have hx : x = b := (Prod.mk.inj h2).1.symm
    have hy : y = a := (Prod.mk.inj h2).2.symm
    rw [hx, hy, graph.getWeight_addEdge_self _ b a d w0 hs2, hd (Or.inr h2)]
  · rw [graph.addEdge_getWeight_other _ b a x y d w0 (fun e => h2 e.symm)]
    by_cases h1 : (a, b) = (x, y)
    · have hx : x = a := (Prod.mk.inj h1).1.symm
      have hy : y = b := (Prod.mk.inj h1).2.symm
      rw [hx, hy, graph.getWeight_addEdge_self _ a b d w0 hs1, hd (Or.inl h1)]
    · rw [graph.addEdge_getWeight_other _ a b x y d w0 (fun e => h1 e.symm)]
      rcases h with h | h | h
      · exact absurd h h1
      · exact absurd h h2
      · exact h

theorem wayToEdgeNodes_keep (geo : Geometry W) (cods : List (Int × Coordinates W))
    (x y : Int) (c w0 : W) :
    ∀ (l : List Int) (g : graph Int W), (∀ n ∈ l, n ∈ g.getVertices) →
      (∀ pre a b post, l = pre ++ a :: b :: post →
        ((a, b) = (x, y) ∨ (b, a) = (x, y)) → nodeGap geo cods a b = c) →
      g.getWeight x y w0 = (true, c) →
      (wayToEdgeNodes geo cods g l).getWeight x y w0 = (true, c) := by
  intro l
  induction l with
  | nil => intro g _ _ h; exact h
  | cons a l ih =>
    intro g hV hgap h
    cases l with
    | nil => exact h
    | cons b rest =>
      rw [wayToEdgeNodes_cons]
      have ha : a ∈ g.getVertices := hV a (by simp)
      have hb : b ∈ g.getVertices := hV b (by simp)
      apply ih
      · intro n hn
        rw [graph.addEdge_getVertices, graph.addEdge_getVertices]
        exact hV n (List.mem_cons_of_mem _ hn)
      · intro pre a' b' post hl hab
        exact hgap (a :: pre) a' b' post (by rw [hl]; rfl) hab
      · exact addEdge_pair_getWeight g a b x y _ c w0 ha hb
          (hgap [] a b rest rfl) (Or.inr (Or.inr h))

theorem wayToEdgeNodes_pairs (geo : Geometry W) (cods : List (Int × Coordinates W))
    (w0 : W) :
    ∀ (l : List Int) (g : graph Int W), (∀ n ∈ l, n ∈ g.getVertices) →
      (∀ a ∈ l, ∀ b ∈ l, nodeGap geo cods a b = nodeGap geo cods b a) →
      ∀ pre a b post, l = pre ++ a :: b :: post →
        (wayToEdgeNodes geo cods g l).getWeight a b w0 = (true, nodeGap geo cods a b) ∧
        (wayToEdgeNodes geo cods g l).getWeight b a w0 = (true, nodeGap geo cods a b) := by
  intro l
  induction l with
  | nil => intro g _ _ pre a b post h; simp at h
  | cons a0 l ih =>
    intro g hV hsym pre a b post h
    cases l with
    | nil =>
      have := congrArg List.length h
      simp at this
      omega
    | cons b0 rest =>
      have ha0 : a0 ∈ g.getVertices := hV a0 (by simp)
      have hb0 : b0 ∈ g.getVertices := hV b0 (by simp)
      have hV' : ∀ n ∈ b0 :: rest,
          n ∈ ((g.addEdge a0 b0 (nodeGap geo cods a0 b0)).2.addEdge b0 a0
            (nodeGap geo cods a0 b0)).2.getVertices := by
        intro n hn
        rw [graph.addEdge_getVertices, graph.addEdge_getVertices]
        exact hV n (List.mem_cons_of_mem _ hn)
      have hsym' : ∀ u ∈ b0 :: rest, ∀ v ∈ b0 :: rest,
          nodeGap geo cods u v = nodeGap geo cods v u :=
        fun u hu v hv => hsym u (List.mem_cons_of_mem _ hu) v (List.mem_cons_of_mem _ hv)
      rw [wayToEdgeNodes_cons]
      cases pre with
      | nil =>
        simp only [List.nil_append, List.cons.injEq] at h
        obtain ⟨h1, h2, h3⟩ := h
        subst h1; subst h2; subst h3
        have hab : nodeGap geo cods b0 a0 = nodeGap geo cods a0 b0 :=
          hsym b0 (by simp) a0 (by simp)
        refine ⟨?_, ?_⟩
        · apply wayToEdgeNodes_keep geo cods a0 b0 _ w0 _ _ hV'
          · intro pre a' b' post _ hab'
            rcases hab' with e | e
            · rw [(Prod.mk.inj e).1, (Prod.mk.inj e).2]
            · rw [(Prod.mk.inj e).1, (Prod.mk.inj e).2]
              exact hab
          · exact addEdge_pair_getWeight g a0 b0 a0 b0 _ _ w0 ha0 hb0 (fun _ => rfl)
              (Or.inl rfl)
        · apply wayToEdgeNodes_keep geo cods b0 a0 _ w0 _ _ hV'
          · intro pre a' b' post _ hab'
            rcases hab' with e | e
            · rw [(Prod.mk.inj e).1, (Prod.mk.inj e).2]
              exact hab
            · rw [(Prod.mk.inj e).1, (Prod.mk.inj e).2]
          · exact addEdge_pair_getWeight g a0 b0 b0 a0 _ _ w0 ha0 hb0 (fun _ => rfl)
              (Or.inr (Or.inl rfl))
      | cons p pre' =>
        simp only [List.cons_append, List.cons.injEq] at h
        exact ih _ hV' hsym' pre' a b post h.2

theorem wayToEdgeNodes_either (geo : Geometry W) (cods : List (Int × Coordinates W))
    (x y : Int) (w0 : W) :
    ∀ (l : List Int) (g : graph Int W), (∀ n ∈ l, n ∈ g.getVertices) →
      (∃ c, (c = nodeGap geo cods x y ∨ c = nodeGap geo cods y x) ∧
        g.getWeight x y w0 = (true, c) ∧ g.getWeight y x w0 = (true, c)) →
      ∃ c, (c = nodeGap geo cods x y ∨ c = nodeGap geo cods y x) ∧
        (wayToEdgeNodes geo cods g l).getWeight x y w0 = (true, c) ∧
        (wayToEdgeNodes geo cods g l).getWeight y x w0 = (true, c) := by
  intro l
  induction l with
  | nil => intro g _ h; exact h
  | cons a l ih =>
    intro g hV h
    cases l with
    | nil => exact h
    | cons b rest =>
      rw [wayToEdgeNodes_cons]
      have ha : a ∈ g.getVertices := hV a (by simp)
      have hb : b ∈ g.getVertices := hV b (by simp)
      apply ih
      · intro n hn
        rw [graph.addEdge_getVertices, graph.addEdge_getVertices]
        exact hV n (List.mem_cons_of_mem _ hn)
      · obtain ⟨c, hc, h1, h2⟩ := h
        by_cases hm : (a, b) = (x, y) ∨ (b, a) = (x, y)
        · have hm2 : (a, b) = (y, x) ∨ (b, a) = (y, x) := by
            rcases hm with e | e
            · exact Or.inr (by rw [(Prod.mk.inj e).1, (Prod.mk.inj e).2])
            · exact Or.inl (by rw [(Prod.mk.inj e).1, (Prod.mk.inj e).2])
          refine ⟨nodeGap geo cods a b, ?_, ?_, ?_⟩
          · rcases hm with e | e
            · exact Or.inl (by rw [(Prod.mk.inj e).1, (Prod.mk.inj e).2])
            · exact Or.inr (by rw [(Prod.mk.inj e).1, (Prod.mk.inj e).2])
          · exact addEdge_pair_getWeight g a b x y _ _ w0 ha hb (fun _ => rfl)
              (hm.elim Or.inl (fun e => Or.inr (Or.inl e)))
          · exact addEdge_pair_getWeight g a b y x _ _ w0 ha hb (fun _ => rfl)
              (hm2.elim Or.inl (fun e => Or.inr (Or.inl e)))
        · have hm2 : ¬ ((a, b) = (y, x) ∨ (b, a) = (y, x)) := by
            rintro (e | e)
            · exact hm (Or.inr (by rw [(Prod.mk.inj e).1, (Prod.mk.inj e).2]))
            · exact hm (Or.inl (by rw [(Prod.mk.inj e).1, (Prod.mk.inj e).2]))
          exact ⟨c, hc,
            addEdge_pair_getWeight g a b x y _ c w0 ha hb (fun e => absurd e hm)
              (Or.inr (Or.inr h1)),
            addEdge_pair_getWeight g a b y x _ c w0 ha hb (fun e => absurd e hm2)
              (Or.inr (Or.inr h2))⟩

theorem wayToEdgeNodes_pairs_any (geo : Geometry W) (cods : List (Int × Coordinates W))
    (w0 : W) :
    ∀ (l : List Int) (g : graph Int W), (∀ n ∈ l, n ∈ g.getVertices) →
      ∀ pre a b post, l = pre ++ a :: b :: post →
        (∃ c, (c = nodeGap geo cods a b ∨ c = nodeGap geo cods b a) ∧
          (wayToEdgeNodes geo cods g l).getWeight a b w0 = (true, c) ∧
          (wayToEdgeNodes geo cods g l).getWeight b a w0 = (true, c)) ∧
        (([b, a] <:+: b :: post → nodeGap geo cods b a = nodeGap geo cods a b) →
          (wayToEdgeNodes geo cods g l).getWeight a b w0 = (true, nodeGap geo cods a b) ∧
          (wayToEdgeNodes geo cods g l).getWeight b a w0 = (true, nodeGap geo cods a b)) := by
  intro l
  induction l with
  | nil => intro g _ pre a b post h; simp at h
  | cons a0 l ih =>
    intro g hV pre a b post h
    cases l with
    | nil =>
      have := congrArg List.length h
      simp at this
      omega
    | cons b0 rest =>
      have ha0 : a0 ∈ g.getVertices := hV a0 (by simp)
      have hb0 : b0 ∈ g.getVertices := hV b0 (by simp)
      have hV2 : ∀ n ∈ b0 :: rest,
          n ∈ ((g.addEdge a0 b0 (nodeGap geo cods a0 b0)).2.addEdge b0 a0
            (nodeGap geo cods a0 b0)).2.getVertices := by
        intro n hn
        rw [graph.addEdge_getVertices, graph.addEdge_getVertices]
        exact hV n (List.mem_cons_of_mem _ hn)
      rw [wayToEdgeNodes_cons]
      cases pre with
      | nil =>
        simp only [List.nil_append, List.cons.injEq] at h
        obtain ⟨h1, h2, h3⟩ := h
        subst h1; subst h2; subst h3
        have hab := addEdge_pair_getWeight g a0 b0 a0 b0 (nodeGap geo cods a0 b0)
          (nodeGap geo cods a0 b0) w0 ha0 hb0 (fun _ => rfl) (Or.inl rfl)
        have hba := addEdge_pair_getWeight g a0 b0 b0 a0 (nodeGap geo cods a0 b0)
          (nodeGap geo cods a0 b0) w0 ha0 hb0 (fun _ => rfl) (Or.inr (Or.inl rfl))
        refine ⟨wayToEdgeNodes_either geo cods a0 b0 w0 _ _ hV2
          ⟨_, Or.inl rfl, hab, hba⟩, ?_⟩
        intro hback
        have hinf : ∀ pre2 post2, b0 :: rest = pre2 ++ b0 :: a0 :: post2 →
            nodeGap geo cods b0 a0 = nodeGap geo cods a0 b0 := by
          intro pre2 post2 hl
          apply hback
          exact ⟨pre2, post2, by rw [hl]; simp⟩
        refine ⟨?_, ?_⟩
        · apply wayToEdgeNodes_keep geo cods a0 b0 _ w0 _ _ hV2 _ hab
          intro pre2 a2 b2 post2 hl hab2
          rcases hab2 with e | e
          · rw [(Prod.mk.inj e).1, (Prod.mk.inj e).2]
          · have e1 := (Prod.mk.inj e).1
            have e2 := (Prod.mk.inj e).2
            subst e1; subst e2
            exact hinf pre2 post2 hl
        · apply wayToEdgeNodes_keep geo cods b0 a0 _ w0 _ _ hV2 _ hba
          intro pre2 a2 b2 post2 hl hab2
          rcases hab2 with e | e
          · have e1 := (Prod.mk.inj e).1
            have e2 := (Prod.mk.inj e).2
            subst e1; subst e2
            exact hinf pre2 post2 hl
          · rw [(Prod.mk.inj e).1, (Prod.mk.inj e).2]
      | cons p pre2 =>
        simp only [List.cons_append, List.cons.injEq] at h
        exact ih _ hV2 pre2 a b post h.2

/-- C17 (symmetry construction law). For every state `run ops` of a graph object that
contains every node of a path as a vertex: after `wayToEdge` on that path, for every
consecutive pair `(a, b)` of the path `getWeight(a, b)` and `getWeight(b, a)` report one
and the same weight, which is the distance computed between the coordinates of `a` and `b`
(by `distBetween2Points` for `a`, `b` or for `b`, `a`), `b` is a neighbour of `a` and `a` of
`b`, and the vertices are as before; the weight is the distance computed for `a`, `b`
unless the path walks the segment back from `b` to `a` later on and the distance computed
for `b`, `a` is another value. A path with zero or one node leaves the graph as it was. -/
theorem wayToEdge_spec (geo : Geometry W) (ops : List (Op Int W)) (footway : FootwayInfo)
    (cods : List (Int × Coordinates W)) (w0 : W)
    (hV : ∀ n ∈ footway.Nodes, n ∈ (graph.run ops).getVertices) :
    (∀ pre a b post, footway.Nodes = pre ++ a :: b :: post →
      (∃ c, (c = nodeGap geo cods a b ∨ c = nodeGap geo cods b a) ∧
        (wayToEdge geo (graph.run ops) footway cods).getWeight a b w0 = (true, c) ∧
        (wayToEdge geo (graph.run ops) footway cods).getWeight b a w0 = (true, c)) ∧
      (([b, a] <:+: b :: post → nodeGap geo cods b a = nodeGap geo cods a b) →
        (wayToEdge geo (graph.run ops) footway cods).getWeight a b w0
          = (true, nodeGap geo cods a b) ∧
        (wayToEdge geo (graph.run ops) footway cods).getWeight b a w0
          = (true, nodeGap geo cods a b)) ∧
      b ∈ (wayToEdge geo (graph.run ops) footway cods).neighbors a ∧
      a ∈ (wayToEdge geo (graph.run ops) footway cods).neighbors b) ∧
    (wayToEdge geo (graph.run ops) footway cods).getVertices = (graph.run ops).getVertices ∧
    (footway.Nodes.length ≤ 1 → wayToEdge geo (graph.run ops) footway cods = graph.run ops) := by
  have hWF := wayToEdgeNodes_WF geo cods footway.Nodes _ (graph.WF_run ops)
  refine ⟨?_, wayToEdgeNodes_getVertices geo cods footway.Nodes _, ?_⟩
  · intro pre a b post h
    obtain ⟨⟨c, hc, h1, h2⟩, h3⟩ :=
      wayToEdgeNodes_pairs_any geo cods w0 footway.Nodes _ hV pre a b post h
    refine ⟨⟨c, hc, h1, h2⟩, h3, ?_, ?_⟩
    · exact (graph.mem_neighbors_iff _ hWF a b w0).mpr (by rw [h1])
    · exact (graph.mem_neighbors_iff _ hWF b a w0).mpr (by rw [h2])
  · intro hlen
    unfold wayToEdge
    cases hN : footway.Nodes with
    | nil => rfl
    | cons a l =>
      cases l with
      | nil => rfl
      | cons b rest =>
        rw [hN] at hlen
        simp at hlen

end WayClaims

/-! ## The retry loop of the meeting-point search -/

section RetryLemmas

variable {W : Type} [LinearOrder W] [Zero W]

theorem retryLoop_reject (INF : W) (geo : Geometry W) (Nodes : List (Int × Coordinates W))
    (Footways : List FootwayInfo) (Buildings : List (BuildingInfo W))
    (building1 building2 : BuildingInfo W) (distances1 distances2 : List (Int × W))
    (fuel : Nat) (st : RetryState W) (h : ¬ bothFinite INF distances1 distances2 st.MidId) :
    retryLoop INF geo Nodes Footways Buildings building1 building2 distances1 distances2
        (fuel + 1) st =
      retryLoop INF geo Nodes Footways Buildings building1 building2 distances1 distances2
        fuel (retryStep INF geo Nodes Footways Buildings building1 building2 st) := by
  have hc : mapGet 0 distances1 st.MidId ≥ INF ∨ mapGet 0 distances2 st.MidId ≥ INF := by
    unfold bothFinite at h
    rcases not_and_or.mp h with h | h
    · exact Or.inl (not_lt.mp h)
    · exact Or.inr (not_lt.mp h)
  rw [retryLoop, if_pos hc]

theorem retryLoop_accept (INF : W) (geo : Geometry W) (Nodes : List (Int × Coordinates W))
    (Footways : List FootwayInfo) (Buildings : List (BuildingInfo W))
    (building1 building2 : BuildingInfo W) (distances1 distances2 : List (Int × W))
    (fuel : Nat) (st : RetryState W) (h : bothFinite INF distances1 distances2 st.MidId) :
    retryLoop INF geo Nodes Footways Buildings building1 building2 distances1 distances2
        (fuel + 1) st = some st := by
  have hc : ¬ (mapGet 0 distances1 st.MidId ≥ INF ∨ mapGet 0 distances2 st.MidId ≥ INF) := by
    rintro (h1 | h1)
    · exact absurd h.1 (not_lt.mpr h1)
    · exact absurd h.2 (not_lt.mpr h1)
  rw [retryLoop, if_neg hc]

omit [Zero W] [LinearOrder W] in
theorem excludeAll_cons (found : List (List Char)) (c : BuildingInfo W)
    (rejected : List (BuildingInfo W)) :
    excludeAll found (c :: rejected) = excludeAll (setInsert found c.Fullname) rejected := rfl

omit [Zero W] [LinearOrder W] in
theorem mem_excludeAll (n : List Char) : ∀ (rejected : List (BuildingInfo W))
    (found : List (List Char)),
    n ∈ excludeAll found rejected ↔ n ∈ found ∨ ∃ c ∈ rejected, c.Fullname = n := by
  intro rejected
  induction rejected with
  | nil => intro found; simp [excludeAll]
  | cons c rejected ih =>
    intro found
    rw [excludeAll_cons, ih, mem_setInsert]
    constructor
    · rintro ((h | h) | ⟨d, hd, h⟩)
      · exact Or.inr ⟨c, List.mem_cons_self _ _, h.symm⟩
      · exact Or.inl h
      · exact Or.inr ⟨d, List.mem_cons_of_mem _ hd, h⟩
    · rintro (h | ⟨d, hd, h⟩)
      · exact Or.inl (Or.inr h)
      · rcases List.mem_cons.mp hd with rfl | hd
        · exact Or.inl (Or.inl h.symm)
        · exact Or.inr ⟨d, hd, h⟩

/-- When some building with a full name outside `found` is nearer to the midpoint than `INF`,
`findMidBuilding` returns a building of the list with a full name outside `found` that is
nearest to the midpoint among these. -/
theorem findMidBuilding_cand (INF : W) (geo : Geometry W) (b1 b2 : BuildingInfo W)
    (Buildings : List (BuildingInfo W)) (found : List (List Char))
    (h : ∃ b ∈ Buildings, b.Fullname ∉ found ∧ midDist geo b1 b2 b < INF) :
    findMidBuilding INF geo b1 b2 Buildings found ∈ Buildings ∧
    (findMidBuilding INF geo b1 b2 Buildings found).Fullname ∉ found ∧
    ∀ y ∈ Buildings, y.Fullname ∉ found →
      midDist geo b1 b2 (findMidBuilding INF geo b1 b2 Buildings found)
        ≤ midDist geo b1 b2 y := by
  rw [findMidBuilding_eq]
  rcases scanMin_spec (midDist geo b1 b2) (fun b => setCount found b.Fullname = 0) Buildings
    INF BuildingInfo.blank with ⟨h1, _⟩ | ⟨pre, x, post, h1, h2, _, h4, h5, h6⟩
  · obtain ⟨b, hb, hnf, hlt⟩ := h
    exact absurd hlt (h1 b hb ((setCount_eq_zero_iff _ _).mpr hnf))
  · rw [h4]
    refine ⟨?_, (setCount_eq_zero_iff _ _).mp h2, ?_⟩
    · rw [h1]; exact List.mem_append_right pre (List.mem_cons_self _ _)
    · intro y hy hnf
      have hok : setCount found y.Fullname = 0 := (setCount_eq_zero_iff _ _).mpr hnf
      rw [h1] at hy
      rcases List.mem_append.mp hy with hy | hy
      · exact le_of_lt (h5 y hy hok)
      · rcases List.mem_cons.mp hy with rfl | hy
        · exact le_refl _
        · exact h6 y hy hok

end RetryLemmas

section RetryClaims

variable {W : Type} [LinearOrder W] [Zero W]

/-- Every state in which the retry loop is left satisfies the exit test and the loop
relation, and its excluded set consists of the names of a list of rejected candidates, each
of which was the candidate for the names excluded before it and failed the exit test. -/
theorem retryLoop_trace (INF : W) (geo : Geometry W) (Nodes : List (Int × Coordinates W))
    (Footways : List FootwayInfo) (Buildings : List (BuildingInfo W))
    (building1 building2 : BuildingInfo W) (distances1 distances2 : List (Int × W)) :
    ∀ (fuel : Nat) (st r : RetryState W),
      RetryInv INF geo Nodes Footways Buildings building1 building2 st →
      retryLoop INF geo Nodes Footways Buildings building1 building2 distances1 distances2
        fuel st = some r →
      RetryInv INF geo Nodes Footways Buildings building1 building2 r ∧
      bothFinite INF distances1 distances2 r.MidId ∧
      ∃ rejected : List (BuildingInfo W), r.found = excludeAll st.found rejected ∧
        ∀ pre c post, rejected = pre ++ c :: post →
          c = findMidBuilding INF geo building1 building2 Buildings (excludeAll st.found pre) ∧
          ¬ bothFinite INF distances1 distances2 (closeID INF geo c Footways Nodes) := by
  intro fuel
  induction fuel with
  | zero => intro st r _ h; cases h
  | succ fuel ih =>
    intro st r hinv hrun
    by_cases hfin : bothFinite INF distances1 distances2 st.MidId
    · rw [retryLoop_accept _ _ _ _ _ _ _ _ _ _ _ hfin] at hrun
      cases hrun
      refine ⟨hinv, hfin, [], rfl, ?_⟩
      intro pre c post h
      exact absurd h (by simp)
    · rw [retryLoop_reject _ _ _ _ _ _ _ _ _ _ _ hfin] at hrun
      obtain ⟨h1, h2, rejected, h3, h4⟩ := ih _ r ⟨rfl, rfl⟩ hrun
      refine ⟨h1, h2, st.mBuilding :: rejected, h3, ?_⟩
      intro pre c post h
      cases pre with
      | nil =>
        simp only [List.nil_append, List.cons.injEq] at h
        obtain ⟨hc, _⟩ := h
        subst hc
        refine ⟨hinv.1, ?_⟩
        rw [← hinv.2]
        exact hfin
      | cons a pre =>
        simp only [List.cons_append, List.cons.injEq] at h
        obtain ⟨ha, h⟩ := h
        subst ha
        exact h4 pre c post h

/-- C13 (amended). Whenever the retry loop, entered with the building nearest the midpoint
and no excluded name, is left with the distances to all buildings below `INF`: the
destination node has a distance below `INF` in both maps and is the node that `closeID`
returns for the destination building; if some building has a non-excluded full name, the
destination building is a building of the list with a non-excluded full name that is nearest
the midpoint among these, and if every full name is excluded it is the sentinel building;
the excluded set consists exactly of the full names of a list of rejected candidates, each of
which was the candidate for the names excluded before it and had a nearest node with
distance `INF` or more in one of the maps. In particular, if the nearest node of the
building `first` nearest the midpoint fails the test and the nearest node of the building
`second`, nearest the midpoint among the buildings not named like `first`, passes it, the
loop ends with `second` and the excluded set holds the full name of `first` only. -/
theorem retryLoop_success (INF : W) (geo : Geometry W)
    (Nodes : List (Int × Coordinates W)) (Footways : List FootwayInfo)
    (Buildings : List (BuildingInfo W)) (building1 building2 : BuildingInfo W)
    (distances1 distances2 : List (Int × W)) (fuel : Nat) (r : RetryState W)
    (hdist : ∀ B ∈ Buildings, midDist geo building1 building2 B < INF)
    (hrun : retryLoop INF geo Nodes Footways Buildings building1 building2 distances1
      distances2 fuel (retryStart INF geo Nodes Footways Buildings building1 building2)
      = some r) :
    bothFinite INF distances1 distances2 r.MidId ∧
    r.MidId = closeID INF geo r.mBuilding Footways Nodes ∧
    ((∃ B ∈ Buildings, B.Fullname ∉ r.found) →
      r.mBuilding ∈ Buildings ∧ r.mBuilding.Fullname ∉ r.found ∧
      ∀ B ∈ Buildings, B.Fullname ∉ r.found →
        midDist geo building1 building2 r.mBuilding ≤ midDist geo building1 building2 B) ∧
    ((∀ B ∈ Buildings, B.Fullname ∈ r.found) → r.mBuilding = BuildingInfo.blank) ∧
    (∃ rejected : List (BuildingInfo W),
      (∀ n, n ∈ r.found ↔ ∃ c ∈ rejected, c.Fullname = n) ∧
      ∀ pre c post, rejected = pre ++ c :: post →
        c = findMidBuilding INF geo building1 building2 Buildings (excludeAll [] pre) ∧
        ¬ bothFinite INF distances1 distances2 (closeID INF geo c Footways Nodes)) ∧
    (∀ first second : BuildingInfo W,
      first = findMidBuilding INF geo building1 building2 Buildings [] →
      second = findMidBuilding INF geo building1 building2 Buildings [first.Fullname] →
      ¬ bothFinite INF distances1 distances2 (closeID INF geo first Footways Nodes) →
      bothFinite INF distances1 distances2 (closeID INF geo second Footways Nodes) →
      ∀ fuel2, 2 ≤ fuel2 →
        retryLoop INF geo Nodes Footways Buildings building1 building2 distances1
          distances2 fuel2 (retryStart INF geo Nodes Footways Buildings building1 building2)
        = some ⟨[first.Fullname], second, closeID INF geo second Footways Nodes⟩) := by
  obtain ⟨hinv, hfin, rejected, hfound, hrej⟩ := retryLoop_trace INF geo Nodes Footways
    Buildings building1 building2 distances1 distances2 fuel _ r ⟨rfl, rfl⟩ hrun
  have hfound2 : r.found = excludeAll [] rejected := hfound
  refine ⟨hfin, hinv.2, ?_, ?_, ⟨rejected, ?_, fun pre c post h => hrej pre c post h⟩, ?_⟩
  · rintro ⟨B, hB, hnf⟩
    have h := findMidBuilding_cand INF geo building1 building2 Buildings r.found
      ⟨B, hB, hnf, hdist B hB⟩
    rw [← hinv.1] at h
    exact h
  · intro hall
    rw [hinv.1, findMidBuilding_eq]
    exact (scanMin_result INF _ _ _ Buildings hdist).2
      (fun x hx h0 => (setCount_eq_zero_iff _ _).mp h0 (hall x hx))
  · intro n
    rw [hfound2, mem_excludeAll]
    simp
  · intro first second hfirst hsecond hbad hgood fuel2 hfuel2
    obtain ⟨k, rfl⟩ : ∃ k, fuel2 = k + 1 + 1 := ⟨fuel2 - 2, by omega⟩
    subst hfirst
    subst hsecond
    rw [retryLoop_reject _ _ _ _ _ _ _ _ _ _ _ hbad, retryLoop_accept _ _ _ _ _ _ _ _ _ _ _ hgood]
    rfl

/-- Witness of C13: the small campus with pairwise different full names; the loop is left
with the building "A" at node 1 after the building "C" was rejected. -/
theorem retryLoop_success_witness :
    (∀ B ∈ campusBuildings, midDist natGeo personA personB B < 1000) ∧
    retryLoop 1000 natGeo campusNodes campusFootways campusBuildings personA personB
        campusDist1 campusDist2 4
        (retryStart 1000 natGeo campusNodes campusFootways campusBuildings personA personB)
      = some ⟨[['C']], personA, 1⟩ ∧
    bothFinite 1000 campusDist1 campusDist2 1 ∧
    (1 : Int) = closeID 1000 natGeo personA campusFootways campusNodes :=
  ⟨by decide, by decide,
    (retryLoop_success 1000 natGeo campusNodes campusFootways campusBuildings personA personB
      campusDist1 campusDist2 4 ⟨[['C']], personA, 1⟩
      (by decide) (by decide)).1,
    (retryLoop_success 1000 natGeo campusNodes campusFootways campusBuildings personA personB
      campusDist1 campusDist2 4 ⟨[['C']], personA, 1⟩
      (by decide) (by decide)).2.1⟩

/-- Counterexample to C13: person 1 is in the building "A" at node 1, person 2 in the
building "B" at node 2. The building nearest the midpoint is a second building named "A" at
the isolated node 3, which person 2 does not reach; the second-nearest building is a third
building named "A", whose nearest node 2 both persons reach. Rejecting the nearest building
excludes the name "A", so the loop ends with the building "B", not with the second-nearest
building. -/
theorem retryLoop_success_counterexample :
    searchBuilding ['P', '1'] twinBuildings = personA ∧
    searchBuilding ['P', '2'] twinBuildings = personB ∧
    closeID 1000 natGeo personA campusFootways campusNodes = 1 ∧
    closeID 1000 natGeo personB campusFootways campusNodes = 2 ∧
    Dijkstra 1000 (buildGraph natGeo campusNodes campusFootways) 1 [] (fun _ => 0) 6
      = Run.done ([(1, 0), (2, 1), (3, 0)], campusDist1) ∧
    Dijkstra 1000 (buildGraph natGeo campusNodes campusFootways) 2 [] (fun _ => 0) 6
      = Run.done ([(1, 2), (2, 0), (3, 0)], campusDist2) ∧
    findMidBuilding 1000 natGeo personA personB twinBuildings [] = ⟨['A'], [], ⟨0, 20⟩⟩ ∧
    (⟨['A'], [], ⟨0, 26⟩⟩ : BuildingInfo Nat) ∈ twinBuildings ∧
    (∀ B ∈ twinBuildings, B ≠ ⟨['A'], [], ⟨0, 20⟩⟩ →
      midDist natGeo personA personB ⟨['A'], [], ⟨0, 26⟩⟩ ≤ midDist natGeo personA personB B) ∧
    ¬ mapGet 0 campusDist2
        (closeID 1000 natGeo ⟨['A'], [], ⟨0, 20⟩⟩ campusFootways campusNodes) < 1000 ∧
    bothFinite 1000 campusDist1 campusDist2
      (closeID 1000 natGeo ⟨['A'], [], ⟨0, 26⟩⟩ campusFootways campusNodes) ∧
    retryLoop 1000 natGeo campusNodes campusFootways twinBuildings personA personB
        campusDist1 campusDist2 2
        (retryStart 1000 natGeo campusNodes campusFootways twinBuildings personA personB)
      = some ⟨[['A']], personB, 2⟩ := by
  decide

end RetryClaims

/-! ## Instances on the small campus -/

/-- Witness of C15: on the small campus with the name "C" excluded, the buildings "A" and
"B" are equally near the midpoint and `findMidBuilding` returns "A", the first of them. -/
theorem findMidBuilding_spec_witness :
    (∀ b ∈ campusBuildings, midDist natGeo personA personB b < 1000) ∧
    findMidBuilding 1000 natGeo personA personB campusBuildings [['C']] = personA ∧
    (findMidBuilding 1000 natGeo personA personB campusBuildings [['C']]).Fullname
      ∉ [['C']] ∧
    ∀ y ∈ campusBuildings, y.Fullname ∉ [['C']] →
      midDist natGeo personA personB
          (findMidBuilding 1000 natGeo personA personB campusBuildings [['C']])
        ≤ midDist natGeo personA personB y := by
  obtain ⟨_, _, _, h2, h3, _⟩ :=
    (findMidBuilding_spec 1000 natGeo personA personB campusBuildings [['C']]
      (by decide)).1 ⟨personA, by decide, by decide⟩
  exact ⟨by decide, by decide, h2, h3⟩

/-- Witness of C16: on the small campus the node nearest the building "A" is node 1. -/
theorem closeID_spec_witness :
    (∀ foot ∈ campusFootways, ∀ f ∈ foot.Nodes,
      nodeDist natGeo personA campusNodes f < 1000) ∧
    closeID 1000 natGeo personA campusFootways campusNodes = 1 ∧
    (∃ foot ∈ campusFootways,
      closeID 1000 natGeo personA campusFootways campusNodes ∈ foot.Nodes) ∧
    ∀ foot ∈ campusFootways, ∀ f ∈ foot.Nodes,
      nodeDist natGeo personA campusNodes
          (closeID 1000 natGeo personA campusFootways campusNodes)
        ≤ nodeDist natGeo personA campusNodes f := by
  obtain ⟨h1, h2, _⟩ :=
    (closeID_spec 1000 natGeo personA campusFootways campusNodes (by decide)).1
      ⟨⟨[1, 2]⟩, by decide, by decide⟩
  exact ⟨by decide, by decide, h1, h2⟩

/-- Witness of C17: the path `[1, 2, 3]` on the three vertices of the small campus gives the
edges `1->2`, `2->1` of weight 20 and `2->3`, `3->2` of weight 10. -/
theorem wayToEdge_spec_witness :
    (∀ n ∈ (⟨[1, 2, 3]⟩ : FootwayInfo).Nodes, n ∈ (graph.run campusVertexOps).getVertices) ∧
    nodeGap natGeo campusNodes 1 2 = 20 ∧ nodeGap natGeo campusNodes 2 3 = 10 ∧
    (wayToEdge natGeo (graph.run campusVertexOps) ⟨[1, 2, 3]⟩ campusNodes).getWeight 1 2 0
      = (true, nodeGap natGeo campusNodes 1 2) ∧
    (wayToEdge natGeo (graph.run campusVertexOps) ⟨[1, 2, 3]⟩ campusNodes).getWeight 3 2 0
      = (true, nodeGap natGeo campusNodes 2 3) :=
  ⟨by decide, by decide, by decide,
    (((wayToEdge_spec natGeo campusVertexOps ⟨[1, 2, 3]⟩ campusNodes 0 (by decide)).1
      [] 1 2 [3] rfl).2.1 (fun _ => by decide)).1,
    (((wayToEdge_spec natGeo campusVertexOps ⟨[1, 2, 3]⟩ campusNodes 0 (by decide)).1
      [1] 2 3 [] rfl).2.1 (fun _ => by decide)).2⟩

/-- Witness of C18: on the small campus two calls for the origin "A" select "C" and then
"B", at the distances 10 and 20, and the two names differ. -/
theorem closeBuilding_spec_witness :
    (∀ B ∈ campusBuildings, buildingDist natGeo personA B < 1000) ∧
    2 ≤ (eligibleNames personA campusBuildings).length ∧
    closeBuildings 1000 natGeo personA campusBuildings 2 []
      = [⟨['C'], [], ⟨0, 20⟩⟩, personB] ∧
    (closeBuildings 1000 natGeo personA campusBuildings 2 []).length = 2 ∧
    ((closeBuildings 1000 natGeo personA campusBuildings 2 []).map
      (fun x => x.Fullname)).Nodup ∧
    (closeBuildings 1000 natGeo personA campusBuildings 2 []).Pairwise
      (fun x y => buildingDist natGeo personA x ≤ buildingDist natGeo personA y) := by
  obtain ⟨h1, _, h3, h4, _⟩ :=
    (closeBuilding_spec 1000 natGeo personA campusBuildings 2 (by decide)).2 (by decide)
  exact ⟨by decide, by decide, by decide, h1, h3, h4⟩

/-- Counterexample to C18 as stated: for the origin "B" three buildings have another full
name, all of them "A", and all distances are below `INF`; three calls yield the nearest
building named "A" and then the sentinel building twice, so the entries are not three
buildings with pairwise different full names. -/
theorem closeBuilding_spec_counterexample :
    (∀ B ∈ twinBuildings, buildingDist natGeo personB B < 1000) ∧
    (twinBuildings.filter (fun B => decide (Eligible personB [] B))).length = 3 ∧
    closeBuildings 1000 natGeo personB twinBuildings 3 []
      = [⟨['A'], [], ⟨0, 26⟩⟩, BuildingInfo.blank, BuildingInfo.blank] ∧
    ¬ ((closeBuildings 1000 natGeo personB twinBuildings 3 []).map
      (fun x => x.Fullname)).Nodup ∧
    (BuildingInfo.blank : BuildingInfo Nat) ∉ twinBuildings := by
  decide

/-- Counterexample to C19 as stated: on the small campus only the two buildings "B" and "C"
are eligible for the origin "A", and three calls yield three entries, the third of which is
the sentinel building. -/
theorem closeBuildings_length_counterexample :
    (eligibleNames personA campusBuildings).length = 2 ∧
    (campusBuildings.filter (fun B => decide (B.Fullname ≠ personA.Fullname))).length = 2 ∧
    closeBuildings 1000 natGeo personA campusBuildings 3 []
      = [⟨['C'], [], ⟨0, 20⟩⟩, personB, BuildingInfo.blank] ∧
    ¬ (closeBuildings 1000 natGeo personA campusBuildings 3 []).length < 3 := by
  decide

/-! ## Termination and resources of the shortest-path engine -/

section LogLemmas

variable {W : Type} [LinearOrder W] [Add W] [Zero W]

/-- The cases in which an iteration of the logged main loop yields a result. -/
theorem dijkstraLoopLog_succ (INF : W) (G : graph Int W) (tie : Nat → Nat) (fuel n : Nat)
    (st r : DijkstraState W) (log : List (IterRecord W))
    (h : dijkstraLoopLog INF G tie (fuel + 1) n st = some (r, log)) :
    (pqTop (tie n) st.pq = none ∧ r = st ∧ log = []) ∨
    ∃ cur, pqTop (tie n) st.pq = some cur ∧
      ((st.D cur.1 = INF ∧ r = dijkstraDiscard st cur ∧
          log = [⟨cur, st, Branch.stop, 0, dijkstraDiscard st cur⟩]) ∨
       (st.D cur.1 ≠ INF ∧ cur.1 ∈ st.visitSet ∧ ∃ log1,
          dijkstraLoopLog INF G tie fuel (n + 1) (dijkstraDiscard st cur) = some (r, log1) ∧
          log = ⟨cur, st, Branch.skip, 0, dijkstraDiscard st cur⟩ :: log1) ∨
       (st.D cur.1 ≠ INF ∧ cur.1 ∉ st.visitSet ∧ ∃ log1,
          dijkstraLoopLog INF G tie fuel (n + 1) (dijkstraVisit G st cur) = some (r, log1) ∧
          log = ⟨cur, st, Branch.visit,
            relaxPushes G cur.1
              { distances := mapTouch 0 st.distances cur.1
                prev := st.prev
                visitSet := setInsert st.visitSet cur.1
                pq := st.pq.erase cur } (G.neighbors cur.1),
            dijkstraVisit G st cur⟩ :: log1)) := by
  unfold dijkstraLoopLog at h
  cases htop : pqTop (tie n) st.pq with
  | none =>
    rw [htop] at h
    simp only [Option.some.injEq, Prod.mk.injEq] at h
    exact Or.inl ⟨rfl, h.1.symm, h.2.symm⟩
  | some cur =>
    rw [htop] at h
    simp only at h
    refine Or.inr ⟨cur, rfl, ?_⟩
    have hD : mapGet 0 (mapTouch 0 st.distances cur.1) cur.1 = st.D cur.1 :=
      mapGet_mapTouch 0 st.distances cur.1 cur.1
    rw [hD] at h
    by_cases h1 : st.D cur.1 = INF
    · rw [if_pos h1] at h
      simp only [Option.some.injEq, Prod.mk.injEq] at h
      exact Or.inl ⟨h1, h.1.symm, h.2.symm⟩
    · rw [if_neg h1] at h
      by_cases h2 : setCount st.visitSet cur.1 > 0
      · rw [if_pos h2] at h
        cases hrec : dijkstraLoopLog INF G tie fuel (n + 1) (dijkstraDiscard st cur) with
        | none => rw [hrec] at h; cases h
        | some p =>
          obtain ⟨r1, log1⟩ := p
          rw [hrec] at h
          simp only [Option.some.injEq, Prod.mk.injEq] at h
          refine Or.inr (Or.inl ⟨h1, (setCount_pos_iff _ _).mp h2, log1, ?_, h.2.symm⟩)
          rw [h.1]
      · rw [if_neg h2] at h
        cases hrec : dijkstraLoopLog INF G tie fuel (n + 1) (dijkstraVisit G st cur) with
        | none => rw [hrec] at h; cases h
        | some p =>
          obtain ⟨r1, log1⟩ := p
          rw [hrec] at h
          simp only [Option.some.injEq, Prod.mk.injEq] at h
          refine Or.inr (Or.inr ⟨h1, fun hm => h2 ((setCount_pos_iff _ _).mpr hm), log1, ?_,
            h.2.symm⟩)
          rw [h.1]

/-- Without the log, the logged main loop is the main loop. -/
theorem dijkstraLoopLog_fst (INF : W) (G : graph Int W) (tie : Nat → Nat) :
    ∀ (fuel n : Nat) (st : DijkstraState W),
      (dijkstraLoopLog INF G tie fuel n st).map Prod.fst = dijkstraLoop INF G tie fuel n st := by
  intro fuel
  induction fuel with
  | zero => intro n st; rfl
  | succ fuel ih =>
    intro n st
    unfold dijkstraLoopLog dijkstraLoop
    cases htop : pqTop (tie n) st.pq with
    | none => rfl
    | some cur =>
      simp only
      by_cases h1 : mapGet 0 (mapTouch 0 st.distances cur.1) cur.1 = INF
      · simp only [h1, if_true, Option.map_some']
        rfl
      · simp only [h1, if_false]
        by_cases h2 : setCount st.visitSet cur.1 > 0
        · simp only [h2, if_true]
          rw [← ih]
          show _ = (dijkstraLoopLog INF G tie fuel (n + 1) (dijkstraDiscard st cur)).map Prod.fst
          cases dijkstraLoopLog INF G tie fuel (n + 1) (dijkstraDiscard st cur) with
          | none => rfl
          | some p => rfl
        · simp only [h2, if_false]
          rw [← ih]
          show _ = (dijkstraLoopLog INF G tie fuel (n + 1) (dijkstraVisit G st cur)).map Prod.fst
          cases dijkstraLoopLog INF G tie fuel (n + 1) (dijkstraVisit G st cur) with
          | none => rfl
          | some p => rfl

/-- Without the log, the logged function is the function: both run out of fuel, both leave
by the exception of `at`, or both return. -/
theorem DijkstraLog_fst (INF : W) (G : graph Int W) (startV : Int)
    (distances : List (Int × W)) (tie : Nat → Nat) (fuel : Nat) :
    Dijkstra INF G startV distances tie fuel =
      match DijkstraLog INF G startV distances tie fuel with
      | Run.done r => Run.done (r.1.prev, r.1.distances)
      | Run.out_of_range => Run.out_of_range
      | Run.out_of_fuel => Run.out_of_fuel := by
  unfold Dijkstra DijkstraLog
  simp only
  split
  · rfl
  · rw [← dijkstraLoopLog_fst]
    cases dijkstraLoopLog INF G tie fuel 0 _ with
    | none => rfl
    | some p => rfl

/-- The iterations that visit a vertex visit different vertices, none of which was visited
before the loop. -/
theorem visited_nodup (INF : W) (G : graph Int W) (tie : Nat → Nat) :
    ∀ (fuel n : Nat) (st r : DijkstraState W) (log : List (IterRecord W)),
      dijkstraLoopLog INF G tie fuel n st = some (r, log) →
      (visited log).Nodup ∧ ∀ v ∈ visited log, v ∉ st.visitSet := by
  intro fuel
  induction fuel with
  | zero => intro n st r log h; cases h
  | succ fuel ih =>
    intro n st r log h
    rcases dijkstraLoopLog_succ INF G tie fuel n st r log h with
      ⟨_, _, hlog⟩ | ⟨cur, _, ⟨_, _, hlog⟩ | ⟨_, _, log1, hrec, hlog⟩ | ⟨_, hnv, log1, hrec, hlog⟩⟩
    · subst hlog
      exact ⟨List.nodup_nil, fun v hv => by cases hv⟩
    · subst hlog
      exact ⟨List.nodup_nil, fun v hv => by cases hv⟩
    · subst hlog
      have hcons : visited (⟨cur, st, Branch.skip, 0, dijkstraDiscard st cur⟩ :: log1)
          = visited log1 := by
        simp [visited]
      rw [hcons]
      have h1 := ih _ _ _ _ hrec
      exact h1
    · subst hlog
      obtain ⟨h1, h2⟩ := ih _ _ _ _ hrec
      have hvis : (dijkstraVisit G st cur).visitSet = setInsert st.visitSet cur.1 :=
        visitSet_foldl G cur.1 _ _
      rw [hvis] at h2
      have hcons : visited (⟨cur, st, Branch.visit,
          relaxPushes G cur.1
            { distances := mapTouch 0 st.distances cur.1
              prev := st.prev
              visitSet := setInsert st.visitSet cur.1
              pq := st.pq.erase cur } (G.neighbors cur.1),
          dijkstraVisit G st cur⟩ :: log1) = cur.1 :: visited log1 := by
        simp [visited]
      rw [hcons]
      refine ⟨List.nodup_cons.mpr ⟨?_, h1⟩, ?_⟩
      · intro hm
        exact h2 _ hm ((mem_setInsert _ _ _).mpr (Or.inl rfl))
      · intro v hv
        rcases List.mem_cons.mp hv with rfl | hv
        · exact hnv
        · intro hm
          exact h2 v hv ((mem_setInsert _ _ _).mpr (Or.inr hm))

theorem relaxPushes_le (G : graph Int W) (u : Int) :
    ∀ (l : List Int) (st : DijkstraState W), relaxPushes G u st l ≤ l.length := by
  intro l
  induction l with
  | nil => intro st; exact Nat.le_refl _
  | cons a l ih =>
    intro st
    have h := ih (dijkstraRelax G u st a)
    simp only [relaxPushes, List.length_cons]
    split <;> omega

/-- The pushes of the recorded iterations are paid for by the adjacency sets of the vertices
that these iterations visit. -/
theorem pushes_le_degree (INF : W) (G : graph Int W) (tie : Nat → Nat) :
    ∀ (fuel n : Nat) (st r : DijkstraState W) (log : List (IterRecord W)),
      dijkstraLoopLog INF G tie fuel n st = some (r, log) →
      (log.map (fun rec => rec.pushes)).sum + G.degreeOutside r.visitSet
        ≤ G.degreeOutside st.visitSet := by
  intro fuel
  induction fuel with
  | zero => intro n st r log h; cases h
  | succ fuel ih =>
    intro n st r log h
    rcases dijkstraLoopLog_succ INF G tie fuel n st r log h with
      ⟨_, hr, hlog⟩ | ⟨cur, _, ⟨_, hr, hlog⟩ | ⟨_, _, log1, hrec, hlog⟩ |
        ⟨_, hnv, log1, hrec, hlog⟩⟩
    · subst hlog; subst hr; simp
    · subst hlog; subst hr
      show 0 + 0 + G.degreeOutside st.visitSet ≤ G.degreeOutside st.visitSet
      omega
    · subst hlog
      have h1 := ih _ _ _ _ hrec
      have h2 : (dijkstraDiscard st cur).visitSet = st.visitSet := rfl
      rw [h2] at h1
      simp only [List.map_cons, List.sum_cons]
      omega
    · subst hlog
      have h1 := ih _ _ _ _ hrec
      have hvis : (dijkstraVisit G st cur).visitSet = setInsert st.visitSet cur.1 :=
        visitSet_foldl G cur.1 _ _
      rw [hvis] at h1
      have h3 := relaxPushes_le G cur.1 (G.neighbors cur.1)
        { distances := mapTouch 0 st.distances cur.1, prev := st.prev,
          visitSet := setInsert st.visitSet cur.1, pq := st.pq.erase cur }
      have h4 := sum_filter_insert G.EdgeList st.visitSet (setInsert st.visitSet cur.1)
        cur.1 hnv (fun x => mem_setInsert _ _ _)
      rw [← graph.neighbors_eq] at h4
      simp only [graph.degreeOutside] at h1 ⊢
      simp only [List.map_cons, List.sum_cons]
      omega

omit [LinearOrder W] [Add W] [Zero W] in
/-- The members of the adjacency sets of a map with unique keys, listed as pairs without
repetition. -/
theorem adj_pairs {K : Type} (m : List (K × List K)) (hk : (m.map Prod.fst).Nodup)
    (hs : ∀ e ∈ m, e.2.Nodup) :
    ∃ pairs : List (K × K), pairs.Nodup ∧
      pairs.length = (m.map (fun e => e.2.length)).sum ∧
      ∀ p ∈ pairs, ∃ e ∈ m, p.1 = e.1 ∧ p.2 ∈ e.2 := by
  induction m with
  | nil => exact ⟨[], List.nodup_nil, rfl, fun p hp => by cases hp⟩
  | cons e m ih =>
    rw [List.map_cons, List.nodup_cons] at hk
    obtain ⟨pairs, h1, h2, h3⟩ := ih hk.2 (fun x hx => hs x (List.mem_cons_of_mem _ hx))
    refine ⟨e.2.map (Prod.mk e.1) ++ pairs, ?_, ?_, ?_⟩
    · rw [List.nodup_append]
      refine ⟨(hs e (List.mem_cons_self _ _)).map (Prod.mk.inj_left e.1), h1, ?_⟩
      intro p hp1 hp2
      obtain ⟨u, _, rfl⟩ := List.mem_map.mp hp1
      obtain ⟨e2, he2, h4, _⟩ := h3 _ hp2
      exact hk.1 (List.mem_map.mpr ⟨e2, he2, h4.symm⟩)
    · simp [h2]
    · intro p hp
      rcases List.mem_append.mp hp with hp | hp
      · obtain ⟨u, hu, rfl⟩ := List.mem_map.mp hp
        exact ⟨e, List.mem_cons_self _ _, rfl, hu⟩
      · obtain ⟨e2, he2, h4⟩ := h3 p hp
        exact ⟨e2, List.mem_cons_of_mem _ he2, h4⟩

omit [LinearOrder W] [Add W] [Zero W] in
/-- In a state of the class the adjacency sets have together at most as many members as
there are weights. -/
theorem degree_le_edges (g : graph Int W) (h : g.WF) :
    (g.EdgeList.map (fun e => e.2.length)).sum ≤ g.WeightList.length := by
  obtain ⟨pairs, h1, h2, h3⟩ := adj_pairs g.EdgeList h.keys_nodup
    (fun e he => (h.adj_sorted e he).nodup)
  have hsub : pairs ⊆ g.WeightList.map Prod.fst := by
    intro p hp
    obtain ⟨e, he, h4, h5⟩ := h3 p hp
    have h6 := (h.adj_closed e he p.2 h5).2
    have hp2 : p = (e.1, p.2) := by rw [← h4]
    rw [hp2]
    exact h6
  have hlen := (List.subperm_of_subset h1 hsub).length_le
  rw [List.length_map] at hlen
  omega

omit [LinearOrder W] [Add W] [Zero W] in
theorem mapTouch_of_mem {K V : Type} [DecidableEq K] (d : V) (m : List (K × V)) (k : K)
    (h : k ∈ m.map Prod.fst) : mapTouch d m k = m := by
  unfold mapTouch
  have hsome := (mapFind_isSome_iff m k).mpr h
  cases hf : mapFind m k with
  | none => rw [hf] at hsome; cases hsome
  | some v => rfl

omit [LinearOrder W] [Add W] [Zero W] in
theorem mem_keys_mapTouch {K V : Type} [DecidableEq K] (d : V) (m : List (K × V)) (k k2 : K)
    (h : k2 ∈ m.map Prod.fst) : k2 ∈ (mapTouch d m k).map Prod.fst := by
  unfold mapTouch
  cases mapFind m k with
  | none => exact (mem_map_fst_mapAssign _ _ _ _).mpr (Or.inr h)
  | some v => exact h

omit [LinearOrder W] [Add W] [Zero W] in
theorem self_mem_keys_mapTouch {K V : Type} [DecidableEq K] (d : V) (m : List (K × V))
    (k : K) : k ∈ (mapTouch d m k).map Prod.fst := by
  unfold mapTouch
  cases hf : mapFind m k with
  | none => exact (mem_map_fst_mapAssign _ _ _ _).mpr (Or.inl rfl)
  | some v =>
    apply (mapFind_isSome_iff m k).mp
    rw [hf]
    rfl

theorem keys_relax (G : graph Int W) (u a : Int) (st : DijkstraState W) :
    (∀ k ∈ st.distances.map Prod.fst, k ∈ (dijkstraRelax G u st a).distances.map Prod.fst) ∧
    a ∈ (dijkstraRelax G u st a).distances.map Prod.fst := by
  unfold dijkstraRelax
  simp only
  split
  · constructor
    · intro k hk
      exact (mem_map_fst_mapAssign _ _ _ _).mpr
        (Or.inr (mem_keys_mapTouch _ _ _ _ (mem_keys_mapTouch _ _ _ _ hk)))
    · exact (mem_map_fst_mapAssign _ _ _ _).mpr (Or.inl rfl)
  · constructor
    · intro k hk
      exact mem_keys_mapTouch _ _ _ _ (mem_keys_mapTouch _ _ _ _ hk)
    · exact self_mem_keys_mapTouch _ _ _

theorem queueOK_relax (G : graph Int W) (u a : Int) (st : DijkstraState W)
    (h : QueueOK st) : QueueOK (dijkstraRelax G u st a) := by
  obtain ⟨hk1, hk2⟩ := keys_relax G u a st
  have hvis := visitSet_relax G u a st
  by_cases c : st.D u + G.edgeData u a < st.D a
  · have hD : (dijkstraRelax G u st a).D
        = Function.update st.D a (st.D u + G.edgeData u a) := by
      rw [D_relax, if_pos c]
    have hpq : (dijkstraRelax G u st a).pq = st.pq ++ [(a, st.D u + G.edgeData u a)] := by
      rw [pq_relax, if_pos c]
    refine ⟨?_, ?_, ?_⟩
    · intro e he
      rw [hpq] at he
      rcases List.mem_append.mp he with he | he
      · exact hk1 _ (h.key e he)
      · rw [List.mem_singleton] at he
        subst he
        exact hk2
    · intro e he
      rw [hpq] at he
      rw [hD]
      rcases List.mem_append.mp he with he | he
      · by_cases hea : e.1 = a
        · have hge := h.ge e he
          rw [hea] at hge ⊢
          rw [Function.update_same]
          exact le_trans (le_of_lt c) hge
        · rw [Function.update_noteq hea]
          exact h.ge e he
      · rw [List.mem_singleton] at he
        subst he
        rw [Function.update_same]
    · intro e he hnv
      rw [hpq] at he ⊢
      rw [hD]
      rw [hvis] at hnv
      by_cases hea : e.1 = a
      · rw [hea, Function.update_same]
        exact List.mem_append_right _ (List.mem_singleton.mpr rfl)
      · rw [Function.update_noteq hea]
        rcases List.mem_append.mp he with he | he
        · exact List.mem_append_left _ (h.live e he hnv)
        · rw [List.mem_singleton] at he
          subst he
          exact absurd rfl hea
  · have hD : (dijkstraRelax G u st a).D = st.D := by
      rw [D_relax, if_neg c]
    have hpq : (dijkstraRelax G u st a).pq = st.pq := by
      rw [pq_relax, if_neg c]
    refine ⟨?_, ?_, ?_⟩
    · intro e he
      rw [hpq] at he
      exact hk1 _ (h.key e he)
    · intro e he
      rw [hpq] at he
      rw [hD]
      exact h.ge e he
    · intro e he hnv
      rw [hpq] at he ⊢
      rw [hD]
      rw [hvis] at hnv
      exact h.live e he hnv

theorem queueOK_foldl (G : graph Int W) (u : Int) :
    ∀ (l : List Int) (st : DijkstraState W), QueueOK st →
      QueueOK (l.foldl (dijkstraRelax G u) st) := by
  intro l
  induction l with
  | nil => intro st h; exact h
  | cons a l ih => intro st h; exact ih _ (queueOK_relax G u a st h)

theorem queueOK_visit (G : graph Int W) (st : DijkstraState W) (cur : Int × W)
    (h : QueueOK st) : QueueOK (dijkstraVisit G st cur) := by
  apply queueOK_foldl
  have hD := D_touch st cur.1 st.prev (setInsert st.visitSet cur.1) (st.pq.erase cur)
  refine ⟨?_, ?_, ?_⟩
  · intro e he
    exact mem_keys_mapTouch _ _ _ _ (h.key e (List.mem_of_mem_erase he))
  · intro e he
    rw [hD]
    exact h.ge e (List.mem_of_mem_erase he)
  · intro e he hnv
    rw [hD]
    have hne : e.1 ≠ cur.1 := fun heq => hnv ((mem_setInsert _ _ _).mpr (Or.inl heq))
    have hnv2 : e.1 ∉ st.visitSet := fun hm => hnv ((mem_setInsert _ _ _).mpr (Or.inr hm))
    have hmem := h.live e (List.mem_of_mem_erase he) hnv2
    have hne2 : (e.1, st.D e.1) ≠ cur := fun heq => hne (by rw [← heq])
    exact (List.mem_erase_of_ne hne2).mpr hmem

omit [Add W] in
theorem queueOK_discard (st : DijkstraState W) (cur : Int × W) (h : QueueOK st)
    (hvis : cur.1 ∈ st.visitSet) : QueueOK (dijkstraDiscard st cur) := by
  have hD : (dijkstraDiscard st cur).D = st.D :=
    D_touch st cur.1 st.prev st.visitSet (st.pq.erase cur)
  have hpq : (dijkstraDiscard st cur).pq = st.pq.erase cur := rfl
  refine ⟨?_, ?_, ?_⟩
  · intro e he
    exact mem_keys_mapTouch _ _ _ _ (h.key e (List.mem_of_mem_erase he))
  · intro e he
    rw [hD]
    exact h.ge e (List.mem_of_mem_erase he)
  · intro e he hnv
    rw [hD, hpq]
    have hnv2 : e.1 ∉ st.visitSet := hnv
    have hmem := h.live e (List.mem_of_mem_erase he) hnv2
    have hne2 : (e.1, st.D e.1) ≠ cur := fun heq => hnv2 (by rw [← heq] at hvis; exact hvis)
    exact (List.mem_erase_of_ne hne2).mpr hmem

omit [Add W] in
/-- An iteration that leaves by `break` or `continue` changes nothing but the queue. -/
theorem discard_eq (st : DijkstraState W) (cur : Int × W) (h : QueueOK st)
    (hcur : cur ∈ st.pq) : dijkstraDiscard st cur = { st with pq := st.pq.erase cur } := by
  unfold dijkstraDiscard
  rw [mapTouch_of_mem 0 st.distances cur.1 (h.key cur hcur)]

omit [Add W] in
/-- The entry on top of the queue, if its vertex is unvisited, has the current distance of
its vertex as priority. -/
theorem top_fresh (st : DijkstraState W) (c : Nat) (cur : Int × W) (h : QueueOK st)
    (htop : pqTop c st.pq = some cur) (hnv : cur.1 ∉ st.visitSet) : cur.2 = st.D cur.1 := by
  obtain ⟨hmem, hmin⟩ := pqTop_spec c st.pq cur htop
  exact le_antisymm (hmin _ (h.live cur hmem hnv)) (h.ge cur hmem)

/-- Every recorded iteration started in a state with a good queue and took the entry on top
of the queue; an iteration that visited a vertex visited an unvisited one, every other
iteration pushed nothing and left the state that `break` and `continue` leave. -/
theorem dijkstraLoopLog_records (INF : W) (G : graph Int W) (tie : Nat → Nat) :
    ∀ (fuel n : Nat) (st r : DijkstraState W) (log : List (IterRecord W)),
      dijkstraLoopLog INF G tie fuel n st = some (r, log) → QueueOK st →
      ∀ rec ∈ log, QueueOK rec.before ∧ (∃ c, pqTop c rec.before.pq = some rec.currentV) ∧
        (rec.branch = Branch.visit → rec.currentV.1 ∉ rec.before.visitSet) ∧
        (rec.branch ≠ Branch.visit →
          rec.pushes = 0 ∧ rec.after = dijkstraDiscard rec.before rec.currentV) := by
  intro fuel
  induction fuel with
  | zero => intro n st r log h; cases h
  | succ fuel ih =>
    intro n st r log h hq rec hrec
    rcases dijkstraLoopLog_succ INF G tie fuel n st r log h with
      ⟨_, _, hlog⟩ | ⟨cur, htop, ⟨_, _, hlog⟩ | ⟨_, hv, log1, hrun, hlog⟩ |
        ⟨_, hnv, log1, hrun, hlog⟩⟩
    · subst hlog
      cases hrec
    · subst hlog
      rw [List.mem_singleton] at hrec
      subst hrec
      exact ⟨hq, ⟨tie n, htop⟩, fun hb => (by cases hb), fun _ => ⟨rfl, rfl⟩⟩
    · subst hlog
      rcases List.mem_cons.mp hrec with hrec | hrec
      · subst hrec
        exact ⟨hq, ⟨tie n, htop⟩, fun hb => (by cases hb), fun _ => ⟨rfl, rfl⟩⟩
      · exact ih _ _ _ _ hrun (queueOK_discard st cur hq hv) rec hrec
    · subst hlog
      rcases List.mem_cons.mp hrec with hrec | hrec
      · subst hrec
        exact ⟨hq, ⟨tie n, htop⟩, fun _ => hnv, fun hb => absurd rfl hb⟩
      · exact ih _ _ _ _ hrun (queueOK_visit G st cur hq) rec hrec

/-- The state in which `Dijkstra` enters its main loop: nothing is visited, the queue is
good when `INF` is not negative, the logged main loop returns from it when the fuel covers
`fuelBound`, and what it returns is what the logged function returns. -/
theorem DijkstraLog_start (INF : W) (G : graph Int W) (startV : Int)
    (distances : List (Int × W)) (tie : Nat → Nat) (fuel : Nat)
    (hs : startV ∈ G.getVertices) (hfuel : G.fuelBound ≤ fuel) :
    ∃ st1 : DijkstraState W, st1.visitSet = [] ∧ (0 ≤ INF → QueueOK st1) ∧
      (∃ r log, dijkstraLoopLog INF G tie fuel 0 st1 = some (r, log)) ∧
      ∀ r log, dijkstraLoopLog INF G tie fuel 0 st1 = some (r, log) →
        DijkstraLog INF G startV distances tie fuel = Run.done (r, log) := by
  obtain ⟨i1, _, i3, i4, i5⟩ := init_foldl INF G.getVertices
    ({ distances := distances, prev := [], visitSet := [], pq := [] } : DijkstraState W)
  simp only [List.nil_append] at i4
  have hunf : DijkstraLog INF G startV distances tie fuel =
      if mapCount (G.getVertices.foldl (dijkstraInit INF)
          ({ distances := distances, prev := [], visitSet := [], pq := [] } :
            DijkstraState W)).distances startV = 0 then Run.out_of_range
      else
        match dijkstraLoopLog INF G tie fuel 0
          { G.getVertices.foldl (dijkstraInit INF)
              ({ distances := distances, prev := [], visitSet := [], pq := [] } :
                DijkstraState W) with
            distances := mapAssign (G.getVertices.foldl (dijkstraInit INF)
              ({ distances := distances, prev := [], visitSet := [], pq := [] } :
                DijkstraState W)).distances startV 0
            pq := (G.getVertices.foldl (dijkstraInit INF)
              ({ distances := distances, prev := [], visitSet := [], pq := [] } :
                DijkstraState W)).pq ++ [(startV, 0)] } with
        | none => Run.out_of_fuel
        | some r => Run.done r := rfl
  rw [hunf]
  generalize G.getVertices.foldl (dijkstraInit INF)
    ({ distances := distances, prev := [], visitSet := [], pq := [] } : DijkstraState W)
    = st0 at i1 i3 i4 i5
  have hcount : ¬ mapCount st0.distances startV = 0 := by
    rw [mapCount_eq_zero_iff, not_not, i5]
    exact Or.inl hs
  have hD : ∀ v, DijkstraState.D { st0 with distances := mapAssign st0.distances startV 0
                                            pq := st0.pq ++ [(startV, 0)] } v
      = if startV = v then 0 else st0.D v := by
    intro v
    simp only [DijkstraState.D, mapGet_mapAssign]
  refine ⟨{ st0 with distances := mapAssign st0.distances startV 0
                     pq := st0.pq ++ [(startV, 0)] }, i3, ?_, ?_, ?_⟩
  · intro hINF
    refine ⟨?_, ?_, ?_⟩
    · intro e he
      apply (mem_map_fst_mapAssign _ _ _ _).mpr
      rcases List.mem_append.mp he with he | he
      · rw [i4] at he
        obtain ⟨v, hv, rfl⟩ := List.mem_map.mp he
        exact Or.inr ((i5 v).mpr (Or.inl hv))
      · rw [List.mem_singleton] at he
        subst he
        exact Or.inl rfl
    · intro e he
      rw [hD]
      rcases List.mem_append.mp he with he | he
      · rw [i4] at he
        obtain ⟨v, hv, rfl⟩ := List.mem_map.mp he
        by_cases hsv : startV = v
        · rw [if_pos hsv]; exact hINF
        · rw [if_neg hsv, i1, if_pos hv]
      · rw [List.mem_singleton] at he
        subst he
        rw [if_pos rfl]
    · intro e he _
      rw [hD]
      by_cases hsv : startV = e.1
      · rw [if_pos hsv, ← hsv]
        exact List.mem_append_right _ (List.mem_singleton.mpr rfl)
      · rw [if_neg hsv]
        rcases List.mem_append.mp he with he | he
        · rw [i4] at he
          obtain ⟨v, hv, rfl⟩ := List.mem_map.mp he
          apply List.mem_append_left
          rw [i4, i1, if_pos hv]
          exact List.mem_map.mpr ⟨v, hv, rfl⟩
        · rw [List.mem_singleton] at he
          subst he
          exact absurd rfl hsv
  · obtain ⟨r, hr⟩ := dijkstraLoop_terminates INF G tie fuel 0
      { st0 with distances := mapAssign st0.distances startV 0
                 pq := st0.pq ++ [(startV, 0)] } (by
        simp only [i3, i4, graph.degreeOutside, List.length_append, List.length_map,
          List.length_singleton, List.not_mem_nil, not_false_eq_true, decide_True,
          List.filter_true]
        simp only [graph.fuelBound, graph.getVertices, List.length_map] at hfuel ⊢
        omega)
    rw [← dijkstraLoopLog_fst] at hr
    cases hlog : dijkstraLoopLog INF G tie fuel 0
        { st0 with distances := mapAssign st0.distances startV 0
                   pq := st0.pq ++ [(startV, 0)] } with
    | none => rw [hlog] at hr; cases hr
    | some p => exact ⟨p.1, p.2, rfl⟩
  · intro r log hlog
    rw [if_neg hcount, hlog]

end LogLemmas

section ResourceClaims

variable {W : Type} [LinearOrder W] [Add W] [Zero W]

/-- C21. For every state `run ops` of a graph object, whatever the signs of its weights,
every source vertex `s` of it, every content of the map `distances` and every tie-breaking
of the queue, `Dijkstra(G, s, distances)` returns once the fuel covers `fuelBound`, and in
the run (with `INF` not negative): the iterations of the main loop that mark a vertex
visited and relax its neighbours do so for pairwise different vertices; an iteration whose
queue entry is for an already visited vertex, or has a priority other than the current
distance of its vertex, does not visit, pushes nothing, and changes nothing but the queue,
from which it removes the entry; and the number of `pq.push` calls is at most the number of
vertices plus one plus the number of edges (the sizes of `EdgeList` and `WeightList`). -/
theorem Dijkstra_terminates (INF : W) (ops : List (Op Int W)) (s : Int)
    (distances : List (Int × W)) (tie : Nat → Nat) (fuel : Nat) (hINF : 0 ≤ INF)
    (hs : s ∈ (graph.run ops).getVertices) (hfuel : (graph.run ops).fuelBound ≤ fuel) :
    ∃ r log,
      DijkstraLog INF (graph.run ops) s distances tie fuel = Run.done (r, log) ∧
      Dijkstra INF (graph.run ops) s distances tie fuel = Run.done (r.prev, r.distances) ∧
      (visited log).Nodup ∧
      (∀ rec ∈ log,
        rec.currentV.1 ∈ rec.before.visitSet ∨ rec.currentV.2 ≠ rec.before.D rec.currentV.1 →
        rec.branch ≠ Branch.visit ∧ rec.pushes = 0 ∧
        rec.after = { rec.before with pq := rec.before.pq.erase rec.currentV }) ∧
      totalPushes (graph.run ops) log
        ≤ (graph.run ops).EdgeList.length + 1 + (graph.run ops).WeightList.length := by
  obtain ⟨st1, hvis, hq, ⟨r, log, hrun⟩, hdone⟩ :=
    DijkstraLog_start INF (graph.run ops) s distances tie fuel hs hfuel
  have hDL := hdone r log hrun
  refine ⟨r, log, hDL, ?_, (visited_nodup INF _ tie fuel 0 st1 r log hrun).1, ?_, ?_⟩
  · rw [DijkstraLog_fst, hDL]
  · intro rec hrec hstale
    obtain ⟨hqb, ⟨c, htop⟩, hv, hd⟩ :=
      dijkstraLoopLog_records INF _ tie fuel 0 st1 r log hrun (hq hINF) rec hrec
    have hb : rec.branch ≠ Branch.visit := by
      intro hb
      have hnv := hv hb
      rcases hstale with h | h
      · exact hnv h
      · exact h (top_fresh rec.before c rec.currentV hqb htop hnv)
    obtain ⟨hp, ha⟩ := hd hb
    refine ⟨hb, hp, ?_⟩
    rw [ha]
    exact discard_eq rec.before rec.currentV hqb (pqTop_spec _ _ _ htop).1
  · have h1 := pushes_le_degree INF _ tie fuel 0 st1 r log hrun
    rw [hvis] at h1
    have h2 := degree_le_edges (graph.run ops) (graph.WF_run ops)
    simp only [totalPushes, graph.getVertices, List.length_map]
    simp only [graph.degreeOutside, List.not_mem_nil, not_false_eq_true, decide_True,
      List.filter_true] at h1
    omega

/-- Witness of C21: vertices 1 and 2 on a cycle of weight -2, source 1, `INF = 1000`; the
run returns with the distances -2 and -1 after five pushes, `2 + 1 + 2`. -/
theorem Dijkstra_terminates_witness :
    (graph.run negCycleOps).fuelBound = 6 ∧
    (graph.run negCycleOps).EdgeList.length + 1 + (graph.run negCycleOps).WeightList.length
      = 5 ∧
    Dijkstra (1000 : Int) (graph.run negCycleOps) 1 [] (fun _ => 0) 6
      = Run.done ([(1, 2), (2, 1)], [(1, -2), (2, -1)]) ∧
    ∃ r log,
      DijkstraLog (1000 : Int) (graph.run negCycleOps) 1 [] (fun _ => 0) 6
        = Run.done (r, log) ∧
      (visited log).Nodup ∧
      totalPushes (graph.run negCycleOps) log
        ≤ (graph.run negCycleOps).EdgeList.length + 1
          + (graph.run negCycleOps).WeightList.length := by
  obtain ⟨r, log, h1, _, h3, _, h5⟩ := Dijkstra_terminates (1000 : Int) negCycleOps 1 []
    (fun _ => 0) 6 (by decide) (by decide) (by decide)
  exact ⟨by decide, by decide, by decide, r, log, h1, h3, h5⟩

end ResourceClaims

/-! ## The source vertex -/

section SourceClaim

variable {W : Type} [LinearOrder W] [Add W] [Zero W]

theorem prev_keys_relax (G : graph Int W) (u a : Int) (st : DijkstraState W) :
    ∀ k ∈ st.prev.map Prod.fst, k ∈ (dijkstraRelax G u st a).prev.map Prod.fst := by
  intro k hk
  unfold dijkstraRelax
  simp only
  split
  · exact (mem_map_fst_mapAssign _ _ _ _).mpr (Or.inr hk)
  · exact hk

theorem keys_foldl (G : graph Int W) (u : Int) :
    ∀ (l : List Int) (st : DijkstraState W),
      (∀ k ∈ st.distances.map Prod.fst,
        k ∈ (l.foldl (dijkstraRelax G u) st).distances.map Prod.fst) ∧
      (∀ k ∈ st.prev.map Prod.fst, k ∈ (l.foldl (dijkstraRelax G u) st).prev.map Prod.fst) := by
  intro l
  induction l with
  | nil => intro st; exact ⟨fun k hk => hk, fun k hk => hk⟩
  | cons a l ih =>
    intro st
    obtain ⟨h1, h2⟩ := ih (dijkstraRelax G u st a)
    exact ⟨fun k hk => h1 k ((keys_relax G u a st).1 k hk),
      fun k hk => h2 k (prev_keys_relax G u a st k hk)⟩

/-- The main loop removes no key from the maps `distances` and `prev`. -/
theorem dijkstraLoopLog_keys (INF : W) (G : graph Int W) (tie : Nat → Nat) :
    ∀ (fuel n : Nat) (st r : DijkstraState W) (log : List (IterRecord W)),
      dijkstraLoopLog INF G tie fuel n st = some (r, log) →
      (∀ k ∈ st.distances.map Prod.fst, k ∈ r.distances.map Prod.fst) ∧
      (∀ k ∈ st.prev.map Prod.fst, k ∈ r.prev.map Prod.fst) := by
  intro fuel
  induction fuel with
  | zero => intro n st r log h; cases h
  | succ fuel ih =>
    intro n st r log h
    rcases dijkstraLoopLog_succ INF G tie fuel n st r log h with
      ⟨_, hr, _⟩ | ⟨cur, _, ⟨_, hr, _⟩ | ⟨_, _, log1, hrec, _⟩ | ⟨_, _, log1, hrec, _⟩⟩
    · subst hr
      exact ⟨fun k hk => hk, fun k hk => hk⟩
    · subst hr
      exact ⟨fun k hk => mem_keys_mapTouch _ _ _ _ hk, fun k hk => hk⟩
    · obtain ⟨h1, h2⟩ := ih _ _ _ _ hrec
      exact ⟨fun k hk => h1 k (mem_keys_mapTouch _ _ _ _ hk), fun k hk => h2 k hk⟩
    · obtain ⟨h1, h2⟩ := ih _ _ _ _ hrec
      obtain ⟨h3, h4⟩ := keys_foldl G cur.1 (G.neighbors cur.1)
        { distances := mapTouch 0 st.distances cur.1, prev := st.prev,
          visitSet := setInsert st.visitSet cur.1, pq := st.pq.erase cur }
      exact ⟨fun k hk => h1 k (h3 k (mem_keys_mapTouch _ _ _ _ hk)),
        fun k hk => h2 k (h4 k hk)⟩

theorem dijkstraLoop_keys (INF : W) (G : graph Int W) (tie : Nat → Nat) (fuel n : Nat)
    (st r : DijkstraState W) (h : dijkstraLoop INF G tie fuel n st = some r) :
    (∀ k ∈ st.distances.map Prod.fst, k ∈ r.distances.map Prod.fst) ∧
    (∀ k ∈ st.prev.map Prod.fst, k ∈ r.prev.map Prod.fst) := by
  rw [← dijkstraLoopLog_fst] at h
  cases hlog : dijkstraLoopLog INF G tie fuel n st with
  | none => rw [hlog] at h; cases h
  | some p =>
    obtain ⟨r1, log⟩ := p
    rw [hlog] at h
    simp only [Option.map_some', Option.some.injEq] at h
    subst h
    exact dijkstraLoopLog_keys INF G tie fuel n st r1 log hlog

omit [LinearOrder W] [Add W] [Zero W] in
/-- The initialisation loop makes every vertex a key of `prev`. -/
theorem init_prev_keys (INF : W) :
    ∀ (l : List Int) (st : DijkstraState W) (v : Int), v ∈ l ∨ v ∈ st.prev.map Prod.fst →
      v ∈ (l.foldl (dijkstraInit INF) st).prev.map Prod.fst := by
  intro l
  induction l with
  | nil =>
    intro st v h
    rcases h with h | h
    · cases h
    · exact h
  | cons a l ih =>
    intro st v h
    apply ih
    rcases h with h | h
    · rcases List.mem_cons.mp h with h | h
      · exact Or.inr ((mem_map_fst_mapAssign _ _ _ _).mpr (Or.inl h))
      · exact Or.inl h
    · exact Or.inr ((mem_map_fst_mapAssign _ _ _ _).mpr (Or.inr h))

omit [LinearOrder W] [Add W] [Zero W] in
theorem mapFind_of_key {K V : Type} [DecidableEq K] (d : V) (m : List (K × V)) (k : K)
    (h : k ∈ m.map Prod.fst) : mapFind m k = some (mapGet d m k) := by
  have hsome := (mapFind_isSome_iff m k).mpr h
  unfold mapGet
  cases hf : mapFind m k with
  | none => rw [hf] at hsome; cases hsome
  | some v => rfl

/-- The state in which `Dijkstra` enters its main loop, for an arbitrary content of the map
`distances`: the source has distance 0, the other vertices `INF`, the other keys what they
had; no predecessor is set; the source is a key of both maps; the main loop returns from it
when the fuel covers `fuelBound`, and what it returns is what the function returns. -/
theorem Dijkstra_start (INF : W) (G : graph Int W) (startV : Int)
    (distances : List (Int × W)) (tie : Nat → Nat) (fuel : Nat)
    (hs : startV ∈ G.getVertices) (hfuel : G.fuelBound ≤ fuel) :
    ∃ st1 : DijkstraState W,
      (∀ v, st1.D v = if startV = v then 0
        else if v ∈ G.getVertices then INF else mapGet 0 distances v) ∧
      (∀ v, st1.P v = 0) ∧
      startV ∈ st1.distances.map Prod.fst ∧ startV ∈ st1.prev.map Prod.fst ∧
      (∃ r, dijkstraLoop INF G tie fuel 0 st1 = some r) ∧
      ∀ r, dijkstraLoop INF G tie fuel 0 st1 = some r →
        Dijkstra INF G startV distances tie fuel = Run.done (r.prev, r.distances) := by
  obtain ⟨i1, i2, i3, i4, i5⟩ := init_foldl INF G.getVertices
    ({ distances := distances, prev := [], visitSet := [], pq := [] } : DijkstraState W)
  have i6 := init_prev_keys INF G.getVertices
    ({ distances := distances, prev := [], visitSet := [], pq := [] } : DijkstraState W)
    startV (Or.inl hs)
  simp only [List.nil_append] at i4
  have hunf : Dijkstra INF G startV distances tie fuel =
      if mapCount (G.getVertices.foldl (dijkstraInit INF)
          ({ distances := distances, prev := [], visitSet := [], pq := [] } :
            DijkstraState W)).distances startV = 0 then Run.out_of_range
      else
        match dijkstraLoop INF G tie fuel 0
          { G.getVertices.foldl (dijkstraInit INF)
              ({ distances := distances, prev := [], visitSet := [], pq := [] } :
                DijkstraState W) with
            distances := mapAssign (G.getVertices.foldl (dijkstraInit INF)
              ({ distances := distances, prev := [], visitSet := [], pq := [] } :
                DijkstraState W)).distances startV 0
            pq := (G.getVertices.foldl (dijkstraInit INF)
              ({ distances := distances, prev := [], visitSet := [], pq := [] } :
                DijkstraState W)).pq ++ [(startV, 0)] } with
        | none => Run.out_of_fuel
        | some st => Run.done (st.prev, st.distances) := rfl
  rw [hunf]
  have hD0 : ∀ v, DijkstraState.D
      ({ distances := distances, prev := [], visitSet := [], pq := [] } : DijkstraState W) v
      = mapGet 0 distances v := fun _ => rfl
  have hP0 : ∀ v, DijkstraState.P
      ({ distances := distances, prev := [], visitSet := [], pq := [] } : DijkstraState W) v
      = 0 := fun _ => rfl
  simp only [hD0] at i1
  simp only [hP0, ite_self] at i2
  generalize G.getVertices.foldl (dijkstraInit INF)
    ({ distances := distances, prev := [], visitSet := [], pq := [] } : DijkstraState W)
    = st0 at i1 i2 i3 i4 i5 i6
  have hcount : ¬ mapCount st0.distances startV = 0 := by
    rw [mapCount_eq_zero_iff, not_not, i5]
    exact Or.inl hs
  refine ⟨{ st0 with distances := mapAssign st0.distances startV 0
                     pq := st0.pq ++ [(startV, 0)] }, ?_, i2, ?_, i6, ?_, ?_⟩
  · intro v
    simp only [DijkstraState.D, mapGet_mapAssign]
    split
    · rfl
    · exact i1 v
  · exact (mem_map_fst_mapAssign _ _ _ _).mpr (Or.inl rfl)
  · exact dijkstraLoop_terminates INF G tie fuel 0
      { st0 with distances := mapAssign st0.distances startV 0
                 pq := st0.pq ++ [(startV, 0)] } (by
        simp only [i3, i4, graph.degreeOutside, List.length_append, List.length_map,
          List.length_singleton, List.not_mem_nil, not_false_eq_true, decide_True,
          List.filter_true]
        simp only [graph.fuelBound, graph.getVertices, List.length_map] at hfuel ⊢
        omega)
  · intro r hr
    rw [if_neg hcount, hr]

/-- C4. For every graph with non-negative weights, every source vertex `s` and every content
of the map `distances` before the call, `Dijkstra(G, s, distances)` finishes, and afterwards
`s` is a key of `distances` with the value 0 and a key of `prev` with the value 0, self-loops
and cycles through `s` included; so `distances[s]` and `prev[s]` read 0. -/
theorem Dijkstra_source (INF : W) (G : graph Int W) (s : Int) (distances : List (Int × W))
    (tie : Nat → Nat) (fuel : Nat) (hINF : 0 ≤ INF) (hinfl : ∀ a w : W, 0 ≤ w → a ≤ a + w)
    (hnn : G.NonNeg) (hs : s ∈ G.getVertices) (hfuel : G.fuelBound ≤ fuel) :
    ∃ prev distances1,
      Dijkstra INF G s distances tie fuel = Run.done (prev, distances1) ∧
      mapFind distances1 s = some 0 ∧ mapFind prev s = some 0 ∧
      mapGet 0 distances1 s = 0 ∧ mapGet 0 prev s = 0 := by
  obtain ⟨st1, hD, hP, hk1, hk2, ⟨r, hr⟩, hdone⟩ :=
    Dijkstra_start INF G s distances tie fuel hs hfuel
  have hpost := dijkstraLoop_post INF G tie
    (fun D P _ _ => D s = 0 ∧ P s = 0 ∧ ∀ v ∈ G.getVertices, 0 ≤ D v)
    (fun _ _ D P _ _ => D s = 0 ∧ P s = 0 ∧ ∀ v ∈ G.getVertices, 0 ≤ D v)
    (fun D P _ => D s = 0 ∧ P s = 0)
    (fun D P vis h => ⟨h.1, h.2.1⟩)
    (fun D P vis pq c cur h _ _ => ⟨h.1, h.2.1⟩)
    (fun D P vis pq c cur h _ _ _ => h)
    (fun D P vis pq c cur h _ _ _ => h)
    (by
      intro u done a D P vis pq h ha hlt
      obtain ⟨h1, h2, h3⟩ := h
      have hu : u ∈ G.getVertices := by
        by_contra hu
        rw [graph.neighbors_of_not_mem G u hu] at ha
        cases ha
      have halt : 0 ≤ D u + G.edgeData u a :=
        le_trans (h3 u hu) (hinfl _ _ (edgeData_nonneg G hnn u a))
      have has : s ≠ a := by
        intro has
        subst has
        rw [h1] at hlt
        exact absurd hlt (not_lt.mpr halt)
      refine ⟨?_, ?_, ?_⟩
      · simpa [Function.update_apply, has] using h1
      · simpa [Function.update_apply, has] using h2
      · intro v hv
        by_cases hva : v = a
        · subst hva; simpa using halt
        · simpa [Function.update_apply, hva] using h3 v hv)
    (fun u done a D P vis pq h _ _ => h)
    (fun u D P vis pq h => h)
    fuel 0 st1 r hr
    ⟨by rw [hD, if_pos rfl], hP s, fun v hv => by
      rw [hD]
      by_cases hsv : s = v
      · rw [if_pos hsv]
      · rw [if_neg hsv, if_pos hv]; exact hINF⟩
  obtain ⟨hkd, hkp⟩ := dijkstraLoop_keys INF G tie fuel 0 st1 r hr
  have h1 : mapGet 0 r.distances s = 0 := hpost.1
  have h2 : mapGet 0 r.prev s = 0 := hpost.2
  refine ⟨r.prev, r.distances, hdone r hr, ?_, ?_, h1, h2⟩
  · rw [mapFind_of_key 0 r.distances s (hkd s hk1), h1]
  · rw [mapFind_of_key 0 r.prev s (hkp s hk2), h2]

/-- Witness of C4: a graph in which the source 1 has a self-loop and lies on the cycle
1 -> 2 -> 1, with `INF = 1000`, called with a map that holds the distance 5 for vertex 1. -/
theorem Dijkstra_source_witness :
    (graph.run cycleOps).NonNeg ∧ (1 : Int) ∈ (graph.run cycleOps).getVertices ∧
    (1 : Int) ∈ (graph.run cycleOps).neighbors 1 ∧
    ∃ prev distances1,
      Dijkstra 1000 (graph.run cycleOps) 1 [(1, 5)] (fun _ => 0) 7
        = Run.done (prev, distances1) ∧
      mapFind distances1 1 = some 0 ∧ mapFind prev 1 = some 0 ∧
      mapGet 0 distances1 1 = 0 ∧ mapGet 0 prev 1 = 0 :=
  ⟨fun e _ => Nat.zero_le _, by decide, by decide,
    Dijkstra_source 1000 (graph.run cycleOps) 1 [(1, 5)] (fun _ => 0) 7 (by decide)
      (fun a w _ => Nat.le_add_right a w) (fun e _ => Nat.zero_le _) (by decide)
      (by decide)⟩

end SourceClaim

end OSM
